import Mathlib

/-!
Bet ledger: in-memory repository and query engine.

Shallow embedding of `internal/domain` and `internal/repository/in_memory.go`.

Modelling conventions

* The amount and crash point of a bet are the finite reals of the data model (a bet is
  made only after `ValidateNumber` has refused NaN and the infinities), embedded as `Rat`.
  The bounds of a filter are arbitrary `float64` values, NaN and the infinities included:
  `ParseListBetsRequest` takes them from `strconv.ParseFloat` unchecked. They are
  embedded as `Float64`, compared as IEEE 754 compares.
* `time.Time` instants are embedded as `Int` (nanoseconds), `Before` is `<`.
* Go `int` is the 64-bit two's-complement integer: arithmetic goes through `wrapInt`.
* A Go map is an association list; `range` visits it in the stored order, so a statement
  quantified over every store covers every traversal order of the same map.
* A `context.Context` is reduced to the value of `ctx.Err()`.
* A run-time panic is an outcome of its own (`Result.panic`, or `none` for `applyPagination`).
* `sort.Slice` is the pattern-defeating quicksort of the Go standard library
  (`sort/zsortfunc.go`, which the repository, using `r.PathValue` of Go 1.22, is built
  with): insertion sort on a range of at most twelve elements, heapsort once the limit of
  bad pivots is used up, and otherwise `breakPatterns_func`, `choosePivot_func`,
  `partialInsertionSort_func`, `partitionEqual_func` and `partition_func`. The slice is a
  list, `data.Less` and `data.Swap` are `lessAt` and `swapAt`, and a loop is a recursion on
  the number of rounds that are left. On an index out of range Go panics, while `lessAt`
  answers `false` and `swapAt` leaves the list as it is; the proofs show the indices of
  the comparisons and exchanges they meet to be inside the range at work.
-/

namespace BetLedger

/-! ## Machine integers -/

/-- Two's-complement wrap-around of a mathematical integer into Go's 64-bit `int`. -/
def wrapInt (x : Int) : Int := (x + 2 ^ 63) % 2 ^ 64 - 2 ^ 63

/-- Largest value of Go's 64-bit `int`. -/
def maxInt : Int := 2 ^ 63 - 1

/-- Smallest value of Go's 64-bit `int`. -/
def minInt : Int := -(2 ^ 63)

/-! ## Errors and call outcomes -/

/-- Error values seen by the repository: the two context errors and `domain.NotFoundError`. -/
inductive Error where
  | Canceled
  | DeadlineExceeded
  | NotFoundError (Resource : String) (Message : String)
deriving DecidableEq, Repr

/-- The package variable `domain.ErrBetNotFound`. -/
def ErrBetNotFound : Error := Error.NotFoundError "bet" "bet not found"

/-- The predicate `domain.IsNotFoundError`. -/
def IsNotFoundError : Error → Bool
  | Error.NotFoundError _ _ => true
  | _ => false

/-- The part of `context.Context` the repository reads: the value of `ctx.Err()`. -/
structure Context where
  Err : Option Error
deriving DecidableEq, Repr

/-- Outcome of a call that returns `(value, error)` and may also panic. -/
inductive Result (α : Type) where
  | ok (value : α)
  | error (err : Error)
  | panic
deriving DecidableEq, Repr

/-! ## `float64` -/

/-- A `float64` value: a finite number, an infinity or NaN. -/
inductive Float64 where
  | finite (q : Rat)
  | posInf
  | negInf
  | nan
deriving DecidableEq, Repr

/-- The comparison `x < y` of two `float64` values; false when either is NaN. -/
def Float64.lt : Float64 → Float64 → Bool
  | Float64.nan, _ => false
  | _, Float64.nan => false
  | Float64.finite a, Float64.finite b => decide (a < b)
  | Float64.finite _, Float64.posInf => true
  | Float64.finite _, Float64.negInf => false
  | Float64.posInf, _ => false
  | Float64.negInf, Float64.negInf => false
  | Float64.negInf, _ => true

/-- The comparison `x <= y` of two `float64` values; false when either is NaN. -/
def Float64.le : Float64 → Float64 → Bool
  | Float64.nan, _ => false
  | _, Float64.nan => false
  | Float64.finite a, Float64.finite b => decide (a ≤ b)
  | Float64.finite _, Float64.posInf => true
  | Float64.finite _, Float64.negInf => false
  | Float64.posInf, Float64.posInf => true
  | Float64.posInf, _ => false
  | Float64.negInf, _ => true

/-! ## Domain types (`internal/domain/bet.go`) -/

/-- The record `domain.Bet`. -/
structure Bet where
  ID : String
  UserID : Int
  Amount : Rat
  CrashPoint : Rat
  CreatedAt : Int
deriving DecidableEq, Repr

/-- The record `domain.BetFilters`; a nil pointer is `none`. -/
structure BetFilters where
  UserID : Option Int
  MinAmount : Option Float64
  MaxAmount : Option Float64
deriving DecidableEq, Repr

/-- The record `domain.PaginationParams`. -/
structure PaginationParams where
  Page : Int
  Limit : Int
deriving DecidableEq, Repr

/-- The record `domain.SortParams`. -/
structure SortParams where
  SortBy : String
  Order : String
deriving DecidableEq, Repr

/-- The record `domain.ListBetsRequest`; its field `Sort` is named `Sorting` here, `Sort`
being reserved. -/
structure ListBetsRequest where
  Filters : BetFilters
  Pagination : PaginationParams
  Sorting : SortParams
deriving DecidableEq, Repr

/-- The record `domain.ListBetsResponse`. -/
structure ListBetsResponse where
  Bets : List Bet
  Total : Int
  Page : Int
  Limit : Int
deriving DecidableEq, Repr

/-! ## Go maps -/

/-- Map read `m[k]` with the comma-ok flag folded into `Option`. -/
def mapGet {κ ν : Type} [DecidableEq κ] : List (κ × ν) → κ → Option ν
  | [], _ => none
  | (k', v) :: rest, k => if k' = k then some v else mapGet rest k

/-- Map write `m[k] = v`: an existing key keeps its slot, a new key gets a new slot. -/
def mapSet {κ ν : Type} [DecidableEq κ] : List (κ × ν) → κ → ν → List (κ × ν)
  | [], k, v => [(k, v)]
  | (k', v') :: rest, k, v =>
    if k' = k then (k, v) :: rest else (k', v') :: mapSet rest k v

/-! ## `sort.Slice` (Go standard library: `sort/slice.go`, `sort/sort.go`, `sort/zsortfunc.go`) -/

/-- The call `data.Less(i, j)` of `sort.Slice`: the comparison closure on the elements at
the indices `i` and `j`. -/
def lessAt {α : Type} (less : α → α → Bool) (xs : List α) (i j : Nat) : Bool :=
  match xs[i]?, xs[j]? with
  | some x, some y => less x y
  | _, _ => false

/-- The call `data.Swap(i, j)` of `sort.Slice` (`reflect.Swapper`): exchanges the elements
at the indices `i` and `j`. -/
def swapAt {α : Type} (xs : List α) (i j : Nat) : List α :=
  match xs[i]?, xs[j]? with
  | some x, some y => (xs.set i y).set j x
  | _, _ => xs

/-- The loop `for i <= j && cond(i) { i++ }`; the first argument is `j + 1 - i`. -/
def scanUp (cond : Nat → Bool) : Nat → Nat → Nat
  | 0, i => i
  | n + 1, i => if cond i then scanUp cond n (i + 1) else i

/-- The loop `for i <= j && cond(j) { j-- }`; the first argument is `j + 1 - i`. -/
def scanDown (cond : Nat → Bool) : Nat → Nat → Nat
  | 0, j => j
  | n + 1, j => if cond j then scanDown cond n (j - 1) else j

/-- The inner loop of `insertionSort_func`:
`for j := i; j > a && data.Less(j, j-1); j-- { data.Swap(j, j-1) }`. -/
def insertionSort_inner {α : Type} (less : α → α → Bool) (a : Nat) :
    Nat → List α → List α
  | 0, xs => xs
  | j + 1, xs =>
    if decide (a < j + 1) && lessAt less xs (j + 1) j then
      insertionSort_inner less a j (swapAt xs (j + 1) j)
    else xs

/-- The outer loop of `insertionSort_func`, `for i := a + 1; i < b; i++`; the first
argument is `b - i`. -/
def insertionSort_outer {α : Type} (less : α → α → Bool) (a : Nat) :
    Nat → Nat → List α → List α
  | 0, _, xs => xs
  | n + 1, i, xs => insertionSort_outer less a n (i + 1) (insertionSort_inner less a i xs)

/-- The function `insertionSort_func`: sorts `data[a:b]` using insertion sort. -/
def insertionSort_func {α : Type} (less : α → α → Bool) (xs : List α) (a b : Nat) :
    List α :=
  insertionSort_outer less a (b - (a + 1)) (a + 1) xs

/-- The loop of `siftDown_func`; the first argument bounds the number of rounds, in each
of which `root` grows. -/
def siftDown_loop {α : Type} (less : α → α → Bool) (hi first : Nat) :
    Nat → Nat → List α → List α
  | 0, _, xs => xs
  | n + 1, root, xs =>
    if hi ≤ 2 * root + 1 then xs
    else
      let child :=
        if decide (2 * root + 1 + 1 < hi) &&
            lessAt less xs (first + (2 * root + 1)) (first + (2 * root + 1) + 1) then
          2 * root + 1 + 1
        else 2 * root + 1
      if !lessAt less xs (first + root) (first + child) then xs
      else siftDown_loop less hi first n child (swapAt xs (first + root) (first + child))

/-- The function `siftDown_func`: implements the heap property on `data[lo:hi]`, where
`first` is the offset of the root of the heap. -/
def siftDown_func {α : Type} (less : α → α → Bool) (xs : List α) (lo hi first : Nat) :
    List α :=
  siftDown_loop less hi first hi lo xs

/-- The first loop of `heapSort_func`, `for i := (hi - 1) / 2; i >= 0; i--`; the first
argument is `i + 1`. -/
def heapSort_build {α : Type} (less : α → α → Bool) (hi first : Nat) :
    Nat → List α → List α
  | 0, xs => xs
  | i + 1, xs => heapSort_build less hi first i (siftDown_func less xs i hi first)

/-- The second loop of `heapSort_func`, `for i := hi - 1; i >= 0; i--`; the first
argument is `i + 1`. -/
def heapSort_pop {α : Type} (less : α → α → Bool) (first : Nat) :
    Nat → List α → List α
  | 0, xs => xs
  | i + 1, xs =>
    heapSort_pop less first i (siftDown_func less (swapAt xs first (first + i)) 0 i first)

/-- The function `heapSort_func`: sorts `data[a:b]` with heapsort. -/
def heapSort_func {α : Type} (less : α → α → Bool) (xs : List α) (a b : Nat) : List α :=
  let first := a
  let hi := b - a
  heapSort_pop less first hi (heapSort_build less hi first ((hi - 1) / 2 + 1) xs)

/-- The loop of `bits.Len`. -/
def bitsLenLoop : Nat → Nat → Nat
  | 0, _ => 0
  | fuel + 1, x => if x = 0 then 0 else bitsLenLoop fuel (x / 2) + 1

/-- The function `bits.Len`: the number of bits needed to write `x`, 0 for 0. -/
def bitsLen (x : Nat) : Nat := bitsLenLoop x x

/-- The function `nextPowerOfTwo`. -/
def nextPowerOfTwo (length : Nat) : Nat := 2 ^ bitsLen length

/-- The method `xorshift.Next` on a 64-bit state. -/
def xorshiftNext (r : Nat) : Nat :=
  let r1 := r ^^^ ((r <<< 13) % 2 ^ 64)
  let r2 := r1 ^^^ (r1 >>> 7)
  r2 ^^^ ((r2 <<< 17) % 2 ^ 64)

/-- The loop of `breakPatterns_func`, `for i := 0; i < 3; i++`; the first argument is
`3 - i`. -/
def breakPatterns_loop {α : Type} (a length modulus idx : Nat) :
    Nat → Nat → Nat → List α → List α
  | 0, _, _, xs => xs
  | n + 1, i, random, xs =>
    let next := xorshiftNext random
    let other := next &&& (modulus - 1)
    let other := if length ≤ other then other - length else other
    breakPatterns_loop a length modulus idx n (i + 1) next
      (swapAt xs (idx - 1 + i) (a + other))

/-- The function `breakPatterns_func`: scatters three elements of `data[a:b]`. -/
def breakPatterns_func {α : Type} (xs : List α) (a b : Nat) : List α :=
  let length := b - a
  if 8 ≤ length then
    breakPatterns_loop a length (nextPowerOfTwo length) (a + (length / 4) * 2 - 1)
      3 0 length xs
  else xs

/-- The type `sortedHint`. -/
inductive sortedHint where
  | unknownHint
  | increasingHint
  | decreasingHint
deriving DecidableEq, Repr

/-- The function `order2_func`: the two indices in the order of their elements, and the
count of swaps. -/
def order2_func {α : Type} (less : α → α → Bool) (xs : List α) (a b swaps : Nat) :
    Nat × Nat × Nat :=
  if lessAt less xs b a then (b, a, swaps + 1) else (a, b, swaps)

/-- The function `median_func`: the index of the median of three elements, and the count
of swaps. -/
def median_func {α : Type} (less : α → α → Bool) (xs : List α) (a b c swaps : Nat) :
    Nat × Nat :=
  let r1 := order2_func less xs a b swaps
  let r2 := order2_func less xs r1.2.1 c r1.2.2
  let r3 := order2_func less xs r1.1 r2.1 r2.2.2
  (r3.2.1, r3.2.2)

/-- The function `medianAdjacent_func`. -/
def medianAdjacent_func {α : Type} (less : α → α → Bool) (xs : List α) (a swaps : Nat) :
    Nat × Nat :=
  median_func less xs (a - 1) a (a + 1) swaps

/-- The function `choosePivot_func`: a pivot index in `data[a:b]` and a hint. -/
def choosePivot_func {α : Type} (less : α → α → Bool) (xs : List α) (a b : Nat) :
    Nat × sortedHint :=
  let l := b - a
  let i := a + l / 4 * 1
  let j := a + l / 4 * 2
  let k := a + l / 4 * 3
  let r :=
    if 8 ≤ l then
      if 50 ≤ l then
        let ri := medianAdjacent_func less xs i 0
        let rj := medianAdjacent_func less xs j ri.2
        let rk := medianAdjacent_func less xs k rj.2
        median_func less xs ri.1 rj.1 rk.1 rk.2
      else median_func less xs i j k 0
    else (j, 0)
  if r.2 = 0 then (r.1, sortedHint.increasingHint)
  else if r.2 = 12 then (r.1, sortedHint.decreasingHint)
  else (r.1, sortedHint.unknownHint)

/-- The loop of `reverseRange_func`, `for i < j`; the first argument bounds the rounds. -/
def reverseRange_loop {α : Type} : Nat → Nat → Nat → List α → List α
  | 0, _, _, xs => xs
  | n + 1, i, j, xs =>
    if i < j then reverseRange_loop n (i + 1) (j - 1) (swapAt xs i j) else xs

/-- The function `reverseRange_func`. -/
def reverseRange_func {α : Type} (xs : List α) (a b : Nat) : List α :=
  reverseRange_loop (b - a) a (b - 1) xs

/-- The loop `for j := i - 1; j >= 1; j--` of `partialInsertionSort_func`, which shifts
the smaller element to the left; the first argument is `j`. -/
def shiftLeft_loop {α : Type} (less : α → α → Bool) : Nat → List α → List α
  | 0, xs => xs
  | j + 1, xs =>
    if !lessAt less xs (j + 1) j then xs
    else shiftLeft_loop less j (swapAt xs (j + 1) j)

/-- The loop `for j := i + 1; j < b; j++` of `partialInsertionSort_func`, which shifts
the greater element to the right; the first argument is `b - j`. -/
def shiftRight_loop {α : Type} (less : α → α → Bool) : Nat → Nat → List α → List α
  | 0, _, xs => xs
  | n + 1, j, xs =>
    if !lessAt less xs j (j - 1) then xs
    else shiftRight_loop less n (j + 1) (swapAt xs j (j - 1))

/-- The loop `for j := 0; j < maxSteps; j++` of `partialInsertionSort_func`; the first
argument is `maxSteps - j`. -/
def partialInsertionSort_loop {α : Type} (less : α → α → Bool) (a b : Nat) :
    Nat → Nat → List α → List α × Bool
  | 0, _, xs => (xs, false)
  | s + 1, i, xs =>
    let i1 := scanUp (fun k => !lessAt less xs k (k - 1)) (b - i) i
    if i1 = b then (xs, true)
    else if b - a < 50 then (xs, false)
    else
      let xs1 := swapAt xs i1 (i1 - 1)
      let xs2 := if 2 ≤ i1 - a then shiftLeft_loop less (i1 - 1) xs1 else xs1
      let xs3 := if 2 ≤ b - i1 then shiftRight_loop less (b - (i1 + 1)) (i1 + 1) xs2 else xs2
      partialInsertionSort_loop less a b s i1 xs3

/-- The function `partialInsertionSort_func`: partially sorts `data[a:b]`; the flag says
whether the slice is sorted at the end. -/
def partialInsertionSort_func {α : Type} (less : α → α → Bool) (xs : List α) (a b : Nat) :
    List α × Bool :=
  partialInsertionSort_loop less a b 5 (a + 1) xs

/-- The loop of `partitionEqual_func`; the first argument bounds the rounds. -/
def partitionEqual_loop {α : Type} (less : α → α → Bool) (a : Nat) :
    Nat → List α → Nat → Nat → List α × Nat
  | 0, xs, i, _ => (xs, i)
  | n + 1, xs, i, j =>
    let i1 := scanUp (fun k => !lessAt less xs a k) (j + 1 - i) i
    let j1 := scanDown (fun k => lessAt less xs a k) (j + 1 - i1) j
    if j1 < i1 then (xs, i1)
    else partitionEqual_loop less a n (swapAt xs i1 j1) (i1 + 1) (j1 - 1)

/-- The function `partitionEqual_func`: partitions `data[a:b]` into the elements equal to
`data[pivot]` followed by those greater; returns the data and the new start. -/
def partitionEqual_func {α : Type} (less : α → α → Bool) (xs : List α) (a b pivot : Nat) :
    List α × Nat :=
  partitionEqual_loop less a (b - a) (swapAt xs a pivot) (a + 1) (b - 1)

/-- The second loop of `partition_func`; the first argument bounds the rounds. -/
def partition_loop {α : Type} (less : α → α → Bool) (a : Nat) :
    Nat → List α → Nat → Nat → List α × Nat
  | 0, xs, _, j => (xs, j)
  | n + 1, xs, i, j =>
    let i1 := scanUp (fun k => lessAt less xs k a) (j + 1 - i) i
    let j1 := scanDown (fun k => !lessAt less xs k a) (j + 1 - i1) j
    if j1 < i1 then (xs, j1)
    else partition_loop less a n (swapAt xs i1 j1) (i1 + 1) (j1 - 1)

/-- The function `partition_func`: one quicksort partition of `data[a:b]`; returns the
data, the new index of the pivot and whether the slice was already partitioned. -/
def partition_func {α : Type} (less : α → α → Bool) (xs : List α) (a b pivot : Nat) :
    List α × Nat × Bool :=
  let xs1 := swapAt xs a pivot
  let i := scanUp (fun k => lessAt less xs1 k a) (b - 1 + 1 - (a + 1)) (a + 1)
  let j := scanDown (fun k => !lessAt less xs1 k a) (b - 1 + 1 - i) (b - 1)
  if j < i then (swapAt xs1 j a, j, true)
  else
    let r := partition_loop less a (b - a) (swapAt xs1 i j) (i + 1) (j - 1)
    (swapAt r.1 r.2 a, r.2, false)

/-- The function `pdqsort_func`: sorts `data[a:b]`. Its loop and its recursion are both
the recursion of this definition; the first argument bounds their depth, and every round
works on a shorter range. -/
def pdqsort_func {α : Type} (less : α → α → Bool) :
    Nat → List α → Nat → Nat → Nat → Bool → Bool → List α
  | 0, xs, _, _, _, _, _ => xs
  | fuel + 1, xs, a, b, limit, wasBalanced, wasPartitioned =>
    let length := b - a
    if length ≤ 12 then insertionSort_func less xs a b
    else if limit = 0 then heapSort_func less xs a b
    else
      let xs1 := if !wasBalanced then breakPatterns_func xs a b else xs
      let limit1 := if !wasBalanced then limit - 1 else limit
      let cp := choosePivot_func less xs1 a b
      let xs2 := if cp.2 = sortedHint.decreasingHint then reverseRange_func xs1 a b else xs1
      let pivot := if cp.2 = sortedHint.decreasingHint then (b - 1) - (cp.1 - a) else cp.1
      let hint :=
        if cp.2 = sortedHint.decreasingHint then sortedHint.increasingHint else cp.2
      let tryPartial := wasBalanced && wasPartitioned &&
        decide (hint = sortedHint.increasingHint)
      let pis := if tryPartial then partialInsertionSort_func less xs2 a b else (xs2, false)
      if pis.2 then pis.1
      else
        let xs3 := pis.1
        if decide (0 < a) && !lessAt less xs3 (a - 1) pivot then
          let pe := partitionEqual_func less xs3 a b pivot
          pdqsort_func less fuel pe.1 pe.2 b limit1 wasBalanced wasPartitioned
        else
          let pt := partition_func less xs3 a b pivot
          let mid := pt.2.1
          let leftLen := mid - a
          let rightLen := b - mid
          let balanceThreshold := length / 8
          if leftLen < rightLen then
            pdqsort_func less fuel
              (pdqsort_func less fuel pt.1 a mid limit1 true true)
              (mid + 1) b limit1 (decide (balanceThreshold ≤ leftLen)) pt.2.2
          else
            pdqsort_func less fuel
              (pdqsort_func less fuel pt.1 (mid + 1) b limit1 true true)
              a mid limit1 (decide (balanceThreshold ≤ rightLen)) pt.2.2

/-- The function `sort.Slice`: sorts the slice with `pdqsort_func`, given the comparison
closure `less` on elements. -/
def sortSlice {α : Type} (less : α → α → Bool) (data : List α) : List α :=
  pdqsort_func less (data.length + 1) data 0 data.length (bitsLen data.length) true true

/-! ## Insertion sort on lists, and the predicates of the proofs on `sort.Slice` -/

/-- What the inner loop of `insertionSort_func`,
`for j := i; j > a && less(j, j-1); j-- { swap(j, j-1) }`, does to the sorted prefix
`data[a:i]`, which is held reversed (nearest neighbour first); `x` is the travelling
element `data[i]`. The lemma `insertionSort_inner_eq` ties it to the loop. -/
def insertLeft {α : Type} (less : α → α → Bool) (x : α) : List α → List α
  | [] => [x]
  | y :: ys => if less x y then y :: insertLeft less x ys else x :: y :: ys

/-- What the outer loop of `insertionSort_func` does to the elements not yet inserted; the
prefix built so far is held reversed. The lemma `insertionSort_func_eq` ties it to
`insertionSort_func`. -/
def insertionSortRev {α : Type} (less : α → α → Bool) : List α → List α → List α
  | rev, [] => rev
  | rev, x :: rest => insertionSortRev less (insertLeft less x rev) rest

/-- What the proofs on `sort.Slice` ask of a comparison closure `less` and of the order
`R` wanted of the result: `R` is transitive, `less x y` implies `R x y`, and its failure
implies `R y x`. -/
structure SortOrder {α : Type} (less : α → α → Bool) (R : α → α → Prop) : Prop where
  trans : ∀ x y z, R x y → R y z → R x z
  of_less : ∀ x y, less x y = true → R x y
  of_not_less : ∀ x y, less x y = false → R y x

/-- Two elements that `R` orders both ways. -/
def Eqv {α : Type} (R : α → α → Prop) (x y : α) : Prop := R x y ∧ R y x

/-- The state `ys` comes from `xs` by moving elements inside the range of indices
`[a, b)`: the length is kept, every index outside the range keeps its element, and every
element inside the range was inside it before. -/
def Moved {α : Type} (d : α) (a b : Nat) (xs ys : List α) : Prop :=
  ys.length = xs.length ∧
  (∀ k, k < a ∨ b ≤ k → ys.getD k d = xs.getD k d) ∧
  (∀ k, a ≤ k → k < b → ∃ k', a ≤ k' ∧ k' < b ∧ ys.getD k d = xs.getD k' d)

/-- As `Moved`, up to elements that `R` orders both ways. -/
def Step {α : Type} (R : α → α → Prop) (d : α) (a b : Nat) (xs ys : List α) : Prop :=
  ys.length = xs.length ∧
  (∀ k, k < a ∨ b ≤ k → Eqv R (ys.getD k d) (xs.getD k d)) ∧
  (∀ k, a ≤ k → k < b → ∃ k', a ≤ k' ∧ k' < b ∧ Eqv R (ys.getD k d) (xs.getD k' d))

/-- The range `[a, b)` of `xs` is in the order `R`. -/
def SortedOn {α : Type} (R : α → α → Prop) (d : α) (xs : List α) (a b : Nat) : Prop :=
  ∀ i j, a ≤ i → i < j → j < b → R (xs.getD i d) (xs.getD j d)

/-- Every element before index `a` is in the order `R` with every element of the range
`[a, b)`. -/
def Below {α : Type} (R : α → α → Prop) (d : α) (xs : List α) (a b : Nat) : Prop :=
  ∀ i j, i < a → a ≤ j → j < b → R (xs.getD i d) (xs.getD j d)

/-- The heap property of `heapSort_func` on the nodes `[lo, hi)` of the heap whose root is
at index `first`: each child that is below `hi` is in the order `R` with its parent. -/
def HeapFrom {α : Type} (R : α → α → Prop) (d : α) (first lo hi : Nat) (xs : List α) :
    Prop :=
  ∀ k c, lo ≤ k → c < hi → (c = 2 * k + 1 ∨ c = 2 * k + 2) →
    R (xs.getD (first + c) d) (xs.getD (first + k) d)

/-! ## The repository (`internal/repository/in_memory.go`) -/

/-- The state of `inMemoryBetRepository`: primary map and secondary index. -/
structure inMemoryBetRepository where
  bets : List (String × Bet)
  userIDIndex : List (Int × List String)
deriving DecidableEq, Repr

/-- The constructor `NewInMemoryBetRepository`. -/
def NewInMemoryBetRepository : inMemoryBetRepository :=
  { bets := [], userIDIndex := [] }

/-- The method `Create`: returned error and the store afterwards. -/
def inMemoryBetRepository.Create (r : inMemoryBetRepository) (ctx : Context) (bet : Bet) :
    Option Error × inMemoryBetRepository :=
  match ctx.Err with
  | some e => (some e, r)
  | none =>
    (none,
      { bets := mapSet r.bets bet.ID bet
        userIDIndex :=
          mapSet r.userIDIndex bet.UserID
            ((mapGet r.userIDIndex bet.UserID).getD [] ++ [bet.ID]) })

/-- The method `GetByID`; the store is only read. -/
def inMemoryBetRepository.GetByID (r : inMemoryBetRepository) (ctx : Context) (id : String) :
    Except Error Bet :=
  match ctx.Err with
  | some e => Except.error e
  | none =>
    match mapGet r.bets id with
    | none => Except.error ErrBetNotFound
    | some bet => Except.ok bet

/-- The method `matchesFilter`. -/
def inMemoryBetRepository.matchesFilter (bet : Bet) (filters : BetFilters) : Bool :=
  if filters.UserID = none ∧ filters.MinAmount = none ∧ filters.MaxAmount = none then true
  else if (match filters.UserID with
      | some userID => decide (bet.UserID ≠ userID)
      | none => false) then false
  else if (match filters.MinAmount with
      | some lo => Float64.lt (Float64.finite bet.Amount) lo
      | none => false) then false
  else if (match filters.MaxAmount with
      | some hi => Float64.lt hi (Float64.finite bet.Amount)
      | none => false) then false
  else true

/-- Follows the words of the specification (section 4.2, step 1), not the code: a record
matches when no user filter is set or its `userId` equals the filter, and no
minimum-amount filter is set or `amount >= min`, and no maximum-amount filter is set or
`amount <= max`. -/
def satisfiesFilters (bet : Bet) (filters : BetFilters) : Bool :=
  (match filters.UserID with
    | some userID => decide (bet.UserID = userID)
    | none => true) &&
  (match filters.MinAmount with
    | some lo => Float64.le lo (Float64.finite bet.Amount)
    | none => true) &&
  (match filters.MaxAmount with
    | some hi => Float64.le (Float64.finite bet.Amount) hi
    | none => true)

/-- The comparison closure handed to `sort.Slice` by `applySorting`, on the two records
found at positions `i` and `j`. -/
def inMemoryBetRepository.sortLess (sortParams : SortParams) (bi bj : Bet) : Bool :=
  let less : Bool :=
    if sortParams.SortBy = "amount" then decide (bi.Amount < bj.Amount)
    else if sortParams.SortBy = "created_at" then decide (bi.CreatedAt < bj.CreatedAt)
    else decide (bi.CreatedAt < bj.CreatedAt)
  if sortParams.Order = "desc" then !less else less

/-- The method `applySorting`: sorts a copy of its argument. -/
def inMemoryBetRepository.applySorting (bets : List Bet) (sortParams : SortParams) :
    List Bet :=
  sortSlice (inMemoryBetRepository.sortLess sortParams) bets

/-- The local `pagination.Page` of `applyPagination` after `if pagination.Page < 1`. -/
def inMemoryBetRepository.pageOf (pagination : PaginationParams) : Int :=
  if pagination.Page < 1 then 1 else pagination.Page

/-- The local `pagination.Limit` of `applyPagination` after `if pagination.Limit < 1`. -/
def inMemoryBetRepository.limitOf (pagination : PaginationParams) : Int :=
  if pagination.Limit < 1 then 10 else pagination.Limit

/-- The local `start := (pagination.Page - 1) * pagination.Limit` of `applyPagination`. -/
def inMemoryBetRepository.startOf (pagination : PaginationParams) : Int :=
  wrapInt (wrapInt (inMemoryBetRepository.pageOf pagination - 1) *
    inMemoryBetRepository.limitOf pagination)

/-- The local `end` of `applyPagination`: `start + pagination.Limit`, lowered to
`len(bets)` by `if end > len(bets)`. -/
def inMemoryBetRepository.endOf (bets : List Bet) (pagination : PaginationParams) : Int :=
  if wrapInt (inMemoryBetRepository.startOf pagination +
      inMemoryBetRepository.limitOf pagination) > (bets.length : Int)
  then (bets.length : Int)
  else wrapInt (inMemoryBetRepository.startOf pagination +
      inMemoryBetRepository.limitOf pagination)

/-- The method `applyPagination`; `none` is the run-time panic of `make` with a negative
length or of the slice expression `bets[start:end]` with bounds out of range. -/
def inMemoryBetRepository.applyPagination (bets : List Bet) (pagination : PaginationParams) :
    Option (List Bet) :=
  if inMemoryBetRepository.startOf pagination ≥ (bets.length : Int) then some []
  else if 0 ≤ inMemoryBetRepository.startOf pagination ∧
      inMemoryBetRepository.startOf pagination ≤ inMemoryBetRepository.endOf bets pagination
  then
    some ((bets.drop (inMemoryBetRepository.startOf pagination).toNat).take
      (inMemoryBetRepository.endOf bets pagination -
        inMemoryBetRepository.startOf pagination).toNat)
  else none

/-- The method `HealthCheck`; the store is only read. -/
def inMemoryBetRepository.HealthCheck (_r : inMemoryBetRepository) (ctx : Context) :
    Option Error :=
  match ctx.Err with
  | some e => some e
  | none => none

/-- The candidate records `betsToCheck` of `List`, or `none` when the user filter names a
user without an index bucket (the early return). -/
def inMemoryBetRepository.betsToCheck (r : inMemoryBetRepository) (filters : BetFilters) :
    Option (List Bet) :=
  match filters.UserID with
  | some userID =>
    match mapGet r.userIDIndex userID with
    | none => none
    | some betIDs => some (betIDs.filterMap (fun betID => mapGet r.bets betID))
  | none => some (r.bets.map Prod.snd)

/-- The method `List`; the store is only read. -/
def inMemoryBetRepository.List (r : inMemoryBetRepository) (ctx : Context)
    (req : ListBetsRequest) : Result ListBetsResponse :=
  match ctx.Err with
  | some e => Result.error e
  | none =>
    match r.betsToCheck req.Filters with
    | none =>
      Result.ok { Bets := [], Total := 0, Page := req.Pagination.Page,
                  Limit := req.Pagination.Limit }
    | some betsToCheck =>
      let filteredBets :=
        betsToCheck.filter (fun bet => inMemoryBetRepository.matchesFilter bet req.Filters)
      let sortedBets := inMemoryBetRepository.applySorting filteredBets req.Sorting
      let total : Int := (sortedBets.length : Int)
      match inMemoryBetRepository.applyPagination sortedBets req.Pagination with
      | none => Result.panic
      | some paginatedBets =>
        Result.ok { Bets := paginatedBets, Total := total, Page := req.Pagination.Page,
                    Limit := req.Pagination.Limit }

/-- The store after a run of `Create` calls, each with a live context, in list order. -/
def createAll (r : inMemoryBetRepository) : List Bet → inMemoryBetRepository
  | [] => r
  | bet :: rest => createAll (r.Create { Err := none } bet).2 rest

/-- Pagination whose arithmetic stays inside Go's `int`: after the two defaults of
`applyPagination` are applied, `page * limit` does not exceed `maxInt`. -/
def paginationFits (pagination : PaginationParams) : Prop :=
  inMemoryBetRepository.pageOf pagination * inMemoryBetRepository.limitOf pagination ≤ maxInt

instance (pagination : PaginationParams) : Decidable (paginationFits pagination) := by
  unfold paginationFits; infer_instance

/-! ## The admission limiter (`internal/middleware/ratelimit.go`)

Instants are readings of the process clock in nanoseconds, as `time.Now()` returns them;
`Sub` is their difference, which for such readings stays far below the bound at which
`time.Duration` saturates. The statement `client.count++` runs only when
`count < requestsPerWindow`, itself an `int`, so it cannot overflow. -/

/-- The duration `time.Minute`, in nanoseconds. -/
def Minute : Int := 60000000000

/-- The method `Time.Sub` on clock readings. -/
def timeSub (t u : Int) : Int := t - u

/-- The record `clientLimiter`. -/
structure clientLimiter where
  count : Int
  windowStart : Int
deriving DecidableEq, Repr

/-- The record `RateLimitConfig`; the logger is left out. -/
structure RateLimitConfig where
  RequestsPerMinute : Int
deriving DecidableEq, Repr

/-- The state of `RateLimiter`: the fields that `Allow` and `cleanup` read or write. -/
structure RateLimiter where
  requestsPerWindow : Int
  windowDuration : Int
  clients : List (String × clientLimiter)
  cleanupInterval : Int
  lastCleanup : Int
deriving DecidableEq, Repr

/-- The constructor `NewRateLimiter`; `now` is the reading of `time.Now()`. -/
def NewRateLimiter (config : RateLimitConfig) (now : Int) : RateLimiter :=
  { requestsPerWindow := if config.RequestsPerMinute ≤ 0 then 60 else config.RequestsPerMinute
    windowDuration := Minute
    clients := []
    cleanupInterval := 5 * Minute
    lastCleanup := now }

/-- The built-in `delete(m, k)`. -/
def mapDelete {κ ν : Type} [DecidableEq κ] (m : List (κ × ν)) (k : κ) : List (κ × ν) :=
  m.filter (fun p => decide (p.1 ≠ k))

/-- The method `Allow`; `now` is the reading of `time.Now()`. Returns the answer and the
limiter afterwards. -/
def RateLimiter.Allow (rl : RateLimiter) (now : Int) (ip : String) : Bool × RateLimiter :=
  match mapGet rl.clients ip with
  | none =>
    (true, { rl with clients := mapSet rl.clients ip { count := 1, windowStart := now } })
  | some client =>
    if timeSub now client.windowStart ≥ rl.windowDuration then
      (true, { rl with clients := mapSet rl.clients ip { count := 1, windowStart := now } })
    else if client.count ≥ rl.requestsPerWindow then (false, rl)
    else
      (true, { rl with clients := (mapSet rl.clients ip
        { count := client.count + 1, windowStart := client.windowStart }) })

/-- The loop `for ip, client := range rl.clients { if now.Sub(client.windowStart) >
rl.windowDuration { delete(rl.clients, ip) } }` of `cleanup`: `entries` are the entries
still to visit, `clients` is the map as it stands. -/
def sweepLoop (windowDuration now : Int) :
    List (String × clientLimiter) → List (String × clientLimiter) →
      List (String × clientLimiter)
  | [], clients => clients
  | (ip, client) :: entries, clients =>
    if timeSub now client.windowStart > windowDuration then
      sweepLoop windowDuration now entries (mapDelete clients ip)
    else sweepLoop windowDuration now entries clients

/-- The branch `case <-ticker.C` of `cleanup`: one sweep at clock reading `now`. -/
def RateLimiter.cleanupTick (rl : RateLimiter) (now : Int) : RateLimiter :=
  { rl with clients := sweepLoop rl.windowDuration now rl.clients rl.clients,
            lastCleanup := now }

/-- The branch `case <-rl.ctx.Done()` of `cleanup`: the final sweep, at clock reading
`now`, after which the goroutine returns. -/
def RateLimiter.cleanupDone (rl : RateLimiter) (now : Int) : RateLimiter :=
  { rl with clients := sweepLoop rl.windowDuration now rl.clients rl.clients,
            lastCleanup := now }

/-- What happens to a limiter: a call of `Allow` or a sweep of `cleanup`, each with the
clock reading it takes. -/
inductive Event where
  | allow (ip : String) (now : Int)
  | sweep (now : Int)
deriving DecidableEq, Repr

/-- The clock reading of an event. -/
def Event.time : Event → Int
  | Event.allow _ now => now
  | Event.sweep now => now

/-- A run of events in order: the log of the `Allow` calls (key, clock reading, answer)
and the limiter afterwards. -/
def RateLimiter.run (rl : RateLimiter) : List Event → List (String × Int × Bool) × RateLimiter
  | [] => ([], rl)
  | Event.allow ip now :: rest =>
    ((ip, now, (rl.Allow now ip).1) :: ((rl.Allow now ip).2.run rest).1,
      ((rl.Allow now ip).2.run rest).2)
  | Event.sweep now :: rest => (rl.cleanupTick now).run rest

/-- The answers of the `Allow` calls of a log, in order. -/
def answers (log : List (String × Int × Bool)) : List Bool := log.map (fun e => e.2.2)

/-- Number of calls `Allow(k)` of a log that were allowed at a clock reading in `[a, b]`. -/
def allowedIn (log : List (String × Int × Bool)) (k : String) (a b : Int) : Nat :=
  log.countP (fun e => decide (e.1 = k) && decide (a ≤ e.2.1) && decide (e.2.1 ≤ b) && e.2.2)

/-- A run without its sweeps. -/
def dropSweeps : List Event → List Event
  | [] => []
  | Event.allow ip now :: rest => Event.allow ip now :: dropSweeps rest
  | Event.sweep _ :: rest => dropSweeps rest

/-- Relation between a limiter `a` that has been swept and the limiter `b` that went
through the same calls without sweeps, at a clock reading `lo`: same limit and window
length, and on every key either the same record, or no record in `a` and in `b` a record
that is older than one window at `lo`. -/
def sweepSim (lo : Int) (a b : RateLimiter) : Prop :=
  a.requestsPerWindow = b.requestsPerWindow ∧ a.windowDuration = b.windowDuration ∧
  (a.clients.map Prod.fst).Nodup ∧
  ∀ k, mapGet a.clients k = mapGet b.clients k ∨
    (mapGet a.clients k = none ∧
      ∃ c, mapGet b.clients k = some c ∧ lo - c.windowStart > b.windowDuration)

/-- Bookkeeping for the burst bound of key `k` over the interval `[a, b]`: `record` is the
record of `k`, `last` the latest clock reading so far and `n` the number of allowed calls
of `k` so far inside `[a, b]`. A window that began before `a` has contributed at most
`count - 1` calls, a previous window at most `L - 1`. -/
def burstInv (L a b : Int) (record : Option clientLimiter) (last n : Int) : Prop :=
  (last < a → n = 0) ∧
  (record = none → n ≤ L - 1 ∨ (b < last ∧ n ≤ 2 * L - 1)) ∧
  (∀ c, record = some c →
    1 ≤ c.count ∧ c.count ≤ L ∧ c.windowStart ≤ last ∧
    (c.windowStart < a → n ≤ c.count - 1) ∧
    (a ≤ c.windowStart → c.windowStart ≤ b → n ≤ L - 1 + c.count) ∧
    (b < c.windowStart → n ≤ 2 * L - 1))

/-- A schedule for limit `n` that straddles a window boundary: one call at reading 0,
`n - 1` calls at reading 1 and `n` calls at reading `Minute`. -/
def burstSchedule (k : String) (n : Nat) : List Event :=
  Event.allow k 0 ::
    (List.replicate (n - 1) (Event.allow k 1) ++ List.replicate n (Event.allow k Minute))

/-! ## Query parameters (`internal/handler/request_parser.go`) and `ValidateSort`

A query value is a sequence of Unicode code points. `strings.ToLower` is embedded on the
letters `A` to `Z`; the other code points are left as they are. -/

/-- The predicate `unicode.IsSpace`, which `strings.TrimSpace` uses. -/
def isSpace (c : Char) : Bool :=
  decide ((9 ≤ c.toNat ∧ c.toNat ≤ 13) ∨ c.toNat = 32 ∨ c.toNat = 133 ∨ c.toNat = 160 ∨
    c.toNat = 5760 ∨ (8192 ≤ c.toNat ∧ c.toNat ≤ 8202) ∨ c.toNat = 8232 ∨ c.toNat = 8233 ∨
    c.toNat = 8239 ∨ c.toNat = 8287 ∨ c.toNat = 12288)

/-- The function `strings.TrimSpace`. -/
def TrimSpace (s : String) : String :=
  String.mk ((s.toList.dropWhile isSpace).reverse.dropWhile isSpace).reverse

/-- The function `strings.ToLower`. -/
def ToLower (s : String) : String := String.mk (s.toList.map Char.toLower)

/-- The characters matched by `dangerousCharsRegex`: the double quote (34), the single
quote (39) and `<`, `>`, `%`, `;`, `)`, `(`, `&`, `+`. -/
def dangerousChars : List Char := Char.ofNat 34 :: Char.ofNat 39 :: "<>%;)(&+".toList

/-- The function `sanitizeQueryParam`. -/
def sanitizeQueryParam (s : String) : String :=
  String.mk ((TrimSpace s).toList.filter (fun c => !dangerousChars.contains c))

/-- The function `validateQueryParam`. -/
def validateQueryParam (s : String) (allowedValues : List String) : Bool :=
  if allowedValues.length = 0 then true
  else allowedValues.any (fun allowed => decide (ToLower allowed = ToLower (TrimSpace s)))

/-- The field `Sort.SortBy` that `ParseListBetsRequest` computes from the value `sortBy`
of the query parameter `sort_by`. -/
def ParseListBetsRequest_SortBy (sortBy : String) : String :=
  if sortBy = "" then "created_at"
  else if !validateQueryParam (sanitizeQueryParam sortBy) ["amount", "created_at"] then
    "created_at"
  else sanitizeQueryParam sortBy

/-- The field `Sort.Order` that `ParseListBetsRequest` computes from the value `order` of
the query parameter `order`. -/
def ParseListBetsRequest_Order (order : String) : String :=
  if order = "" then "desc"
  else if !validateQueryParam (sanitizeQueryParam order) ["asc", "desc"] then "desc"
  else sanitizeQueryParam order

/-- The record `domain.ValidationError`. -/
structure ValidationError where
  Field : String
  Message : String
deriving DecidableEq, Repr

/-- The method `ValidateSort`; `none` is the nil error. -/
def ValidateSort (sortBy order : String) : Option ValidationError :=
  if sortBy ≠ "" ∧ sortBy ≠ "amount" ∧ sortBy ≠ "created_at" then
    some { Field := "sort_by", Message := "sort_by must be either \'amount\' or \'created_at\'" }
  else if order ≠ "" ∧ order ≠ "asc" ∧ order ≠ "desc" then
    some { Field := "order", Message := "order must be either \'asc\' or \'desc\'" }
  else none

/-! ## Lemmas on maps -/

theorem mapGet_mapSet_self {κ ν : Type} [DecidableEq κ] (m : List (κ × ν)) (k : κ) (v : ν) :
    mapGet (mapSet m k v) k = some v := by
  induction m with
  | nil => simp [mapSet, mapGet]
  | cons p rest ih =>
    obtain ⟨k', v'⟩ := p
    by_cases h : k' = k
    · simp [mapSet, mapGet, h]
    · simp [mapSet, mapGet, h, ih]

theorem mapGet_mapSet_ne {κ ν : Type} [DecidableEq κ] (m : List (κ × ν)) (k k₀ : κ) (v : ν)
    (hne : k₀ ≠ k) : mapGet (mapSet m k v) k₀ = mapGet m k₀ := by
  induction m with
  | nil =>
    have : ¬ k = k₀ := fun h => hne h.symm
    simp [mapSet, mapGet, this]
  | cons p rest ih =>
    obtain ⟨k', v'⟩ := p
    by_cases h : k' = k
    · subst h
      have : ¬ k' = k₀ := fun h => hne h.symm
      simp [mapSet, mapGet, this]
    · by_cases h2 : k' = k₀
      · subst h2
        simp [mapSet, mapGet, h]
      · simp [mapSet, mapGet, h, h2, ih]

theorem mapGet_eq_none_iff {κ ν : Type} [DecidableEq κ] (m : List (κ × ν)) (k : κ) :
    mapGet m k = none ↔ ∀ p ∈ m, p.1 ≠ k := by
  induction m with
  | nil => simp [mapGet]
  | cons p rest ih =>
    obtain ⟨k', v'⟩ := p
    by_cases h : k' = k
    · simp [mapGet, h]
    · simp [mapGet, h, ih]

theorem mapGet_mem {κ ν : Type} [DecidableEq κ] (m : List (κ × ν)) (k : κ) (v : ν)
    (h : mapGet m k = some v) : (k, v) ∈ m := by
  induction m with
  | nil => simp [mapGet] at h
  | cons p rest ih =>
    obtain ⟨k', v'⟩ := p
    by_cases hk : k' = k
    · simp [mapGet, hk] at h
      simp [hk, h]
    · simp [mapGet, hk] at h
      exact List.mem_cons_of_mem _ (ih h)

/-! ## Lemmas on `Create` -/

theorem create_live_bets (r : inMemoryBetRepository) (bet : Bet) :
    (r.Create { Err := none } bet).2.bets = mapSet r.bets bet.ID bet := rfl

theorem create_live_index (r : inMemoryBetRepository) (bet : Bet) :
    (r.Create { Err := none } bet).2.userIDIndex =
      mapSet r.userIDIndex bet.UserID
        ((mapGet r.userIDIndex bet.UserID).getD [] ++ [bet.ID]) := rfl

theorem createAll_get_other (bets : List Bet) (r : inMemoryBetRepository) (id : String)
    (hid : id ∉ bets.map Bet.ID) :
    mapGet (createAll r bets).bets id = mapGet r.bets id := by
  induction bets generalizing r with
  | nil => rfl
  | cons b rest ih =>
    simp only [List.map_cons, List.mem_cons, not_or] at hid
    rw [createAll, ih _ hid.2, create_live_bets, mapGet_mapSet_ne _ _ _ _ hid.1]

theorem createAll_get_created (bets : List Bet) (r : inMemoryBetRepository)
    (hids : (bets.map Bet.ID).Nodup) (b : Bet) (hb : b ∈ bets) :
    mapGet (createAll r bets).bets b.ID = some b := by
  induction bets generalizing r with
  | nil => simp at hb
  | cons x rest ih =>
    simp only [List.map_cons, List.nodup_cons] at hids
    rw [createAll]
    rcases List.mem_cons.1 hb with h | h
    · subst h
      rw [createAll_get_other _ _ _ hids.1, create_live_bets, mapGet_mapSet_self]
    · exact ih _ hids.2 h

/-! ## Lemmas on `swapAt` and `lessAt` -/

theorem swapAt_of_lt {α : Type} (xs : List α) (d : α) (i j : Nat) (hi : i < xs.length)
    (hj : j < xs.length) :
    swapAt xs i j = (xs.set i (xs.getD j d)).set j (xs.getD i d) := by
  unfold swapAt
  rw [List.getElem?_eq_getElem hi, List.getElem?_eq_getElem hj,
    List.getD_eq_getElem xs d hi, List.getD_eq_getElem xs d hj]

theorem swapAt_length {α : Type} (xs : List α) (i j : Nat) :
    (swapAt xs i j).length = xs.length := by
  unfold swapAt
  split <;> simp

theorem getD_swapAt {α : Type} (xs : List α) (d : α) (i j k : Nat) (hi : i < xs.length)
    (hj : j < xs.length) :
    (swapAt xs i j).getD k d =
      if k = j then xs.getD i d else if k = i then xs.getD j d else xs.getD k d := by
  rw [swapAt_of_lt xs d i j hi hj]
  simp only [List.getD_eq_getElem?_getD, List.getElem?_set, List.length_set]
  by_cases h1 : j = k
  · subst h1
    simp [hj]
  · by_cases h2 : i = k
    · subst h2
      simp [h1, hi, Ne.symm h1]
    · simp [h1, h2, Ne.symm h1, Ne.symm h2]

theorem lessAt_eq {α : Type} (less : α → α → Bool) (xs : List α) (d : α) (i j : Nat)
    (hi : i < xs.length) (hj : j < xs.length) :
    lessAt less xs i j = less (xs.getD i d) (xs.getD j d) := by
  unfold lessAt
  rw [List.getElem?_eq_getElem hi, List.getElem?_eq_getElem hj,
    List.getD_eq_getElem xs d hi, List.getD_eq_getElem xs d hj]

theorem set_perm_cons {α : Type} (x y : α) :
    ∀ (xs : List α) (j : Nat), xs[j]? = some y → (y :: xs.set j x).Perm (x :: xs) := by
  intro xs
  induction xs with
  | nil => intro j h; simp at h
  | cons z t ih =>
    intro j h
    cases j with
    | zero =>
      simp at h
      subst h
      simpa using List.Perm.swap x z t
    | succ j =>
      simp only [List.getElem?_cons_succ] at h
      rw [List.set_cons_succ]
      exact ((List.Perm.swap z y _).trans ((ih j h).cons z)).trans (List.Perm.swap x z t)

theorem swapAt_perm {α : Type} : ∀ (xs : List α) (i j : Nat), (swapAt xs i j).Perm xs := by
  intro xs
  induction xs with
  | nil => intro i j; simp [swapAt]
  | cons x t ih =>
    intro i j
    cases i with
    | zero =>
      cases j with
      | zero => simp [swapAt]
      | succ j =>
        unfold swapAt
        cases h : t[j]? with
        | none => simp [h]
        | some y =>
          simp only [List.getElem?_cons_zero, List.getElem?_cons_succ, h, List.set_cons_zero,
            List.set_cons_succ]
          exact set_perm_cons x y t j h
    | succ i =>
      cases j with
      | zero =>
        unfold swapAt
        cases h : t[i]? with
        | none => simp [h]
        | some y =>
          simp only [List.getElem?_cons_zero, List.getElem?_cons_succ, h, List.set_cons_zero,
            List.set_cons_succ]
          exact set_perm_cons x y t i h
      | succ j =>
        have h := ih i j
        unfold swapAt at h ⊢
        simp only [List.getElem?_cons_succ]
        cases h1 : t[i]? with
        | none => simp
        | some u =>
          cases h2 : t[j]? with
          | none => simp
          | some v =>
            simp only [h1, h2] at h
            simpa using h

/-! ## Lemmas on `SortOrder`, `Moved` and `Step` -/

theorem SortOrder.order_refl {α : Type} {less : α → α → Bool} {R : α → α → Prop}
    (ho : SortOrder less R) (x : α) : R x x := by
  cases h : less x x
  · exact ho.of_not_less x x h
  · exact ho.of_less x x h

theorem Eqv.rfl_of {α : Type} {less : α → α → Bool} {R : α → α → Prop}
    (ho : SortOrder less R) (x : α) : Eqv R x x := ⟨ho.order_refl x, ho.order_refl x⟩

theorem Eqv.trans_of {α : Type} {less : α → α → Bool} {R : α → α → Prop}
    (ho : SortOrder less R) {x y z : α} (h1 : Eqv R x y) (h2 : Eqv R y z) : Eqv R x z :=
  ⟨ho.trans _ _ _ h1.1 h2.1, ho.trans _ _ _ h2.2 h1.2⟩

theorem Moved.moved_refl {α : Type} (d : α) (a b : Nat) (xs : List α) : Moved d a b xs xs :=
  ⟨rfl, fun _ _ => rfl, fun k h1 h2 => ⟨k, h1, h2, rfl⟩⟩

theorem Moved.moved_trans {α : Type} {d : α} {a b : Nat} {xs ys zs : List α}
    (h1 : Moved d a b xs ys) (h2 : Moved d a b ys zs) : Moved d a b xs zs := by
  refine ⟨h2.1.trans h1.1, fun k hk => (h2.2.1 k hk).trans (h1.2.1 k hk), ?_⟩
  intro k hk1 hk2
  obtain ⟨k1, ha, hb, he⟩ := h2.2.2 k hk1 hk2
  obtain ⟨k2, ha2, hb2, he2⟩ := h1.2.2 k1 ha hb
  exact ⟨k2, ha2, hb2, he.trans he2⟩

theorem Moved.moved_mono {α : Type} {d : α} {a b a1 b1 : Nat} {xs ys : List α}
    (h : Moved d a1 b1 xs ys) (ha : a ≤ a1) (hb : b1 ≤ b) : Moved d a b xs ys := by
  refine ⟨h.1, fun k hk => h.2.1 k (by omega), ?_⟩
  intro k hk1 hk2
  by_cases hin : a1 ≤ k ∧ k < b1
  · obtain ⟨k1, h1, h2, h3⟩ := h.2.2 k hin.1 hin.2
    exact ⟨k1, by omega, by omega, h3⟩
  · exact ⟨k, hk1, hk2, h.2.1 k (by omega)⟩

theorem Moved.swapAt {α : Type} (d : α) (a b : Nat) (xs : List α) (i j : Nat)
    (hia : a ≤ i) (hib : i < b) (hja : a ≤ j) (hjb : j < b) (hb : b ≤ xs.length) :
    Moved d a b xs (swapAt xs i j) := by
  have hi : i < xs.length := by omega
  have hj : j < xs.length := by omega
  refine ⟨swapAt_length xs i j, ?_, ?_⟩
  · intro k hk
    rw [getD_swapAt xs d i j k hi hj, if_neg (by omega), if_neg (by omega)]
  · intro k hk1 hk2
    rw [getD_swapAt xs d i j k hi hj]
    by_cases h1 : k = j
    · exact ⟨i, hia, hib, by rw [if_pos h1]⟩
    · by_cases h2 : k = i
      · exact ⟨j, hja, hjb, by rw [if_neg h1, if_pos h2]⟩
      · exact ⟨k, hk1, hk2, by rw [if_neg h1, if_neg h2]⟩

theorem Moved.step {α : Type} {less : α → α → Bool} {R : α → α → Prop}
    (ho : SortOrder less R) {d : α} {a b : Nat} {xs ys : List α} (h : Moved d a b xs ys) :
    Step R d a b xs ys := by
  refine ⟨h.1, fun k hk => ?_, fun k h1 h2 => ?_⟩
  · rw [h.2.1 k hk]
    exact Eqv.rfl_of ho _
  · obtain ⟨k1, ha, hb, he⟩ := h.2.2 k h1 h2
    exact ⟨k1, ha, hb, by rw [he]; exact Eqv.rfl_of ho _⟩

theorem Step.step_refl {α : Type} {less : α → α → Bool} {R : α → α → Prop}
    (ho : SortOrder less R) (d : α) (a b : Nat) (xs : List α) : Step R d a b xs xs :=
  (Moved.moved_refl d a b xs).step ho

theorem Step.step_trans {α : Type} {less : α → α → Bool} {R : α → α → Prop}
    (ho : SortOrder less R) {d : α} {a b : Nat} {xs ys zs : List α}
    (h1 : Step R d a b xs ys) (h2 : Step R d a b ys zs) : Step R d a b xs zs := by
  refine ⟨h2.1.trans h1.1, fun k hk => Eqv.trans_of ho (h2.2.1 k hk) (h1.2.1 k hk), ?_⟩
  intro k hk1 hk2
  obtain ⟨k1, ha, hb, he⟩ := h2.2.2 k hk1 hk2
  obtain ⟨k2, ha2, hb2, he2⟩ := h1.2.2 k1 ha hb
  exact ⟨k2, ha2, hb2, Eqv.trans_of ho he he2⟩

theorem Step.step_mono {α : Type} {R : α → α → Prop} {d : α} {a b a1 b1 : Nat}
    {xs ys : List α} (h : Step R d a1 b1 xs ys) (ha : a ≤ a1) (hb : b1 ≤ b) :
    Step R d a b xs ys := by
  refine ⟨h.1, fun k hk => h.2.1 k (by omega), ?_⟩
  intro k hk1 hk2
  by_cases hin : a1 ≤ k ∧ k < b1
  · obtain ⟨k1, h1, h2, h3⟩ := h.2.2 k hin.1 hin.2
    exact ⟨k1, by omega, by omega, h3⟩
  · exact ⟨k, hk1, hk2, h.2.1 k (by omega)⟩

/-- A bound from above on the elements of a range survives a step inside the range. -/
theorem Step.upper {α : Type} {less : α → α → Bool} {R : α → α → Prop}
    (ho : SortOrder less R) {d : α} {a b : Nat} {xs ys : List α} (h : Step R d a b xs ys)
    (p : α) (hp : ∀ k, a ≤ k → k < b → R (xs.getD k d) p) :
    ∀ k, a ≤ k → k < b → R (ys.getD k d) p := by
  intro k h1 h2
  obtain ⟨k1, ha, hb, he⟩ := h.2.2 k h1 h2
  exact ho.trans _ _ _ he.1 (hp k1 ha hb)

/-- A bound from below on the elements of a range survives a step inside the range. -/
theorem Step.lower {α : Type} {less : α → α → Bool} {R : α → α → Prop}
    (ho : SortOrder less R) {d : α} {a b : Nat} {xs ys : List α} (h : Step R d a b xs ys)
    (p : α) (hp : ∀ k, a ≤ k → k < b → R p (xs.getD k d)) :
    ∀ k, a ≤ k → k < b → R p (ys.getD k d) := by
  intro k h1 h2
  obtain ⟨k1, ha, hb, he⟩ := h.2.2 k h1 h2
  exact ho.trans _ _ _ (hp k1 ha hb) he.2

theorem Step.below {α : Type} {less : α → α → Bool} {R : α → α → Prop}
    (ho : SortOrder less R) {d : α} {a b : Nat} {xs ys : List α} (h : Step R d a b xs ys)
    (hb : Below R d xs a b) : Below R d ys a b := by
  intro i j hi hj1 hj2
  obtain ⟨k1, ha, hb1, he⟩ := h.2.2 j hj1 hj2
  exact ho.trans _ _ _ (h.2.1 i (Or.inl hi)).1 (ho.trans _ _ _ (hb i k1 hi ha hb1) he.2)

/-- The order of a range survives a step that is outside of it. -/
theorem Step.sortedOn_left {α : Type} {less : α → α → Bool} {R : α → α → Prop}
    (ho : SortOrder less R) {d : α} {a b a1 b1 : Nat} {xs ys : List α}
    (h : Step R d a b xs ys) (hs : SortedOn R d xs a1 b1) (hout : b1 ≤ a ∨ b ≤ a1) :
    SortedOn R d ys a1 b1 := by
  intro i j hi hij hj
  exact ho.trans _ _ _ (h.2.1 i (by omega)).1
    (ho.trans _ _ _ (hs i j hi hij hj) (h.2.1 j (by omega)).2)

/-! ## Lemmas on the scanning loops -/

theorem scanUp_spec (cond : Nat → Bool) :
    ∀ (n i : Nat), i ≤ scanUp cond n i ∧ scanUp cond n i ≤ i + n ∧
      (∀ k, i ≤ k → k < scanUp cond n i → cond k = true) ∧
      (scanUp cond n i < i + n → cond (scanUp cond n i) = false) := by
  intro n
  induction n with
  | zero =>
    intro i
    simp only [scanUp]
    exact ⟨le_refl _, by omega, fun k h1 h2 => by omega, fun h => by omega⟩
  | succ n ih =>
    intro i
    unfold scanUp
    by_cases hc : cond i = true
    · rw [if_pos hc]
      obtain ⟨h1, h2, h3, h4⟩ := ih (i + 1)
      refine ⟨by omega, by omega, ?_, fun h => h4 (by omega)⟩
      intro k hk1 hk2
      by_cases hki : k = i
      · rw [hki]; exact hc
      · exact h3 k (by omega) hk2
    · rw [if_neg hc]
      refine ⟨le_refl _, by omega, fun k h1 h2 => by omega, fun _ => by simpa using hc⟩

theorem scanDown_spec (cond : Nat → Bool) :
    ∀ (n j : Nat), n ≤ j → scanDown cond n j ≤ j ∧ j ≤ scanDown cond n j + n ∧
      (∀ k, scanDown cond n j < k → k ≤ j → cond k = true) ∧
      (j < scanDown cond n j + n → cond (scanDown cond n j) = false) := by
  intro n
  induction n with
  | zero =>
    intro j _
    simp only [scanDown]
    exact ⟨le_refl _, by omega, fun k h1 h2 => by omega, fun h => by omega⟩
  | succ n ih =>
    intro j hj
    unfold scanDown
    by_cases hc : cond j = true
    · rw [if_pos hc]
      obtain ⟨h1, h2, h3, h4⟩ := ih (j - 1) (by omega)
      refine ⟨by omega, by omega, ?_, fun h => h4 (by omega)⟩
      intro k hk1 hk2
      by_cases hkj : k = j
      · rw [hkj]; exact hc
      · exact h3 k hk1 (by omega)
    · rw [if_neg hc]
      refine ⟨le_refl _, by omega, fun k h1 h2 => by omega, fun _ => by simpa using hc⟩

/-! ## Lemmas on `partition_func` and `partitionEqual_func` -/

theorem partition_loop_spec {α : Type} (less : α → α → Bool) (d : α) (a b : Nat) (p : α) :
    ∀ (n : Nat) (xs : List α) (i j : Nat),
      b ≤ xs.length → a < i → i ≤ j + 1 → j < b → j + 1 - i ≤ n →
      xs.getD a d = p →
      (∀ k, a < k → k < i → less (xs.getD k d) p = true) →
      (∀ k, j < k → k < b → less (xs.getD k d) p = false) →
      Moved d (a + 1) b xs (partition_loop less a n xs i j).1 ∧
      a ≤ (partition_loop less a n xs i j).2 ∧
      (partition_loop less a n xs i j).2 < b ∧
      (∀ k, a < k → k ≤ (partition_loop less a n xs i j).2 →
        less ((partition_loop less a n xs i j).1.getD k d) p = true) ∧
      (∀ k, (partition_loop less a n xs i j).2 < k → k < b →
        less ((partition_loop less a n xs i j).1.getD k d) p = false) := by
  intro n
  induction n with
  | zero =>
    intro xs i j hb hai hij hjb hn hp hl hr
    simp only [partition_loop]
    exact ⟨Moved.moved_refl _ _ _ _, by omega, hjb, fun k h1 h2 => hl k h1 (by omega), hr⟩
  | succ n ih =>
    intro xs i j hb hai hij hjb hn hp hl hr
    simp only [partition_loop]
    have hu := scanUp_spec (fun k => lessAt less xs k a) (j + 1 - i) i
    generalize scanUp (fun k => lessAt less xs k a) (j + 1 - i) i = i1 at hu ⊢
    obtain ⟨hu1, hu2, hu3, hu4⟩ := hu
    have hd := scanDown_spec (fun k => !lessAt less xs k a) (j + 1 - i1) j (by omega)
    generalize scanDown (fun k => !lessAt less xs k a) (j + 1 - i1) j = j1 at hd ⊢
    obtain ⟨hd1, hd2, hd3, hd4⟩ := hd
    have hl1 : ∀ k, a < k → k < i1 → less (xs.getD k d) p = true := by
      intro k h1 h2
      by_cases hk : k < i
      · exact hl k h1 hk
      · have := hu3 k (by omega) h2
        simp only [] at this
        rwa [lessAt_eq less xs d k a (by omega) (by omega), hp] at this
    have hr1 : ∀ k, j1 < k → k < b → less (xs.getD k d) p = false := by
      intro k h1 h2
      by_cases hk : j < k
      · exact hr k hk h2
      · have := hd3 k h1 (by omega)
        simp only [Bool.not_eq_true'] at this
        rwa [lessAt_eq less xs d k a (by omega) (by omega), hp] at this
    by_cases hlt : j1 < i1
    · rw [if_pos hlt]
      exact ⟨Moved.moved_refl _ _ _ _, by omega, by omega, fun k h1 h2 => hl1 k h1 (by omega), hr1⟩
    · rw [if_neg hlt]
      have hi1 : less (xs.getD i1 d) p = false := by
        have := hu4 (by omega)
        simp only [] at this
        rwa [lessAt_eq less xs d i1 a (by omega) (by omega), hp] at this
      have hj1 : less (xs.getD j1 d) p = true := by
        have := hd4 (by omega)
        simp only [Bool.not_eq_false'] at this
        rwa [lessAt_eq less xs d j1 a (by omega) (by omega), hp] at this
      have hne : i1 ≠ j1 := by
        intro h
        rw [h, hj1] at hi1
        cases hi1
      have hsw : ∀ k, (swapAt xs i1 j1).getD k d =
          if k = j1 then xs.getD i1 d else if k = i1 then xs.getD j1 d else xs.getD k d :=
        fun k => getD_swapAt xs d i1 j1 k (by omega) (by omega)
      have hm : Moved d (a + 1) b xs (swapAt xs i1 j1) :=
        Moved.swapAt d (a + 1) b xs i1 j1 (by omega) (by omega) (by omega) (by omega) hb
      have hrec := ih (swapAt xs i1 j1) (i1 + 1) (j1 - 1)
        (by rw [swapAt_length]; exact hb) (by omega) (by omega) (by omega) (by omega)
        (by rw [hsw, if_neg (by omega), if_neg (by omega)]; exact hp)
        (by
          intro k h1 h2
          rw [hsw, if_neg (by omega)]
          by_cases hk : k = i1
          · rw [if_pos hk]; exact hj1
          · rw [if_neg hk]; exact hl1 k h1 (by omega))
        (by
          intro k h1 h2
          rw [hsw]
          by_cases hk : k = j1
          · rw [if_pos hk]; exact hi1
          · rw [if_neg hk, if_neg (by omega)]; exact hr1 k (by omega) h2)
      exact ⟨hm.moved_trans hrec.1, hrec.2⟩

theorem partition_func_spec {α : Type} {less : α → α → Bool} {R : α → α → Prop}
    (ho : SortOrder less R) (d : α) (xs : List α) (a b pivot : Nat)
    (hap : a ≤ pivot) (hpb : pivot < b) (hb : b ≤ xs.length) :
    Moved d a b xs (partition_func less xs a b pivot).1 ∧
    a ≤ (partition_func less xs a b pivot).2.1 ∧
    (partition_func less xs a b pivot).2.1 < b ∧
    (∀ k, a ≤ k → k < (partition_func less xs a b pivot).2.1 →
      R ((partition_func less xs a b pivot).1.getD k d)
        ((partition_func less xs a b pivot).1.getD (partition_func less xs a b pivot).2.1 d)) ∧
    (∀ k, (partition_func less xs a b pivot).2.1 < k → k < b →
      R ((partition_func less xs a b pivot).1.getD (partition_func less xs a b pivot).2.1 d)
        ((partition_func less xs a b pivot).1.getD k d)) := by
  have hm0 : Moved d a b xs (swapAt xs a pivot) :=
    Moved.swapAt d a b xs a pivot (le_refl _) (by omega) hap hpb hb
  simp only [partition_func]
  generalize swapAt xs a pivot = xs1 at hm0 ⊢
  have hb1 : b ≤ xs1.length := by rw [hm0.1]; exact hb
  have hu := scanUp_spec (fun k => lessAt less xs1 k a) (b - 1 + 1 - (a + 1)) (a + 1)
  generalize scanUp (fun k => lessAt less xs1 k a) (b - 1 + 1 - (a + 1)) (a + 1) = i at hu ⊢
  obtain ⟨hu1, hu2, hu3, hu4⟩ := hu
  have hd := scanDown_spec (fun k => !lessAt less xs1 k a) (b - 1 + 1 - i) (b - 1) (by omega)
  generalize scanDown (fun k => !lessAt less xs1 k a) (b - 1 + 1 - i) (b - 1) = j at hd ⊢
  obtain ⟨hd1, hd2, hd3, hd4⟩ := hd
  have hl1 : ∀ k, a < k → k < i → less (xs1.getD k d) (xs1.getD a d) = true := by
    intro k h1 h2
    have := hu3 k (by omega) h2
    simp only [] at this
    rwa [lessAt_eq less xs1 d k a (by omega) (by omega)] at this
  have hr1 : ∀ k, j < k → k < b → less (xs1.getD k d) (xs1.getD a d) = false := by
    intro k h1 h2
    have := hd3 k h1 (by omega)
    simp only [Bool.not_eq_true'] at this
    rwa [lessAt_eq less xs1 d k a (by omega) (by omega)] at this
  -- the final exchange of the pivot with the element at the split index
  have hfin : ∀ (ys : List α) (m : Nat), Moved d (a + 1) b xs1 ys → a ≤ m → m < b →
      (∀ k, a < k → k ≤ m → less (ys.getD k d) (xs1.getD a d) = true) →
      (∀ k, m < k → k < b → less (ys.getD k d) (xs1.getD a d) = false) →
      Moved d a b xs (swapAt ys m a) ∧ a ≤ m ∧ m < b ∧
      (∀ k, a ≤ k → k < m → R ((swapAt ys m a).getD k d) ((swapAt ys m a).getD m d)) ∧
      (∀ k, m < k → k < b → R ((swapAt ys m a).getD m d) ((swapAt ys m a).getD k d)) := by
    intro ys m hmv ham hmb hl hr
    have hby : b ≤ ys.length := by rw [hmv.1]; exact hb1
    have hya : ys.getD a d = xs1.getD a d := hmv.2.1 a (Or.inl (by omega))
    have hsw : ∀ k, (swapAt ys m a).getD k d =
        if k = a then ys.getD m d else if k = m then ys.getD a d else ys.getD k d :=
      fun k => getD_swapAt ys d m a k (by omega) (by omega)
    have hmm : (swapAt ys m a).getD m d = xs1.getD a d := by
      rw [hsw]
      by_cases h : m = a
      · rw [if_pos h, h, hya]
      · rw [if_neg h, if_pos rfl, hya]
    refine ⟨hm0.moved_trans (((hmv.moved_mono (by omega) (le_refl _)).moved_trans
      (Moved.swapAt d a b ys m a ham hmb (le_refl _) (by omega) hby))), ham, hmb, ?_, ?_⟩
    · intro k h1 h2
      rw [hmm, hsw]
      by_cases hk : k = a
      · rw [if_pos hk]
        exact ho.of_less _ _ (hl m (by omega) (le_refl _))
      · rw [if_neg hk, if_neg (by omega)]
        exact ho.of_less _ _ (hl k (by omega) (by omega))
    · intro k h1 h2
      rw [hmm, hsw, if_neg (by omega), if_neg (by omega)]
      exact ho.of_not_less _ _ (hr k h1 h2)
  by_cases hlt : j < i
  · rw [if_pos hlt]
    exact hfin xs1 j (Moved.moved_refl _ _ _ _) (by omega) (by omega)
      (fun k h1 h2 => hl1 k h1 (by omega)) hr1
  · rw [if_neg hlt]
    simp only []
    have hi1 : less (xs1.getD i d) (xs1.getD a d) = false := by
      have := hu4 (by omega)
      simp only [] at this
      rwa [lessAt_eq less xs1 d i a (by omega) (by omega)] at this
    have hj1 : less (xs1.getD j d) (xs1.getD a d) = true := by
      have := hd4 (by omega)
      simp only [Bool.not_eq_false'] at this
      rwa [lessAt_eq less xs1 d j a (by omega) (by omega)] at this
    have hne : i ≠ j := by
      intro h
      rw [h, hj1] at hi1
      cases hi1
    have hsw : ∀ k, (swapAt xs1 i j).getD k d =
        if k = j then xs1.getD i d else if k = i then xs1.getD j d else xs1.getD k d :=
      fun k => getD_swapAt xs1 d i j k (by omega) (by omega)
    have hm : Moved d (a + 1) b xs1 (swapAt xs1 i j) :=
      Moved.swapAt d (a + 1) b xs1 i j (by omega) (by omega) (by omega) (by omega) hb1
    have hpa : (swapAt xs1 i j).getD a d = xs1.getD a d := by
      rw [hsw, if_neg (by omega), if_neg (by omega)]
    have hrec := partition_loop_spec less d a b (xs1.getD a d) (b - a) (swapAt xs1 i j)
      (i + 1) (j - 1)
      (by rw [swapAt_length]; exact hb1) (by omega) (by omega) (by omega) (by omega) hpa
      (by
        intro k h1 h2
        rw [hsw, if_neg (by omega)]
        by_cases hk : k = i
        · rw [if_pos hk]; exact hj1
        · rw [if_neg hk]; exact hl1 k h1 (by omega))
      (by
        intro k h1 h2
        rw [hsw]
        by_cases hk : k = j
        · rw [if_pos hk]; exact hi1
        · rw [if_neg hk, if_neg (by omega)]; exact hr1 k (by omega) h2)
    exact hfin _ _ (hm.moved_trans hrec.1) hrec.2.1 hrec.2.2.1 hrec.2.2.2.1 hrec.2.2.2.2

theorem partitionEqual_loop_spec {α : Type} (less : α → α → Bool) (d : α) (a b : Nat)
    (p : α) :
    ∀ (n : Nat) (xs : List α) (i j : Nat),
      b ≤ xs.length → a < i → i ≤ j + 1 → j < b → j + 1 - i ≤ n →
      xs.getD a d = p →
      (∀ k, a < k → k < i → less p (xs.getD k d) = false) →
      (∀ k, j < k → k < b → less p (xs.getD k d) = true) →
      Moved d (a + 1) b xs (partitionEqual_loop less a n xs i j).1 ∧
      a < (partitionEqual_loop less a n xs i j).2 ∧
      (partitionEqual_loop less a n xs i j).2 ≤ b ∧
      (∀ k, a < k → k < (partitionEqual_loop less a n xs i j).2 →
        less p ((partitionEqual_loop less a n xs i j).1.getD k d) = false) ∧
      (∀ k, (partitionEqual_loop less a n xs i j).2 ≤ k → k < b →
        less p ((partitionEqual_loop less a n xs i j).1.getD k d) = true) := by
  intro n
  induction n with
  | zero =>
    intro xs i j hb hai hij hjb hn hp hl hr
    simp only [partitionEqual_loop]
    exact ⟨Moved.moved_refl _ _ _ _, hai, by omega, hl, fun k h1 h2 => hr k (by omega) h2⟩
  | succ n ih =>
    intro xs i j hb hai hij hjb hn hp hl hr
    simp only [partitionEqual_loop]
    have hu := scanUp_spec (fun k => !lessAt less xs a k) (j + 1 - i) i
    generalize scanUp (fun k => !lessAt less xs a k) (j + 1 - i) i = i1 at hu ⊢
    obtain ⟨hu1, hu2, hu3, hu4⟩ := hu
    have hd := scanDown_spec (fun k => lessAt less xs a k) (j + 1 - i1) j (by omega)
    generalize scanDown (fun k => lessAt less xs a k) (j + 1 - i1) j = j1 at hd ⊢
    obtain ⟨hd1, hd2, hd3, hd4⟩ := hd
    have hl1 : ∀ k, a < k → k < i1 → less p (xs.getD k d) = false := by
      intro k h1 h2
      by_cases hk : k < i
      · exact hl k h1 hk
      · have := hu3 k (by omega) h2
        simp only [Bool.not_eq_true'] at this
        rwa [lessAt_eq less xs d a k (by omega) (by omega), hp] at this
    have hr1 : ∀ k, j1 < k → k < b → less p (xs.getD k d) = true := by
      intro k h1 h2
      by_cases hk : j < k
      · exact hr k hk h2
      · have := hd3 k h1 (by omega)
        simp only [] at this
        rwa [lessAt_eq less xs d a k (by omega) (by omega), hp] at this
    by_cases hlt : j1 < i1
    · rw [if_pos hlt]
      exact ⟨Moved.moved_refl _ _ _ _, by omega, by omega, hl1, fun k h1 h2 => hr1 k (by omega) h2⟩
    · rw [if_neg hlt]
      have hi1 : less p (xs.getD i1 d) = true := by
        have := hu4 (by omega)
        simp only [Bool.not_eq_false'] at this
        rwa [lessAt_eq less xs d a i1 (by omega) (by omega), hp] at this
      have hj1 : less p (xs.getD j1 d) = false := by
        have := hd4 (by omega)
        simp only [] at this
        rwa [lessAt_eq less xs d a j1 (by omega) (by omega), hp] at this
      have hne : i1 ≠ j1 := by
        intro h
        rw [h, hj1] at hi1
        cases hi1
      have hsw : ∀ k, (swapAt xs i1 j1).getD k d =
          if k = j1 then xs.getD i1 d else if k = i1 then xs.getD j1 d else xs.getD k d :=
        fun k => getD_swapAt xs d i1 j1 k (by omega) (by omega)
      have hm : Moved d (a + 1) b xs (swapAt xs i1 j1) :=
        Moved.swapAt d (a + 1) b xs i1 j1 (by omega) (by omega) (by omega) (by omega) hb
      have hrec := ih (swapAt xs i1 j1) (i1 + 1) (j1 - 1)
        (by rw [swapAt_length]; exact hb) (by omega) (by omega) (by omega) (by omega)
        (by rw [hsw, if_neg (by omega), if_neg (by omega)]; exact hp)
        (by
          intro k h1 h2
          rw [hsw, if_neg (by omega)]
          by_cases hk : k = i1
          · rw [if_pos hk]; exact hj1
          · rw [if_neg hk]; exact hl1 k h1 (by omega))
        (by
          intro k h1 h2
          rw [hsw]
          by_cases hk : k = j1
          · rw [if_pos hk]; exact hi1
          · rw [if_neg hk, if_neg (by omega)]; exact hr1 k (by omega) h2)
      exact ⟨hm.moved_trans hrec.1, hrec.2⟩

theorem partitionEqual_func_spec {α : Type} {less : α → α → Bool} {R : α → α → Prop}
    (ho : SortOrder less R) (d : α) (xs : List α) (a b pivot : Nat)
    (hap : a ≤ pivot) (hpb : pivot < b) (hb : b ≤ xs.length) :
    Moved d a b xs (partitionEqual_func less xs a b pivot).1 ∧
    a < (partitionEqual_func less xs a b pivot).2 ∧
    (partitionEqual_func less xs a b pivot).2 ≤ b ∧
    (∀ k, a ≤ k → k < (partitionEqual_func less xs a b pivot).2 →
      R ((partitionEqual_func less xs a b pivot).1.getD k d) (xs.getD pivot d)) ∧
    (∀ k, (partitionEqual_func less xs a b pivot).2 ≤ k → k < b →
      R (xs.getD pivot d) ((partitionEqual_func less xs a b pivot).1.getD k d)) := by
  have hm0 : Moved d a b xs (swapAt xs a pivot) :=
    Moved.swapAt d a b xs a pivot (le_refl _) (by omega) hap hpb hb
  have hpa : (swapAt xs a pivot).getD a d = xs.getD pivot d := by
    rw [getD_swapAt xs d a pivot a (by omega) (by omega)]
    by_cases h : a = pivot
    · rw [if_pos h, h]
    · rw [if_neg h, if_pos rfl]
  simp only [partitionEqual_func]
  generalize swapAt xs a pivot = xs1 at hm0 hpa ⊢
  have hb1 : b ≤ xs1.length := by rw [hm0.1]; exact hb
  have hrec := partitionEqual_loop_spec less d a b (xs.getD pivot d) (b - a) xs1 (a + 1)
    (b - 1) hb1 (by omega) (by omega) (by omega) (by omega) hpa
    (fun k h1 h2 => by omega) (fun k h1 h2 => by omega)
  refine ⟨hm0.moved_trans (hrec.1.moved_mono (by omega) (le_refl _)), hrec.2.1, hrec.2.2.1, ?_, ?_⟩
  · intro k h1 h2
    by_cases hk : k = a
    · rw [hk, hrec.1.2.1 a (Or.inl (by omega)), hpa]
      exact ho.order_refl _
    · exact ho.of_not_less _ _ (hrec.2.2.2.1 k (by omega) h2)
  · intro k h1 h2
    exact ho.of_less _ _ (hrec.2.2.2.2 k h1 h2)

/-! ## Lemmas on the insertion sort on lists -/

theorem insertLeft_perm {α : Type} (less : α → α → Bool) (x : α) (rev : List α) :
    (insertLeft less x rev).Perm (x :: rev) := by
  induction rev with
  | nil => exact List.Perm.refl _
  | cons y ys ih =>
    unfold insertLeft
    split
    · exact (List.Perm.cons y ih).trans (List.Perm.swap x y ys)
    · exact List.Perm.refl _

theorem insertionSortRev_perm {α : Type} (less : α → α → Bool) (rev data : List α) :
    (insertionSortRev less rev data).Perm (rev ++ data) := by
  induction data generalizing rev with
  | nil => simp [insertionSortRev]
  | cons x rest ih =>
    unfold insertionSortRev
    refine (ih _).trans ?_
    refine ((insertLeft_perm less x rev).append_right rest).trans ?_
    simpa using (@List.perm_middle _ x rev rest).symm

/-- Processed prefix stays ordered: `R a b` reads "`a` may stand before `b`". The
comparison must agree with `R` in both of its answers. -/
theorem insertLeft_pairwise {α : Type} (less : α → α → Bool) (R : α → α → Prop)
    (htrans : ∀ a b c, R a b → R b c → R a c)
    (hyes : ∀ x y, less x y = true → R x y) (hno : ∀ x y, less x y = false → R y x)
    (x : α) (rev : List α) (hrev : rev.Pairwise (fun a b => R b a)) :
    (insertLeft less x rev).Pairwise (fun a b => R b a) := by
  induction rev with
  | nil => simp [insertLeft]
  | cons y ys ih =>
    rw [List.pairwise_cons] at hrev
    unfold insertLeft
    cases hxy : less x y with
    | true =>
      simp only [if_true]
      rw [List.pairwise_cons]
      refine ⟨?_, ih hrev.2⟩
      intro z hz
      rcases List.mem_cons.1 ((insertLeft_perm less x ys).subset hz) with h | h
      · subst h
        exact hyes _ _ hxy
      · exact hrev.1 z h
    | false =>
      simp only [Bool.false_eq_true, if_false]
      rw [List.pairwise_cons, List.pairwise_cons]
      refine ⟨?_, hrev⟩
      intro z hz
      rcases List.mem_cons.1 hz with h | h
      · subst h
        exact hno _ _ hxy
      · exact htrans _ _ _ (hrev.1 z h) (hno _ _ hxy)

theorem insertionSortRev_pairwise {α : Type} (less : α → α → Bool) (R : α → α → Prop)
    (htrans : ∀ a b c, R a b → R b c → R a c)
    (hyes : ∀ x y, less x y = true → R x y) (hno : ∀ x y, less x y = false → R y x)
    (rev data : List α) (hrev : rev.Pairwise (fun a b => R b a)) :
    (insertionSortRev less rev data).Pairwise (fun a b => R b a) := by
  induction data generalizing rev with
  | nil => simpa [insertionSortRev] using hrev
  | cons x rest ih =>
    unfold insertionSortRev
    exact ih _ (insertLeft_pairwise less R htrans hyes hno x rev hrev)

/-- The travelling element never overtakes a record of the class `p` it belongs to, so
the records of the class keep their order. -/
theorem insertLeft_filter {α : Type} (less : α → α → Bool) (p : α → Bool)
    (hp : ∀ x y, p x = true → p y = true → less x y = false) (x : α) (rev : List α) :
    (insertLeft less x rev).filter p = (x :: rev).filter p := by
  induction rev with
  | nil => simp [insertLeft]
  | cons y ys ih =>
    unfold insertLeft
    cases hxy : less x y with
    | true =>
      simp only [if_true]
      rw [List.filter_cons, ih]
      cases hpx : p x with
      | false => simp [List.filter_cons, hpx]
      | true =>
        cases hpy : p y with
        | false => simp [List.filter_cons, hpx, hpy]
        | true => rw [hp x y hpx hpy] at hxy; cases hxy
    | false => simp

theorem insertionSortRev_filter {α : Type} (less : α → α → Bool) (p : α → Bool)
    (hp : ∀ x y, p x = true → p y = true → less x y = false) (rev data : List α) :
    (insertionSortRev less rev data).filter p = (data.filter p).reverse ++ rev.filter p := by
  induction data generalizing rev with
  | nil => simp [insertionSortRev]
  | cons x rest ih =>
    unfold insertionSortRev
    rw [ih, insertLeft_filter less p hp]
    cases hpx : p x <;> simp [List.filter_cons, hpx]

/-! ## Lemmas on `insertionSort_func` -/

theorem lessAt_adjacent {α : Type} (less : α → α → Bool) (l1 l2 : List α) (x y : α) :
    lessAt less (l1 ++ y :: x :: l2) (l1.length + 1) l1.length = less x y := by
  unfold lessAt
  rw [List.getElem?_append_right (by omega), List.getElem?_append_right (le_refl _)]
  simp

theorem swapAt_adjacent {α : Type} (l1 l2 : List α) (x y : α) :
    swapAt (l1 ++ y :: x :: l2) (l1.length + 1) l1.length = l1 ++ x :: y :: l2 := by
  unfold swapAt
  rw [List.getElem?_append_right (by omega), List.getElem?_append_right (le_refl _)]
  simp

theorem insertionSort_inner_self {α : Type} (less : α → α → Bool) (a : Nat) (xs : List α) :
    insertionSort_inner less a a xs = xs := by
  cases a <;> simp [insertionSort_inner]

theorem insertLeft_length {α : Type} (less : α → α → Bool) (x : α) (rev : List α) :
    (insertLeft less x rev).length = rev.length + 1 := by
  simpa using (insertLeft_perm less x rev).length_eq

/-- The inner loop of `insertionSort_func`, run at the end of the prefix `rev.reverse`,
inserts the element as `insertLeft` does. -/
theorem insertionSort_inner_eq {α : Type} (less : α → α → Bool) (pre : List α) (x : α) :
    ∀ (rev r : List α),
      insertionSort_inner less pre.length (pre.length + rev.length)
          (pre ++ (rev.reverse ++ x :: r)) =
        pre ++ ((insertLeft less x rev).reverse ++ r) := by
  intro rev
  induction rev with
  | nil =>
    intro r
    simp [insertionSort_inner_self, insertLeft]
  | cons y ys ih =>
    intro r
    have hx : pre ++ ((y :: ys).reverse ++ x :: r) = (pre ++ ys.reverse) ++ y :: x :: r := by
      simp
    have hl : (pre ++ ys.reverse).length = pre.length + ys.length := by simp
    have hj : pre.length + (y :: ys).length = (pre.length + ys.length) + 1 := by
      simp [Nat.add_assoc]
    rw [hj, insertionSort_inner, hx, ← hl, lessAt_adjacent, swapAt_adjacent, hl]
    cases hxy : less x y with
    | true =>
      have h1 : decide (pre.length < pre.length + ys.length + 1) = true := by
        simp; omega
      rw [h1]
      simp only [Bool.and_self, if_true]
      have h2 : pre ++ ys.reverse ++ x :: y :: r = pre ++ (ys.reverse ++ x :: (y :: r)) := by
        simp
      rw [h2, ih (y :: r)]
      simp [insertLeft, hxy]
    | false =>
      simp [insertLeft, hxy]

theorem insertionSort_outer_eq {α : Type} (less : α → α → Bool) (pre post : List α) :
    ∀ (rest rev : List α),
      insertionSort_outer less pre.length rest.length (pre.length + rev.length)
          (pre ++ (rev.reverse ++ (rest ++ post))) =
        pre ++ ((insertionSortRev less rev rest).reverse ++ post) := by
  intro rest
  induction rest with
  | nil =>
    intro rev
    simp [insertionSort_outer, insertionSortRev]
  | cons x t ih =>
    intro rev
    have h := ih (insertLeft less x rev)
    rw [insertLeft_length] at h
    simp only [List.length_cons, insertionSort_outer, List.cons_append, insertionSortRev]
    rw [insertionSort_inner_eq less pre x rev (t ++ post)]
    exact h

/-- On a range `[a, b)` that holds the list `s`, `insertionSort_func` leaves the list that
`insertionSortRev` builds, in reverse. -/
theorem insertionSort_func_eq {α : Type} (less : α → α → Bool) (pre s post : List α) :
    insertionSort_func less (pre ++ (s ++ post)) pre.length (pre.length + s.length) =
      pre ++ ((insertionSortRev less [] s).reverse ++ post) := by
  unfold insertionSort_func
  cases s with
  | nil => simp [insertionSort_outer, insertionSortRev]
  | cons x t =>
    have h := insertionSort_outer_eq less pre post t [x]
    have h1 : pre.length + (x :: t).length - (pre.length + 1) = t.length := by
      simp only [List.length_cons]; omega
    rw [h1]
    simpa [insertionSortRev, insertLeft] using h

theorem segments_moved {α : Type} (d : α) (pre s s2 post : List α) (hperm : s2.Perm s) :
    Moved d pre.length (pre.length + s.length) (pre ++ (s ++ post)) (pre ++ (s2 ++ post)) := by
  have hlen := hperm.length_eq
  refine ⟨by simp [hlen], ?_, ?_⟩
  · intro k hk
    rcases hk with hk | hk
    · rw [List.getD_append _ _ _ _ hk, List.getD_append _ _ _ _ hk]
    · rw [List.getD_append_right _ _ _ _ (by omega),
        List.getD_append_right _ _ _ _ (by omega),
        List.getD_append_right _ _ _ _ (by omega),
        List.getD_append_right _ _ _ _ (by omega), hlen]
  · intro k h1 h2
    have hk2 : k - pre.length < s2.length := by omega
    have hmem : s2.getD (k - pre.length) d ∈ s := by
      rw [List.getD_eq_getElem _ _ hk2]
      exact hperm.subset (List.getElem_mem _)
    obtain ⟨m, hm, hme⟩ := List.getElem_of_mem hmem
    refine ⟨pre.length + m, by omega, by omega, ?_⟩
    rw [List.getD_append_right _ _ _ _ (by omega), List.getD_append _ _ _ _ hk2,
      List.getD_append_right _ _ _ _ (by omega),
      List.getD_append _ _ _ _ (by omega), ← hme, List.getD_eq_getElem _ _ (by omega)]
    congr 1
    omega

theorem segments_sorted {α : Type} (R : α → α → Prop) (d : α) (pre s2 post : List α)
    (hs : s2.Pairwise R) :
    SortedOn R d (pre ++ (s2 ++ post)) pre.length (pre.length + s2.length) := by
  intro i j hi hij hj
  rw [List.getD_append_right _ _ _ _ (by omega), List.getD_append _ _ _ _ (by omega),
    List.getD_append_right _ _ _ _ (by omega), List.getD_append _ _ _ _ (by omega),
    List.getD_eq_getElem _ _ (by omega), List.getD_eq_getElem _ _ (by omega)]
  exact List.pairwise_iff_getElem.1 hs _ _ _ _ (by omega)

theorem range_segments {α : Type} (xs : List α) (a b : Nat) (hab : a ≤ b)
    (hb : b ≤ xs.length) :
    xs = xs.take a ++ ((xs.drop a).take (b - a) ++ xs.drop b) ∧
    (xs.take a).length = a ∧ ((xs.drop a).take (b - a)).length = b - a := by
  refine ⟨?_, by simp; omega, by simp; omega⟩
  have h1 : xs.drop b = (xs.drop a).drop (b - a) := by
    rw [List.drop_drop]
    congr 1
    omega
  rw [h1, List.take_append_drop, List.take_append_drop]

theorem insertionSortRev_sorted {α : Type} {less : α → α → Bool} {R : α → α → Prop}
    (ho : SortOrder less R) (s : List α) : (insertionSortRev less [] s).reverse.Pairwise R := by
  rw [List.pairwise_reverse]
  exact insertionSortRev_pairwise less R ho.trans ho.of_less ho.of_not_less [] s
    List.Pairwise.nil

theorem insertionSort_func_spec {α : Type} {less : α → α → Bool} {R : α → α → Prop}
    (ho : SortOrder less R) (d : α) (xs : List α) (a b : Nat) (hab : a ≤ b)
    (hb : b ≤ xs.length) :
    Moved d a b xs (insertionSort_func less xs a b) ∧
    SortedOn R d (insertionSort_func less xs a b) a b := by
  obtain ⟨hx, h1, h2⟩ := range_segments xs a b hab hb
  generalize xs.take a = pre at hx h1
  generalize (xs.drop a).take (b - a) = s at hx h2
  generalize xs.drop b = post at hx
  have hb2 : b = pre.length + s.length := by omega
  subst hx
  rw [hb2, ← h1, insertionSort_func_eq]
  have hperm : (insertionSortRev less [] s).reverse.Perm s :=
    (List.reverse_perm _).trans (by simpa using insertionSortRev_perm less [] s)
  refine ⟨segments_moved d pre s _ post hperm, ?_⟩
  have := segments_sorted R d pre _ post (insertionSortRev_sorted ho s)
  rwa [hperm.length_eq] at this

/-! ## Lemmas on `breakPatterns_func`, `reverseRange_func` and `choosePivot_func` -/

theorem bitsLenLoop_bound : ∀ (fuel x : Nat), x ≤ fuel → 0 < x → 2 ^ bitsLenLoop fuel x ≤ 2 * x := by
  intro fuel
  induction fuel with
  | zero => intro x h1 h2; omega
  | succ fuel ih =>
    intro x h1 h2
    unfold bitsLenLoop
    rw [if_neg (by omega)]
    by_cases hx : x / 2 = 0
    · rw [hx]
      have : bitsLenLoop fuel 0 = 0 := by cases fuel <;> simp [bitsLenLoop]
      rw [this]
      simp
      omega
    · have := ih (x / 2) (by omega) (by omega)
      rw [pow_succ]
      omega

theorem nextPowerOfTwo_bound (length : Nat) (h : 0 < length) :
    nextPowerOfTwo length ≤ 2 * length :=
  bitsLenLoop_bound length length (le_refl _) h

theorem breakPatterns_loop_moved {α : Type} (d : α) (a b length modulus idx : Nat)
    (hlen : a + length = b) (hmod : modulus ≤ 2 * length)
    (hpow : ∃ e, modulus = 2 ^ e) :
    ∀ (n i random : Nat) (xs : List α), b ≤ xs.length → a ≤ idx - 1 + i →
      idx - 1 + i + n ≤ b →
      Moved d a b xs (breakPatterns_loop a length modulus idx n i random xs) := by
  intro n
  induction n with
  | zero =>
    intro i random xs _ _ _
    exact Moved.moved_refl _ _ _ _
  | succ n ih =>
    intro i random xs hb h1 h2
    simp only [breakPatterns_loop]
    obtain ⟨e, he⟩ := hpow
    have hand : xorshiftNext random &&& (modulus - 1) < modulus := by
      rw [he]
      exact Nat.and_lt_two_pow _ (by
        have : 0 < 2 ^ e := Nat.two_pow_pos e
        omega)
    generalize xorshiftNext random &&& (modulus - 1) = other at hand
    have hother : (if length ≤ other then other - length else other) < length := by
      split <;> omega
    generalize (if length ≤ other then other - length else other) = other1 at hother
    have hm := Moved.swapAt d a b xs (idx - 1 + i) (a + other1) h1 (by omega) (by omega)
      (by omega) hb
    exact hm.moved_trans (ih (i + 1) _ _ (by rw [swapAt_length]; exact hb) (by omega) (by omega))

theorem breakPatterns_func_moved {α : Type} (d : α) (xs : List α) (a b : Nat)
    (hab : a ≤ b) (hb : b ≤ xs.length) : Moved d a b xs (breakPatterns_func xs a b) := by
  simp only [breakPatterns_func]
  split
  · rename_i h8
    exact breakPatterns_loop_moved d a b (b - a) _ _ (by omega)
      (nextPowerOfTwo_bound _ (by omega)) ⟨_, rfl⟩ 3 0 _ xs hb (by omega) (by omega)
  · exact Moved.moved_refl _ _ _ _

theorem reverseRange_loop_moved {α : Type} (d : α) (a b : Nat) :
    ∀ (n i j : Nat) (xs : List α), b ≤ xs.length → a ≤ i → j < b →
      Moved d a b xs (reverseRange_loop n i j xs) := by
  intro n
  induction n with
  | zero =>
    intro i j xs _ _ _
    exact Moved.moved_refl _ _ _ _
  | succ n ih =>
    intro i j xs hb hi hj
    simp only [reverseRange_loop]
    split
    · rename_i hij
      exact (Moved.swapAt d a b xs i j hi (by omega) (by omega) hj hb).moved_trans
        (ih (i + 1) (j - 1) _ (by rw [swapAt_length]; exact hb) (by omega) (by omega))
    · exact Moved.moved_refl _ _ _ _

theorem reverseRange_func_moved {α : Type} (d : α) (xs : List α) (a b : Nat)
    (hab : a < b) (hb : b ≤ xs.length) : Moved d a b xs (reverseRange_func xs a b) :=
  reverseRange_loop_moved d a b _ _ _ xs hb (le_refl _) (by omega)

theorem order2_func_mem {α : Type} (less : α → α → Bool) (xs : List α) (a b swaps : Nat) :
    ((order2_func less xs a b swaps).1 = a ∧ (order2_func less xs a b swaps).2.1 = b) ∨
    ((order2_func less xs a b swaps).1 = b ∧ (order2_func less xs a b swaps).2.1 = a) := by
  unfold order2_func
  split
  · exact Or.inr ⟨rfl, rfl⟩
  · exact Or.inl ⟨rfl, rfl⟩

theorem median_func_mem {α : Type} (less : α → α → Bool) (xs : List α) (a b c swaps : Nat) :
    (median_func less xs a b c swaps).1 = a ∨ (median_func less xs a b c swaps).1 = b ∨
      (median_func less xs a b c swaps).1 = c := by
  simp only [median_func]
  rcases order2_func_mem less xs a b swaps with ⟨h1, h2⟩ | ⟨h1, h2⟩ <;>
    rcases order2_func_mem less xs (order2_func less xs a b swaps).2.1 c
      (order2_func less xs a b swaps).2.2 with ⟨h3, h4⟩ | ⟨h3, h4⟩ <;>
    rcases order2_func_mem less xs (order2_func less xs a b swaps).1
      (order2_func less xs (order2_func less xs a b swaps).2.1 c
        (order2_func less xs a b swaps).2.2).1
      (order2_func less xs (order2_func less xs a b swaps).2.1 c
        (order2_func less xs a b swaps).2.2).2.2 with ⟨h5, h6⟩ | ⟨h5, h6⟩ <;>
    simp_all

theorem medianAdjacent_func_mem {α : Type} (less : α → α → Bool) (xs : List α)
    (a swaps : Nat) :
    a - 1 ≤ (medianAdjacent_func less xs a swaps).1 ∧
      (medianAdjacent_func less xs a swaps).1 ≤ a + 1 := by
  unfold medianAdjacent_func
  rcases median_func_mem less xs (a - 1) a (a + 1) swaps with h | h | h <;> omega

theorem choosePivot_func_range {α : Type} (less : α → α → Bool) (xs : List α) (a b : Nat)
    (hab : a < b) :
    a ≤ (choosePivot_func less xs a b).1 ∧ (choosePivot_func less xs a b).1 < b := by
  have key : ∀ r : Nat × Nat, a ≤ r.1 ∧ r.1 < b →
      a ≤ (if r.2 = 0 then (r.1, sortedHint.increasingHint)
        else if r.2 = 12 then (r.1, sortedHint.decreasingHint)
        else (r.1, sortedHint.unknownHint)).1 ∧
      (if r.2 = 0 then (r.1, sortedHint.increasingHint)
        else if r.2 = 12 then (r.1, sortedHint.decreasingHint)
        else (r.1, sortedHint.unknownHint)).1 < b := by
    intro r hr
    split
    · exact hr
    · split <;> exact hr
  simp only [choosePivot_func]
  apply key
  by_cases h8 : 8 ≤ b - a
  · rw [if_pos h8]
    by_cases h50 : 50 ≤ b - a
    · rw [if_pos h50]
      have hi := medianAdjacent_func_mem less xs (a + (b - a) / 4 * 1) 0
      generalize medianAdjacent_func less xs (a + (b - a) / 4 * 1) 0 = ri at hi ⊢
      have hj := medianAdjacent_func_mem less xs (a + (b - a) / 4 * 2) ri.2
      generalize medianAdjacent_func less xs (a + (b - a) / 4 * 2) ri.2 = rj at hj ⊢
      have hk := medianAdjacent_func_mem less xs (a + (b - a) / 4 * 3) rj.2
      generalize medianAdjacent_func less xs (a + (b - a) / 4 * 3) rj.2 = rk at hk ⊢
      rcases median_func_mem less xs ri.1 rj.1 rk.1 rk.2 with h | h | h <;>
        rw [h] <;> omega
    · rw [if_neg h50]
      rcases median_func_mem less xs (a + (b - a) / 4 * 1) (a + (b - a) / 4 * 2)
        (a + (b - a) / 4 * 3) 0 with h | h | h <;> rw [h] <;> omega
  · rw [if_neg h8]
    simp only []
    omega

/-! ## Lemmas on `partialInsertionSort_func` -/

/-- The loop that shifts the smaller element to the left moves the element at `j` down to
an index `m`, past elements that it is `less` than, and stops at index 0 or before an
element that it is not `less` than. -/
theorem shiftLeft_loop_spec {α : Type} (less : α → α → Bool) (d : α) :
    ∀ (j : Nat) (xs : List α), j < xs.length →
      ∃ m, m ≤ j ∧ (shiftLeft_loop less j xs).length = xs.length ∧
        (shiftLeft_loop less j xs).getD m d = xs.getD j d ∧
        (∀ k, m < k → k ≤ j → (shiftLeft_loop less j xs).getD k d = xs.getD (k - 1) d) ∧
        (∀ k, k < m ∨ j < k → (shiftLeft_loop less j xs).getD k d = xs.getD k d) ∧
        (∀ k, m ≤ k → k < j → less (xs.getD j d) (xs.getD k d) = true) ∧
        (m = 0 ∨ less (xs.getD j d) (xs.getD (m - 1) d) = false) := by
  intro j
  induction j with
  | zero =>
    intro xs _
    exact ⟨0, le_refl _, rfl, rfl, fun k h1 h2 => by omega, fun k _ => rfl,
      fun k h1 h2 => by omega, Or.inl rfl⟩
  | succ j ih =>
    intro xs hj
    simp only [shiftLeft_loop]
    by_cases hc : lessAt less xs (j + 1) j = true
    case neg =>
      rw [if_pos (by simpa using hc)]
      have hc2 : lessAt less xs (j + 1) j = false := by simpa using hc
      rw [lessAt_eq less xs d (j + 1) j hj (by omega)] at hc2
      exact ⟨j + 1, le_refl _, rfl, rfl, fun k h1 h2 => by omega, fun k _ => rfl,
        fun k h1 h2 => by omega, Or.inr hc2⟩
    case pos =>
      rw [if_neg (by simp [hc])]
      rw [lessAt_eq less xs d (j + 1) j hj (by omega)] at hc
      have hsw : ∀ k, (swapAt xs (j + 1) j).getD k d =
          if k = j then xs.getD (j + 1) d else if k = j + 1 then xs.getD j d
          else xs.getD k d :=
        fun k => getD_swapAt xs d (j + 1) j k hj (by omega)
      obtain ⟨m, hm, hlen, h1, h2, h3, h4, h5⟩ := ih (swapAt xs (j + 1) j)
        (by rw [swapAt_length]; omega)
      rw [hsw j, if_pos rfl] at h1 h4 h5
      refine ⟨m, by omega, by rw [hlen, swapAt_length], h1, ?_, ?_, ?_, ?_⟩
      · intro k hk1 hk2
        by_cases hk : k = j + 1
        · rw [h3 k (Or.inr (by omega)), hsw, if_neg (by omega), if_pos hk, hk]
          rfl
        · rw [h2 k hk1 (by omega), hsw, if_neg (by omega), if_neg (by omega)]
      · intro k hk
        rw [h3 k (by omega), hsw, if_neg (by omega), if_neg (by omega)]
      · intro k hk1 hk2
        by_cases hk : k = j
        · rw [hk]; exact hc
        · have := h4 k hk1 (by omega)
          rwa [hsw, if_neg hk, if_neg (by omega)] at this
      · rcases h5 with h5 | h5
        · exact Or.inl h5
        · by_cases hm0 : m = 0
          · exact Or.inl hm0
          · right
            rwa [hsw, if_neg (by omega), if_neg (by omega)] at h5

theorem shiftRight_loop_moved {α : Type} (less : α → α → Bool) (d : α) (lo b : Nat) :
    ∀ (n j : Nat) (xs : List α), b ≤ xs.length → lo < j → j + n ≤ b →
      Moved d lo b xs (shiftRight_loop less n j xs) := by
  intro n
  induction n with
  | zero =>
    intro j xs _ _ _
    exact Moved.moved_refl _ _ _ _
  | succ n ih =>
    intro j xs hb hj hn
    simp only [shiftRight_loop]
    split
    · exact Moved.moved_refl _ _ _ _
    · exact (Moved.swapAt d lo b xs j (j - 1) (by omega) (by omega) (by omega) (by omega)
        hb).moved_trans (ih (j + 1) _ (by rw [swapAt_length]; exact hb) (by omega) (by omega))

/-- The exchange at `i` and the shift to the left, in one: the element at `i` moves down
to an index `m`. -/
theorem partialInsertionSort_rotate {α : Type} (less : α → α → Bool) (d : α)
    (xs : List α) (a i : Nat) (hai : a < i) (hi : i < xs.length)
    (hless : less (xs.getD i d) (xs.getD (i - 1) d) = true) :
    ∃ m, m < i ∧
      (if 2 ≤ i - a then shiftLeft_loop less (i - 1) (swapAt xs i (i - 1))
        else swapAt xs i (i - 1)).length = xs.length ∧
      (if 2 ≤ i - a then shiftLeft_loop less (i - 1) (swapAt xs i (i - 1))
        else swapAt xs i (i - 1)).getD m d = xs.getD i d ∧
      (∀ k, m < k → k ≤ i →
        (if 2 ≤ i - a then shiftLeft_loop less (i - 1) (swapAt xs i (i - 1))
          else swapAt xs i (i - 1)).getD k d = xs.getD (k - 1) d) ∧
      (∀ k, k < m ∨ i < k →
        (if 2 ≤ i - a then shiftLeft_loop less (i - 1) (swapAt xs i (i - 1))
          else swapAt xs i (i - 1)).getD k d = xs.getD k d) ∧
      (∀ k, m ≤ k → k < i → less (xs.getD i d) (xs.getD k d) = true) ∧
      (a < m → less (xs.getD i d) (xs.getD (m - 1) d) = false) := by
  have hsw : ∀ k, (swapAt xs i (i - 1)).getD k d =
      if k = i - 1 then xs.getD i d else if k = i then xs.getD (i - 1) d
      else xs.getD k d :=
    fun k => getD_swapAt xs d i (i - 1) k hi (by omega)
  by_cases h2 : 2 ≤ i - a
  · simp only [if_pos h2]
    obtain ⟨m, hm, hlen, h1, h3, h4, h5, h6⟩ :=
      shiftLeft_loop_spec less d (i - 1) (swapAt xs i (i - 1))
        (by rw [swapAt_length]; omega)
    rw [hsw (i - 1), if_pos rfl] at h1 h5 h6
    refine ⟨m, by omega, by rw [hlen, swapAt_length], h1, ?_, ?_, ?_, ?_⟩
    · intro k hk1 hk2
      by_cases hk : k = i
      · rw [h4 k (Or.inr (by omega)), hsw, if_neg (by omega), if_pos hk, hk]
      · rw [h3 k hk1 (by omega), hsw, if_neg (by omega), if_neg (by omega)]
    · intro k hk
      rw [h4 k (by omega), hsw, if_neg (by omega), if_neg (by omega)]
    · intro k hk1 hk2
      by_cases hk : k = i - 1
      · rw [hk]; exact hless
      · have := h5 k hk1 (by omega)
        rwa [hsw, if_neg hk, if_neg (by omega)] at this
    · intro ham
      rcases h6 with h6 | h6
      · omega
      · rwa [hsw, if_neg (by omega), if_neg (by omega)] at h6
  · simp only [if_neg h2]
    refine ⟨i - 1, by omega, swapAt_length _ _ _, by rw [hsw, if_pos rfl], ?_, ?_, ?_, ?_⟩
    · intro k hk1 hk2
      have hk : k = i := by omega
      rw [hsw, if_neg (by omega), if_pos hk, hk]
    · intro k hk
      rw [hsw, if_neg (by omega), if_neg (by omega)]
    · intro k hk1 hk2
      have hk : k = i - 1 := by omega
      rw [hk]; exact hless
    · intro ham
      omega

/-- One round of `partialInsertionSort_func` up to the shift to the left: a step inside
the range, up to elements that are ordered both ways, after which the range before `i`
is in order. -/
theorem partialInsertionSort_left {α : Type} {less : α → α → Bool} {R : α → α → Prop}
    (ho : SortOrder less R) (d : α) (xs ys : List α) (a b i m : Nat)
    (hai : a < i) (hib : i < b) (hbelow : Below R d xs a b)
    (hsorted : SortedOn R d xs a i) (hm : m < i) (hlen : ys.length = xs.length)
    (h1 : ys.getD m d = xs.getD i d)
    (h2 : ∀ k, m < k → k ≤ i → ys.getD k d = xs.getD (k - 1) d)
    (h3 : ∀ k, k < m ∨ i < k → ys.getD k d = xs.getD k d)
    (h4 : ∀ k, m ≤ k → k < i → less (xs.getD i d) (xs.getD k d) = true)
    (h5 : a < m → less (xs.getD i d) (xs.getD (m - 1) d) = false) :
    Step R d a b xs ys ∧ SortedOn R d ys a i := by
  have hx : ∀ k, m ≤ k → k < i → R (xs.getD i d) (xs.getD k d) :=
    fun k hk1 hk2 => ho.of_less _ _ (h4 k hk1 hk2)
  have hbx : ∀ k, k < a → R (xs.getD k d) (xs.getD i d) :=
    fun k hk => hbelow k i hk (by omega) hib
  refine ⟨⟨hlen, ?_, ?_⟩, ?_⟩
  · intro k hk
    rcases hk with hk | hk
    · by_cases hkm : k < m
      · rw [h3 k (Or.inl hkm)]
        exact Eqv.rfl_of ho _
      · by_cases hkm2 : k = m
        · rw [hkm2, h1]
          exact ⟨hx m (le_refl _) hm, hbx m (by omega)⟩
        · rw [h2 k (by omega) (by omega)]
          exact ⟨ho.trans _ _ _ (hbx (k - 1) (by omega)) (hx k (by omega) (by omega)),
            ho.trans _ _ _ (hbx k hk) (hx (k - 1) (by omega) (by omega))⟩
    · rw [h3 k (Or.inr (by omega))]
      exact Eqv.rfl_of ho _
  · intro k hk1 hk2
    by_cases hkm : k < m
    · exact ⟨k, hk1, hk2, by rw [h3 k (Or.inl hkm)]; exact Eqv.rfl_of ho _⟩
    · by_cases hkm2 : k = m
      · exact ⟨i, by omega, hib, by rw [hkm2, h1]; exact Eqv.rfl_of ho _⟩
      · by_cases hki : i < k
        · exact ⟨k, hk1, hk2, by rw [h3 k (Or.inr hki)]; exact Eqv.rfl_of ho _⟩
        · rw [h2 k (by omega) (by omega)]
          by_cases hka : a ≤ k - 1
          · exact ⟨k - 1, hka, by omega, Eqv.rfl_of ho _⟩
          · exact ⟨i, by omega, hib, hbx (k - 1) (by omega), hx (k - 1) (by omega) (by omega)⟩
  · intro p q hp hpq hq
    by_cases hqm : q < m
    · rw [h3 p (Or.inl (by omega)), h3 q (Or.inl hqm)]
      exact hsorted p q hp hpq (by omega)
    · by_cases hqm2 : q = m
      · rw [h3 p (Or.inl (by omega)), hqm2, h1]
        have hlast : R (xs.getD (m - 1) d) (xs.getD i d) :=
          ho.of_not_less _ _ (h5 (by omega))
        by_cases hpm : p = m - 1
        · rw [hpm]; exact hlast
        · exact ho.trans _ _ _ (hsorted p (m - 1) hp (by omega) (by omega)) hlast
      · rw [h2 q (by omega) (by omega)]
        by_cases hpm : p < m
        · rw [h3 p (Or.inl hpm)]
          exact hsorted p (q - 1) hp (by omega) (by omega)
        · by_cases hpm2 : p = m
          · rw [hpm2, h1]
            exact hx (q - 1) (by omega) (by omega)
          · rw [h2 p (by omega) (by omega)]
            by_cases hpa : a ≤ p - 1
            · exact hsorted (p - 1) (q - 1) hpa (by omega) (by omega)
            · exact hbelow (p - 1) (q - 1) (by omega) (by omega) (by omega)

theorem sortedOn_extend {α : Type} {less : α → α → Bool} {R : α → α → Prop}
    (ho : SortOrder less R) (d : α) (xs : List α) (a i i1 : Nat)
    (hs : SortedOn R d xs a i)
    (hadj : ∀ k, i ≤ k → k < i1 → R (xs.getD (k - 1) d) (xs.getD k d)) :
    SortedOn R d xs a i1 := by
  have key : ∀ q p, a ≤ p → p < q → q < i1 → R (xs.getD p d) (xs.getD q d) := by
    intro q
    induction q with
    | zero => intro p _ h _; omega
    | succ q ih =>
      intro p hp hpq hq
      by_cases hqi : q + 1 < i
      · exact hs p (q + 1) hp hpq hqi
      · have h1 := hadj (q + 1) (by omega) hq
        simp only [Nat.add_sub_cancel] at h1
        by_cases hpq2 : p = q
        · rw [hpq2]; exact h1
        · exact ho.trans _ _ _ (ih p hp (by omega) (by omega)) h1
  intro p q hp hpq hq
  exact key q p hp hpq hq

theorem partialInsertionSort_loop_spec {α : Type} {less : α → α → Bool}
    {R : α → α → Prop} (ho : SortOrder less R) (d : α) (a b : Nat) :
    ∀ (s i : Nat) (xs : List α), b ≤ xs.length → a < i → i ≤ b → Below R d xs a b →
      SortedOn R d xs a i →
      Step R d a b xs (partialInsertionSort_loop less a b s i xs).1 ∧
      ((partialInsertionSort_loop less a b s i xs).2 = true →
        SortedOn R d (partialInsertionSort_loop less a b s i xs).1 a b) := by
  intro s
  induction s with
  | zero =>
    intro i xs _ _ _ _ _
    simp only [partialInsertionSort_loop]
    exact ⟨Step.step_refl ho _ _ _ _, fun h => by cases h⟩
  | succ s ih =>
    intro i xs hb hai hib hbelow hsorted
    simp only [partialInsertionSort_loop]
    have hu := scanUp_spec (fun k => !lessAt less xs k (k - 1)) (b - i) i
    generalize scanUp (fun k => !lessAt less xs k (k - 1)) (b - i) i = i1 at hu ⊢
    obtain ⟨hu1, hu2, hu3, hu4⟩ := hu
    have hs1 : SortedOn R d xs a i1 := by
      refine sortedOn_extend ho d xs a i i1 hsorted ?_
      intro k hk1 hk2
      have := hu3 k hk1 hk2
      simp only [Bool.not_eq_true'] at this
      rw [lessAt_eq less xs d k (k - 1) (by omega) (by omega)] at this
      exact ho.of_not_less _ _ this
    by_cases he : i1 = b
    · rw [if_pos he]
      exact ⟨Step.step_refl ho _ _ _ _, fun _ => he ▸ hs1⟩
    · rw [if_neg he]
      by_cases h50 : b - a < 50
      · rw [if_pos h50]
        exact ⟨Step.step_refl ho _ _ _ _, fun h => by cases h⟩
      · rw [if_neg h50]
        have hless : less (xs.getD i1 d) (xs.getD (i1 - 1) d) = true := by
          have := hu4 (by omega)
          simp only [Bool.not_eq_false'] at this
          rwa [lessAt_eq less xs d i1 (i1 - 1) (by omega) (by omega)] at this
        obtain ⟨m, hm, hlen, h1, h2, h3, h4, h5⟩ :=
          partialInsertionSort_rotate less d xs a i1 (by omega) (by omega) hless
        have hleft := partialInsertionSort_left ho d xs _ a b i1 m (by omega) (by omega)
          hbelow hs1 hm hlen h1 h2 h3 h4 h5
        generalize (if 2 ≤ i1 - a then shiftLeft_loop less (i1 - 1) (swapAt xs i1 (i1 - 1))
          else swapAt xs i1 (i1 - 1)) = xs2 at hlen hleft ⊢
        have hright : Moved d i1 b xs2
            (if 2 ≤ b - i1 then shiftRight_loop less (b - (i1 + 1)) (i1 + 1) xs2
              else xs2) := by
          split
          · exact shiftRight_loop_moved less d i1 b _ _ xs2 (by omega) (by omega) (by omega)
          · exact Moved.moved_refl _ _ _ _
        generalize (if 2 ≤ b - i1 then shiftRight_loop less (b - (i1 + 1)) (i1 + 1) xs2
          else xs2) = xs3 at hright ⊢
        have hstep : Step R d a b xs xs3 :=
          Step.step_trans ho hleft.1 ((hright.moved_mono (by omega) (le_refl _)).step ho)
        have hs3 : SortedOn R d xs3 a i1 := by
          intro p q hp hpq hq
          rw [hright.2.1 p (Or.inl (by omega)), hright.2.1 q (Or.inl hq)]
          exact hleft.2 p q hp hpq hq
        have hrec := ih i1 xs3 (by rw [hstep.1]; exact hb) (by omega) (by omega)
          (hstep.below ho hbelow) hs3
        exact ⟨Step.step_trans ho hstep hrec.1, hrec.2⟩

theorem partialInsertionSort_func_spec {α : Type} {less : α → α → Bool}
    {R : α → α → Prop} (ho : SortOrder less R) (d : α) (xs : List α) (a b : Nat)
    (hab : a < b) (hb : b ≤ xs.length) (hbelow : Below R d xs a b) :
    Step R d a b xs (partialInsertionSort_func less xs a b).1 ∧
    ((partialInsertionSort_func less xs a b).2 = true →
      SortedOn R d (partialInsertionSort_func less xs a b).1 a b) :=
  partialInsertionSort_loop_spec ho d a b 5 (a + 1) xs hb (by omega) (by omega) hbelow
    (fun p q hp hpq hq => by omega)

/-! ## Lemmas on `heapSort_func` -/

theorem siftDown_loop_spec {α : Type} {less : α → α → Bool} {R : α → α → Prop}
    (ho : SortOrder less R) (d : α) (hi first lo : Nat) :
    ∀ (n root : Nat) (xs : List α), first + hi ≤ xs.length → lo ≤ root → hi ≤ root + n →
      (∀ k c, lo ≤ k → k ≠ root → c < hi → (c = 2 * k + 1 ∨ c = 2 * k + 2) →
        R (xs.getD (first + c) d) (xs.getD (first + k) d)) →
      (∀ k c, lo ≤ k → (root = 2 * k + 1 ∨ root = 2 * k + 2) → c < hi →
        (c = 2 * root + 1 ∨ c = 2 * root + 2) →
        R (xs.getD (first + c) d) (xs.getD (first + k) d)) →
      Moved d (first + lo) (first + hi) xs (siftDown_loop less hi first n root xs) ∧
      HeapFrom R d first lo hi (siftDown_loop less hi first n root xs) := by
  intro n
  induction n with
  | zero =>
    intro root xs hlen hlo hn halmost hgrand
    simp only [siftDown_loop]
    refine ⟨Moved.moved_refl _ _ _ _, ?_⟩
    intro k c hk hc hkc
    exact halmost k c hk (by omega) hc hkc
  | succ n ih =>
    intro root xs hlen hlo hn halmost hgrand
    simp only [siftDown_loop]
    by_cases hleaf : hi ≤ 2 * root + 1
    · rw [if_pos hleaf]
      refine ⟨Moved.moved_refl _ _ _ _, ?_⟩
      intro k c hk hc hkc
      exact halmost k c hk (by omega) hc hkc
    · rw [if_neg hleaf]
      have hchild : ∃ child, child < hi ∧ (child = 2 * root + 1 ∨ child = 2 * root + 2) ∧
          (∀ c, c < hi → (c = 2 * root + 1 ∨ c = 2 * root + 2) →
            R (xs.getD (first + c) d) (xs.getD (first + child) d)) ∧
          (if (decide (2 * root + 1 + 1 < hi) &&
              lessAt less xs (first + (2 * root + 1)) (first + (2 * root + 1) + 1)) = true
            then 2 * root + 1 + 1 else 2 * root + 1) = child := by
        by_cases h2 : 2 * root + 1 + 1 < hi
        · cases hl : lessAt less xs (first + (2 * root + 1)) (first + (2 * root + 1) + 1) with
          | true =>
            refine ⟨2 * root + 2, by omega, Or.inr rfl, ?_, by simp [h2]⟩
            rw [lessAt_eq less xs d _ _ (by omega) (by omega)] at hl
            intro c hc hcc
            rcases hcc with hcc | hcc
            · rw [hcc]
              exact ho.of_less _ _ hl
            · rw [hcc]
              exact ho.order_refl _
          | false =>
            refine ⟨2 * root + 1, by omega, Or.inl rfl, ?_, by simp⟩
            rw [lessAt_eq less xs d _ _ (by omega) (by omega)] at hl
            intro c hc hcc
            rcases hcc with hcc | hcc
            · rw [hcc]
              exact ho.order_refl _
            · rw [hcc]
              exact ho.of_not_less _ _ hl
        · refine ⟨2 * root + 1, by omega, Or.inl rfl, ?_, by simp [h2]⟩
          intro c hc hcc
          have : c = 2 * root + 1 := by omega
          rw [this]
          exact ho.order_refl _
      obtain ⟨child, hch1, hch2, hbig, hce⟩ := hchild
      rw [hce]
      by_cases hl : lessAt less xs (first + root) (first + child) = true
      · rw [if_neg (by simp [hl])]
        rw [lessAt_eq less xs d _ _ (by omega) (by omega)] at hl
        have hsw : ∀ k, (swapAt xs (first + root) (first + child)).getD k d =
            if k = first + child then xs.getD (first + root) d
            else if k = first + root then xs.getD (first + child) d else xs.getD k d :=
          fun k => getD_swapAt xs d _ _ k (by omega) (by omega)
        have hsr : (swapAt xs (first + root) (first + child)).getD (first + root) d =
            xs.getD (first + child) d := by
          rw [hsw, if_neg (by omega), if_pos rfl]
        have hsc : (swapAt xs (first + root) (first + child)).getD (first + child) d =
            xs.getD (first + root) d := by
          rw [hsw, if_pos rfl]
        have hso : ∀ k, k ≠ root → k ≠ child →
            (swapAt xs (first + root) (first + child)).getD (first + k) d =
              xs.getD (first + k) d := by
          intro k h1 h2
          rw [hsw, if_neg (by omega), if_neg (by omega)]
        have hm := Moved.swapAt d (first + lo) (first + hi) xs (first + root) (first + child)
          (by omega) (by omega) (by omega) (by omega) hlen
        have hrec := ih child (swapAt xs (first + root) (first + child))
          (by rw [swapAt_length]; exact hlen) (by omega) (by omega)
          (by
            intro k c hk hkr hc hkc
            by_cases hkroot : k = root
            · rw [hkroot, hsr]
              by_cases hcc : c = child
              · rw [hcc, hsc]
                exact ho.of_less _ _ hl
              · rw [hso c (by omega) hcc]
                exact hbig c hc (by omega)
            · rw [hso k hkroot hkr]
              by_cases hcr : c = root
              · rw [hcr, hsr]
                exact hgrand k child hk (by omega) hch1 hch2
              · rw [hso c hcr (by omega)]
                exact halmost k c hk hkroot hc hkc)
          (by
            intro k c hk hkr hc hkc
            have hkroot : k = root := by omega
            rw [hkroot, hsr, hso c (by omega) (by omega)]
            exact halmost child c (by omega) (by omega) hc hkc)
        exact ⟨hm.moved_trans hrec.1, hrec.2⟩
      · rw [if_pos (by simpa using hl)]
        have hl2 : lessAt less xs (first + root) (first + child) = false := by simpa using hl
        rw [lessAt_eq less xs d _ _ (by omega) (by omega)] at hl2
        refine ⟨Moved.moved_refl _ _ _ _, ?_⟩
        intro k c hk hc hkc
        by_cases hkroot : k = root
        · rw [hkroot]
          exact ho.trans _ _ _ (hbig c hc (by omega)) (ho.of_not_less _ _ hl2)
        · exact halmost k c hk hkroot hc hkc

theorem heapSort_build_spec {α : Type} {less : α → α → Bool} {R : α → α → Prop}
    (ho : SortOrder less R) (d : α) (hi first : Nat) :
    ∀ (n : Nat) (xs : List α), first + hi ≤ xs.length → HeapFrom R d first n hi xs →
      Moved d first (first + hi) xs (heapSort_build less hi first n xs) ∧
      HeapFrom R d first 0 hi (heapSort_build less hi first n xs) := by
  intro n
  induction n with
  | zero =>
    intro xs _ hh
    exact ⟨Moved.moved_refl _ _ _ _, hh⟩
  | succ n ih =>
    intro xs hlen hh
    simp only [heapSort_build, siftDown_func]
    have hs := siftDown_loop_spec ho d hi first n hi n xs hlen (le_refl _) (by omega)
      (fun k c hk hkn hc hkc => hh k c (by omega) hc hkc)
      (fun k c hk hkr hc hkc => by omega)
    have hrec := ih _ (by rw [hs.1.1]; exact hlen) hs.2
    exact ⟨(hs.1.moved_mono (by omega) (le_refl _)).moved_trans hrec.1, hrec.2⟩

/-- In a heap every element is in the order `R` with the root. -/
theorem heapFrom_root {α : Type} {less : α → α → Bool} {R : α → α → Prop}
    (ho : SortOrder less R) (d : α) (first hi : Nat) (xs : List α)
    (hh : HeapFrom R d first 0 hi xs) :
    ∀ k, k < hi → R (xs.getD (first + k) d) (xs.getD (first + 0) d) := by
  intro k
  induction k using Nat.strong_induction_on with
  | _ k ih =>
    intro hk
    by_cases hk0 : k = 0
    · rw [hk0]
      exact ho.order_refl _
    · have h1 := hh ((k - 1) / 2) k (Nat.zero_le _) hk (by omega)
      exact ho.trans _ _ _ h1 (ih ((k - 1) / 2) (by omega) (by omega))

theorem heapSort_pop_spec {α : Type} {less : α → α → Bool} {R : α → α → Prop}
    (ho : SortOrder less R) (d : α) (hi first : Nat) :
    ∀ (i : Nat) (xs : List α), i ≤ hi → first + hi ≤ xs.length →
      HeapFrom R d first 0 i xs → SortedOn R d xs (first + i) (first + hi) →
      (∀ p q, first ≤ p → p < first + i → first + i ≤ q → q < first + hi →
        R (xs.getD p d) (xs.getD q d)) →
      Moved d first (first + hi) xs (heapSort_pop less first i xs) ∧
      SortedOn R d (heapSort_pop less first i xs) first (first + hi) := by
  intro i
  induction i with
  | zero =>
    intro xs _ _ _ hs _
    exact ⟨Moved.moved_refl _ _ _ _, hs⟩
  | succ i ih =>
    intro xs hi1 hlen hh hs hcross
    simp only [heapSort_pop, siftDown_func]
    have hsw : ∀ k, (swapAt xs first (first + i)).getD k d =
        if k = first + i then xs.getD first d
        else if k = first then xs.getD (first + i) d else xs.getD k d :=
      fun k => getD_swapAt xs d _ _ k (by omega) (by omega)
    have hm1 := Moved.swapAt d first (first + hi) xs first (first + i)
      (le_refl _) (by omega) (by omega) (by omega) hlen
    have hroot := heapFrom_root ho d first (i + 1) xs hh
    have hso : ∀ k, k ≠ first → k ≠ first + i →
        (swapAt xs first (first + i)).getD k d = xs.getD k d := by
      intro k h1 h2
      rw [hsw, if_neg h2, if_neg h1]
    have hsi : (swapAt xs first (first + i)).getD (first + i) d = xs.getD first d := by
      rw [hsw, if_pos rfl]
    have hsift := siftDown_loop_spec ho d i first 0 i 0 (swapAt xs first (first + i))
      (by rw [swapAt_length]; omega) (le_refl _) (by omega)
      (by
        intro k c hk hk0 hc hkc
        rw [hso (first + c) (by omega) (by omega), hso (first + k) (by omega) (by omega)]
        exact hh k c hk (by omega) hkc)
      (fun k c hk hkr hc hkc => by omega)
    generalize siftDown_loop less i first i 0 (swapAt xs first (first + i)) = xs2 at hsift ⊢
    obtain ⟨hm2, hh2⟩ := hsift
    have hout : ∀ k, first + i ≤ k → xs2.getD k d = (swapAt xs first (first + i)).getD k d :=
      fun k hk => hm2.2.1 k (Or.inr (by omega))
    -- every element of the heap that is left comes from the heap before the exchange
    have hin : ∀ p, first ≤ p → p < first + i →
        ∃ p', first ≤ p' ∧ p' < first + (i + 1) ∧ xs2.getD p d = xs.getD p' d := by
      intro p hp1 hp2
      obtain ⟨p', h1, h2, h3⟩ := hm2.2.2 p (by omega) (by omega)
      rw [hsw, if_neg (by omega)] at h3
      by_cases hp0 : p' = first
      · rw [if_pos hp0] at h3
        exact ⟨first + i, by omega, by omega, h3⟩
      · rw [if_neg hp0] at h3
        exact ⟨p', by omega, by omega, h3⟩
    have hrec := ih xs2 (by omega) (by rw [hm2.1, swapAt_length]; exact hlen) hh2
      (by
        intro p q hp hpq hq
        rw [hout p hp, hout q (by omega), hso q (by omega) (by omega)]
        by_cases hpi : p = first + i
        · rw [hpi, hsi]
          exact hcross first q (le_refl _) (by omega) (by omega) hq
        · rw [hso p (by omega) hpi]
          exact hs p q (by omega) hpq hq)
      (by
        intro p q hp1 hp2 hq1 hq2
        obtain ⟨p', h1, h2, h3⟩ := hin p hp1 hp2
        rw [h3, hout q hq1]
        by_cases hqi : q = first + i
        · rw [hqi, hsi]
          have := hroot (p' - first) (by omega)
          rwa [show first + (p' - first) = p' by omega, Nat.add_zero] at this
        · rw [hso q (by omega) hqi]
          exact hcross p' q h1 h2 (by omega) hq2)
    exact ⟨hm1.moved_trans ((hm2.moved_mono (by omega) (by omega)).moved_trans hrec.1), hrec.2⟩

theorem heapSort_func_spec {α : Type} {less : α → α → Bool} {R : α → α → Prop}
    (ho : SortOrder less R) (d : α) (xs : List α) (a b : Nat) (hab : a ≤ b)
    (hb : b ≤ xs.length) :
    Moved d a b xs (heapSort_func less xs a b) ∧
    SortedOn R d (heapSort_func less xs a b) a b := by
  simp only [heapSort_func]
  have hbuild := heapSort_build_spec ho d (b - a) a ((b - a - 1) / 2 + 1) xs (by omega)
    (fun k c hk hc hkc => by omega)
  generalize heapSort_build less (b - a) a ((b - a - 1) / 2 + 1) xs = xs1 at hbuild ⊢
  have hpop := heapSort_pop_spec ho d (b - a) a (b - a) xs1 (le_refl _)
    (by rw [hbuild.1.1]; omega) hbuild.2 (fun p q hp hpq hq => by omega)
    (fun p q hp1 hp2 hq1 hq2 => by omega)
  have hab2 : a + (b - a) = b := by omega
  rw [hab2] at hbuild hpop
  exact ⟨hbuild.1.moved_trans hpop.1, hpop.2⟩

/-! ## `pdqsort_func` sorts -/

theorem Below.below_mono {α : Type} {R : α → α → Prop} {d : α} {xs : List α} {a b b1 : Nat}
    (h : Below R d xs a b) (hb : b1 ≤ b) : Below R d xs a b1 :=
  fun i j hi hj1 hj2 => h i j hi hj1 (by omega)

/-- The range after a pivot: what is before the range is in the order `R` with it. -/
theorem below_after_pivot {α : Type} {less : α → α → Bool} {R : α → α → Prop}
    (ho : SortOrder less R) {d : α} {xs : List α} {a mid b : Nat}
    (hbelow : Below R d xs a b) (ham : a ≤ mid)
    (hup : ∀ k, a ≤ k → k < mid → R (xs.getD k d) (xs.getD mid d))
    (hlo : ∀ k, mid < k → k < b → R (xs.getD mid d) (xs.getD k d)) :
    Below R d xs (mid + 1) b := by
  intro i j hi hj1 hj2
  by_cases hia : i < a
  · exact hbelow i j hia (by omega) hj2
  · by_cases him : i = mid
    · rw [him]
      exact hlo j (by omega) hj2
    · exact ho.trans _ _ _ (hup i (by omega) (by omega)) (hlo j (by omega) hj2)

/-- The bounds that a partition leaves around the pivot survive a step on one side. -/
theorem pivot_bounds_step {α : Type} {less : α → α → Bool} {R : α → α → Prop}
    (ho : SortOrder less R) {d : α} {xs ys : List α} {a mid b a1 b1 : Nat}
    (hst : Step R d a1 b1 xs ys)
    (hside : (a ≤ a1 ∧ b1 ≤ mid) ∨ (mid + 1 ≤ a1 ∧ b1 ≤ b))
    (hup : ∀ k, a ≤ k → k < mid → R (xs.getD k d) (xs.getD mid d))
    (hlo : ∀ k, mid < k → k < b → R (xs.getD mid d) (xs.getD k d)) :
    (∀ k, a ≤ k → k < mid → R (ys.getD k d) (ys.getD mid d)) ∧
    (∀ k, mid < k → k < b → R (ys.getD mid d) (ys.getD k d)) := by
  have hmid : Eqv R (ys.getD mid d) (xs.getD mid d) := hst.2.1 mid (by omega)
  have hst2 : Step R d a mid xs ys ∨ Step R d (mid + 1) b xs ys := by
    rcases hside with h | h
    · exact Or.inl (hst.step_mono h.1 h.2)
    · exact Or.inr (hst.step_mono h.1 h.2)
  constructor
  · intro k hk1 hk2
    refine ho.trans _ _ _ ?_ hmid.2
    rcases hst2 with h | h
    · exact h.upper ho _ hup k hk1 hk2
    · exact ho.trans _ _ _ (h.2.1 k (by omega)).1 (hup k hk1 hk2)
  · intro k hk1 hk2
    refine ho.trans _ _ _ hmid.1 ?_
    rcases hst2 with h | h
    · exact ho.trans _ _ _ (hlo k hk1 hk2) (h.2.1 k (by omega)).2
    · exact h.lower ho _ (fun k h1 h2 => hlo k (by omega) h2) k (by omega) hk2

theorem sortedOn_join {α : Type} {less : α → α → Bool} {R : α → α → Prop}
    (ho : SortOrder less R) {d : α} {ys : List α} {a mid b : Nat}
    (hl : SortedOn R d ys a mid) (hr : SortedOn R d ys (mid + 1) b)
    (hup : ∀ k, a ≤ k → k < mid → R (ys.getD k d) (ys.getD mid d))
    (hlo : ∀ k, mid < k → k < b → R (ys.getD mid d) (ys.getD k d)) :
    SortedOn R d ys a b := by
  intro i j hi hij hj
  by_cases hjm : j < mid
  · exact hl i j hi hij hjm
  · by_cases him : mid < i
    · exact hr i j (by omega) hij hj
    · by_cases hjm2 : j = mid
      · rw [hjm2]
        exact hup i hi (by omega)
      · by_cases him2 : i = mid
        · rw [him2]
          exact hlo j (by omega) hj
        · exact ho.trans _ _ _ (hup i hi (by omega)) (hlo j (by omega) hj)

/-- After `partitionEqual_func` the elements before the new start are in order, and the
sorted rest completes the range. -/
theorem combine_equal {α : Type} {less : α → α → Bool} {R : α → α → Prop}
    (ho : SortOrder less R) {d : α} {pe ys : List α} {a mid b : Nat} (p : α)
    (hup : ∀ k, a ≤ k → k < mid → R (pe.getD k d) p)
    (hlo : ∀ k, a ≤ k → k < b → R p (pe.getD k d))
    (ham : a ≤ mid)
    (hst : Step R d mid b pe ys) (hso : SortedOn R d ys mid b) :
    SortedOn R d ys a b := by
  have hup2 : ∀ k, a ≤ k → k < mid → R (ys.getD k d) p :=
    fun k h1 h2 => ho.trans _ _ _ (hst.2.1 k (Or.inl h2)).1 (hup k h1 h2)
  have hlo2 : ∀ k, a ≤ k → k < b → R p (ys.getD k d) := by
    intro k h1 h2
    by_cases hk : k < mid
    · exact ho.trans _ _ _ (hlo k h1 h2) (hst.2.1 k (Or.inl hk)).2
    · exact hst.lower ho p (fun k h1 h2 => hlo k (by omega) h2) k (by omega) h2
  intro i j hi hij hj
  by_cases him : i < mid
  · exact ho.trans _ _ _ (hup2 i hi him) (hlo2 j (by omega) hj)
  · exact hso i j (by omega) hij hj

theorem pdqsort_func_spec {α : Type} {less : α → α → Bool} {R : α → α → Prop}
    (ho : SortOrder less R) (d : α) :
    ∀ (fuel : Nat) (xs : List α) (a b limit : Nat) (wasBalanced wasPartitioned : Bool),
      a ≤ b → b ≤ xs.length → b - a < fuel → Below R d xs a b →
      Step R d a b xs (pdqsort_func less fuel xs a b limit wasBalanced wasPartitioned) ∧
      SortedOn R d (pdqsort_func less fuel xs a b limit wasBalanced wasPartitioned) a b := by
  intro fuel
  induction fuel with
  | zero =>
    intro xs a b limit wb wp hab hb hfuel
    omega
  | succ fuel ih =>
    intro xs a b limit wb wp hab hb hfuel hbelow
    simp only [pdqsort_func]
    by_cases h12 : b - a ≤ 12
    · rw [if_pos h12]
      have h := insertionSort_func_spec ho d xs a b hab hb
      exact ⟨h.1.step ho, h.2⟩
    rw [if_neg h12]
    by_cases hlim : limit = 0
    · rw [if_pos hlim]
      have h := heapSort_func_spec ho d xs a b hab hb
      exact ⟨h.1.step ho, h.2⟩
    rw [if_neg hlim]
    -- the patterns are broken
    have h1 : Moved d a b xs (if (!wb) = true then breakPatterns_func xs a b else xs) := by
      split
      · exact breakPatterns_func_moved d xs a b hab hb
      · exact Moved.moved_refl _ _ _ _
    generalize (if (!wb) = true then breakPatterns_func xs a b else xs) = xs1 at h1 ⊢
    generalize (if (!wb) = true then limit - 1 else limit) = limit1
    have hb1 : b ≤ xs1.length := by rw [h1.1]; exact hb
    -- the pivot is chosen
    have hcp := choosePivot_func_range less xs1 a b (by omega)
    generalize choosePivot_func less xs1 a b = cp at hcp ⊢
    have h2 : Moved d a b xs1
        (if cp.2 = sortedHint.decreasingHint then reverseRange_func xs1 a b else xs1) := by
      split
      · exact reverseRange_func_moved d xs1 a b (by omega) hb1
      · exact Moved.moved_refl _ _ _ _
    generalize (if cp.2 = sortedHint.decreasingHint then reverseRange_func xs1 a b
      else xs1) = xs2 at h2 ⊢
    have hb2 : b ≤ xs2.length := by rw [h2.1]; exact hb1
    have hpiv : a ≤ (if cp.2 = sortedHint.decreasingHint then b - 1 - (cp.1 - a) else cp.1) ∧
        (if cp.2 = sortedHint.decreasingHint then b - 1 - (cp.1 - a) else cp.1) < b := by
      split <;> omega
    generalize (if cp.2 = sortedHint.decreasingHint then b - 1 - (cp.1 - a) else cp.1)
      = pivot at hpiv ⊢
    generalize (wb && wp && decide ((if cp.2 = sortedHint.decreasingHint then
      sortedHint.increasingHint else cp.2) = sortedHint.increasingHint)) = tryPartial
    have hstep2 : Step R d a b xs xs2 := (h1.moved_trans h2).step ho
    have hbelow2 : Below R d xs2 a b := hstep2.below ho hbelow
    -- the partial insertion sort
    have h3 : Step R d a b xs2
          (if tryPartial = true then partialInsertionSort_func less xs2 a b
            else (xs2, false)).1 ∧
        ((if tryPartial = true then partialInsertionSort_func less xs2 a b
            else (xs2, false)).2 = true →
          SortedOn R d (if tryPartial = true then partialInsertionSort_func less xs2 a b
            else (xs2, false)).1 a b) := by
      split
      · exact partialInsertionSort_func_spec ho d xs2 a b (by omega) hb2 hbelow2
      · exact ⟨Step.step_refl ho _ _ _ _, fun h => by cases h⟩
    generalize (if tryPartial = true then partialInsertionSort_func less xs2 a b
      else (xs2, false)) = pis at h3 ⊢
    obtain ⟨xs3, sorted⟩ := pis
    simp only at h3 ⊢
    have hstep3 : Step R d a b xs xs3 := Step.step_trans ho hstep2 h3.1
    by_cases hsorted : sorted = true
    · rw [if_pos hsorted]
      exact ⟨hstep3, h3.2 hsorted⟩
    rw [if_neg hsorted]
    have hb3 : b ≤ xs3.length := by rw [hstep3.1]; exact hb
    have hbelow3 : Below R d xs3 a b := hstep3.below ho hbelow
    by_cases hpe : (decide (0 < a) && !lessAt less xs3 (a - 1) pivot) = true
    · -- the elements equal to the pivot are set apart
      rw [if_pos hpe]
      simp only [Bool.and_eq_true, decide_eq_true_eq, Bool.not_eq_true'] at hpe
      obtain ⟨ha0, hnl⟩ := hpe
      rw [lessAt_eq less xs3 d (a - 1) pivot (by omega) (by omega)] at hnl
      have hpl : ∀ k, a ≤ k → k < b → R (xs3.getD pivot d) (xs3.getD k d) :=
        fun k h1 h2 => ho.trans _ _ _ (ho.of_not_less _ _ hnl)
          (hbelow3 (a - 1) k (by omega) h1 h2)
      obtain ⟨hm, hmid1, hmid2, hup, hlo⟩ :=
        partitionEqual_func_spec ho d xs3 a b pivot hpiv.1 hpiv.2 hb3
      generalize partitionEqual_func less xs3 a b pivot = pe at hm hmid1 hmid2 hup hlo ⊢
      have hbpe : Below R d pe.1 pe.2 b := by
        intro i j hi hj1 hj2
        by_cases hia : i < a
        · exact (hm.step ho).below ho hbelow3 i j hia (by omega) hj2
        · exact ho.trans _ _ _ (hup i (by omega) hi) (hlo j hj1 hj2)
      have hrec := ih pe.1 pe.2 b limit1 wb wp hmid2 (by rw [hm.1]; exact hb3)
        (by omega) hbpe
      refine ⟨Step.step_trans ho hstep3 (Step.step_trans ho (hm.step ho)
        (hrec.1.step_mono (by omega) (le_refl _))), ?_⟩
      exact combine_equal ho (xs3.getD pivot d) hup
        ((hm.step ho).lower ho _ hpl) (by omega) hrec.1 hrec.2
    · -- the partition
      rw [if_neg hpe]
      obtain ⟨hm, hmid1, hmid2, hup, hlo⟩ :=
        partition_func_spec ho d xs3 a b pivot hpiv.1 hpiv.2 hb3
      generalize partition_func less xs3 a b pivot = pt at hm hmid1 hmid2 hup hlo ⊢
      obtain ⟨xs4, mid, already⟩ := pt
      simp only at hm hmid1 hmid2 hup hlo ⊢
      have hb4 : b ≤ xs4.length := by rw [hm.1]; exact hb3
      have hstep4 : Step R d a b xs xs4 := Step.step_trans ho hstep3 (hm.step ho)
      have hbelow4 : Below R d xs4 a b := hstep4.below ho hbelow
      by_cases hlr : mid - a < b - mid
      · rw [if_pos hlr]
        have hl := ih xs4 a mid limit1 true true hmid1 (by omega) (by omega)
          (hbelow4.below_mono (by omega))
        generalize pdqsort_func less fuel xs4 a mid limit1 true true = xs5 at hl ⊢
        have hbd := pivot_bounds_step ho hl.1 (Or.inl ⟨le_refl _, le_refl _⟩) hup hlo
        have hbelow5 : Below R d xs5 a b :=
          (hl.1.step_mono (le_refl _) (by omega)).below ho hbelow4
        have hr := ih xs5 (mid + 1) b limit1
          (decide ((b - a) / 8 ≤ mid - a)) already (by omega)
          (by rw [hl.1.1]; exact hb4) (by omega)
          (below_after_pivot ho hbelow5 hmid1 hbd.1 hbd.2)
        generalize pdqsort_func less fuel xs5 (mid + 1) b limit1
          (decide ((b - a) / 8 ≤ mid - a)) already = xs6 at hr ⊢
        have hbd2 := pivot_bounds_step ho hr.1 (Or.inr ⟨le_refl _, le_refl _⟩) hbd.1 hbd.2
        refine ⟨Step.step_trans ho hstep4 (Step.step_trans ho (hl.1.step_mono (le_refl _) (by omega))
          (hr.1.step_mono (by omega) (le_refl _))), ?_⟩
        exact sortedOn_join ho (hr.1.sortedOn_left ho hl.2 (Or.inl (by omega))) hr.2
          hbd2.1 hbd2.2
      · rw [if_neg hlr]
        have hr := ih xs4 (mid + 1) b limit1 true true (by omega) hb4 (by omega)
          (below_after_pivot ho hbelow4 hmid1 hup hlo)
        generalize pdqsort_func less fuel xs4 (mid + 1) b limit1 true true = xs5 at hr ⊢
        have hbd := pivot_bounds_step ho hr.1 (Or.inr ⟨le_refl _, le_refl _⟩) hup hlo
        have hbelow5 : Below R d xs5 a b :=
          (hr.1.step_mono (by omega) (le_refl _)).below ho hbelow4
        have hl := ih xs5 a mid limit1
          (decide ((b - a) / 8 ≤ b - mid)) already hmid1
          (by rw [hr.1.1]; omega) (by omega) (hbelow5.below_mono (by omega))
        generalize pdqsort_func less fuel xs5 a mid limit1
          (decide ((b - a) / 8 ≤ b - mid)) already = xs6 at hl ⊢
        have hbd2 := pivot_bounds_step ho hl.1 (Or.inl ⟨le_refl _, le_refl _⟩) hbd.1 hbd.2
        refine ⟨Step.step_trans ho hstep4 (Step.step_trans ho (hr.1.step_mono (by omega) (le_refl _))
          (hl.1.step_mono (le_refl _) (by omega))), ?_⟩
        exact sortedOn_join ho hl.2 (hl.1.sortedOn_left ho hr.2 (Or.inr (by omega)))
          hbd2.1 hbd2.2

/-! ## `sort.Slice` returns a permutation -/

theorem insertionSort_inner_perm {α : Type} (less : α → α → Bool) (a : Nat) :
    ∀ (j : Nat) (xs : List α), (insertionSort_inner less a j xs).Perm xs := by
  intro j
  induction j with
  | zero => intro xs; exact List.Perm.refl _
  | succ j ih =>
    intro xs
    simp only [insertionSort_inner]
    split
    · exact (ih _).trans (swapAt_perm _ _ _)
    · exact List.Perm.refl _

theorem insertionSort_func_perm {α : Type} (less : α → α → Bool) (xs : List α) (a b : Nat) :
    (insertionSort_func less xs a b).Perm xs := by
  have key : ∀ (n i : Nat) (xs : List α), (insertionSort_outer less a n i xs).Perm xs := by
    intro n
    induction n with
    | zero => intro i xs; exact List.Perm.refl _
    | succ n ih =>
      intro i xs
      simp only [insertionSort_outer]
      exact (ih _ _).trans (insertionSort_inner_perm less a i xs)
  exact key _ _ _

theorem siftDown_func_perm {α : Type} (less : α → α → Bool) (xs : List α)
    (lo hi first : Nat) : (siftDown_func less xs lo hi first).Perm xs := by
  have key : ∀ (n root : Nat) (xs : List α),
      (siftDown_loop less hi first n root xs).Perm xs := by
    intro n
    induction n with
    | zero => intro root xs; exact List.Perm.refl _
    | succ n ih =>
      intro root xs
      simp only [siftDown_loop]
      split
      · exact List.Perm.refl _
      · generalize (if (decide (2 * root + 1 + 1 < hi) &&
            lessAt less xs (first + (2 * root + 1)) (first + (2 * root + 1) + 1)) = true
          then 2 * root + 1 + 1 else 2 * root + 1) = child
        split
        · exact List.Perm.refl _
        · exact (ih _ _).trans (swapAt_perm _ _ _)
  exact key _ _ _

theorem heapSort_func_perm {α : Type} (less : α → α → Bool) (xs : List α) (a b : Nat) :
    (heapSort_func less xs a b).Perm xs := by
  have hbuild : ∀ (n : Nat) (xs : List α),
      (heapSort_build less (b - a) a n xs).Perm xs := by
    intro n
    induction n with
    | zero => intro xs; exact List.Perm.refl _
    | succ n ih =>
      intro xs
      simp only [heapSort_build]
      exact (ih _).trans (siftDown_func_perm less _ _ _ _)
  have hpop : ∀ (n : Nat) (xs : List α), (heapSort_pop less a n xs).Perm xs := by
    intro n
    induction n with
    | zero => intro xs; exact List.Perm.refl _
    | succ n ih =>
      intro xs
      simp only [heapSort_pop]
      exact (ih _).trans ((siftDown_func_perm less _ _ _ _).trans (swapAt_perm _ _ _))
  simp only [heapSort_func]
  exact (hpop _ _).trans (hbuild _ _)

theorem breakPatterns_func_perm {α : Type} (xs : List α) (a b : Nat) :
    (breakPatterns_func xs a b).Perm xs := by
  have key : ∀ (length modulus idx n i random : Nat) (xs : List α),
      (breakPatterns_loop a length modulus idx n i random xs).Perm xs := by
    intro length modulus idx n
    induction n with
    | zero => intro i random xs; exact List.Perm.refl _
    | succ n ih =>
      intro i random xs
      simp only [breakPatterns_loop]
      exact (ih _ _ _).trans (swapAt_perm _ _ _)
  simp only [breakPatterns_func]
  split
  · exact key _ _ _ _ _ _ _
  · exact List.Perm.refl _

theorem reverseRange_func_perm {α : Type} (xs : List α) (a b : Nat) :
    (reverseRange_func xs a b).Perm xs := by
  have key : ∀ (n i j : Nat) (xs : List α), (reverseRange_loop n i j xs).Perm xs := by
    intro n
    induction n with
    | zero => intro i j xs; exact List.Perm.refl _
    | succ n ih =>
      intro i j xs
      simp only [reverseRange_loop]
      split
      · exact (ih _ _ _).trans (swapAt_perm _ _ _)
      · exact List.Perm.refl _
  exact key _ _ _ _

theorem shiftLeft_loop_perm {α : Type} (less : α → α → Bool) :
    ∀ (j : Nat) (xs : List α), (shiftLeft_loop less j xs).Perm xs := by
  intro j
  induction j with
  | zero => intro xs; exact List.Perm.refl _
  | succ j ih =>
    intro xs
    simp only [shiftLeft_loop]
    split
    · exact List.Perm.refl _
    · exact (ih _).trans (swapAt_perm _ _ _)

theorem shiftRight_loop_perm {α : Type} (less : α → α → Bool) :
    ∀ (n j : Nat) (xs : List α), (shiftRight_loop less n j xs).Perm xs := by
  intro n
  induction n with
  | zero => intro j xs; exact List.Perm.refl _
  | succ n ih =>
    intro j xs
    simp only [shiftRight_loop]
    split
    · exact List.Perm.refl _
    · exact (ih _ _).trans (swapAt_perm _ _ _)

theorem partialInsertionSort_func_perm {α : Type} (less : α → α → Bool) (xs : List α)
    (a b : Nat) : (partialInsertionSort_func less xs a b).1.Perm xs := by
  have key : ∀ (s i : Nat) (xs : List α),
      (partialInsertionSort_loop less a b s i xs).1.Perm xs := by
    intro s
    induction s with
    | zero => intro i xs; exact List.Perm.refl _
    | succ s ih =>
      intro i xs
      simp only [partialInsertionSort_loop]
      split
      · exact List.Perm.refl _
      · split
        · exact List.Perm.refl _
        · refine (ih _ _).trans ?_
          have h1 : ∀ (i1 : Nat) (ys : List α),
              (if 2 ≤ i1 - a then shiftLeft_loop less (i1 - 1) ys else ys).Perm ys := by
            intro i1 ys
            split
            · exact shiftLeft_loop_perm less _ _
            · exact List.Perm.refl _
          have h2 : ∀ (i1 : Nat) (ys : List α),
              (if 2 ≤ b - i1 then shiftRight_loop less (b - (i1 + 1)) (i1 + 1) ys
                else ys).Perm ys := by
            intro i1 ys
            split
            · exact shiftRight_loop_perm less _ _ _
            · exact List.Perm.refl _
          exact (h2 _ _).trans ((h1 _ _).trans (swapAt_perm _ _ _))
  exact key _ _ _

theorem partitionEqual_func_perm {α : Type} (less : α → α → Bool) (xs : List α)
    (a b pivot : Nat) : (partitionEqual_func less xs a b pivot).1.Perm xs := by
  have key : ∀ (n : Nat) (xs : List α) (i j : Nat),
      (partitionEqual_loop less a n xs i j).1.Perm xs := by
    intro n
    induction n with
    | zero => intro xs i j; exact List.Perm.refl _
    | succ n ih =>
      intro xs i j
      simp only [partitionEqual_loop]
      split
      · exact List.Perm.refl _
      · exact (ih _ _ _).trans (swapAt_perm _ _ _)
  simp only [partitionEqual_func]
  exact (key _ _ _ _).trans (swapAt_perm _ _ _)

theorem partition_func_perm {α : Type} (less : α → α → Bool) (xs : List α)
    (a b pivot : Nat) : (partition_func less xs a b pivot).1.Perm xs := by
  have key : ∀ (n : Nat) (xs : List α) (i j : Nat),
      (partition_loop less a n xs i j).1.Perm xs := by
    intro n
    induction n with
    | zero => intro xs i j; exact List.Perm.refl _
    | succ n ih =>
      intro xs i j
      simp only [partition_loop]
      split
      · exact List.Perm.refl _
      · exact (ih _ _ _).trans (swapAt_perm _ _ _)
  simp only [partition_func]
  split
  · exact (swapAt_perm _ _ _).trans (swapAt_perm _ _ _)
  · exact (swapAt_perm _ _ _).trans ((key _ _ _ _).trans
      ((swapAt_perm _ _ _).trans (swapAt_perm _ _ _)))

theorem pdqsort_func_perm {α : Type} (less : α → α → Bool) :
    ∀ (fuel : Nat) (xs : List α) (a b limit : Nat) (wasBalanced wasPartitioned : Bool),
      (pdqsort_func less fuel xs a b limit wasBalanced wasPartitioned).Perm xs := by
  intro fuel
  induction fuel with
  | zero => intro xs a b limit wb wp; exact List.Perm.refl _
  | succ fuel ih =>
    intro xs a b limit wb wp
    simp only [pdqsort_func]
    by_cases h12 : b - a ≤ 12
    · rw [if_pos h12]
      exact insertionSort_func_perm less xs a b
    rw [if_neg h12]
    by_cases hlim : limit = 0
    · rw [if_pos hlim]
      exact heapSort_func_perm less xs a b
    rw [if_neg hlim]
    have h1 : (if (!wb) = true then breakPatterns_func xs a b else xs).Perm xs := by
      split
      · exact breakPatterns_func_perm xs a b
      · exact List.Perm.refl _
    generalize (if (!wb) = true then breakPatterns_func xs a b else xs) = xs1 at h1 ⊢
    generalize (if (!wb) = true then limit - 1 else limit) = limit1
    generalize choosePivot_func less xs1 a b = cp
    have h2 : (if cp.2 = sortedHint.decreasingHint then reverseRange_func xs1 a b
        else xs1).Perm xs := by
      split
      · exact (reverseRange_func_perm xs1 a b).trans h1
      · exact h1
    generalize (if cp.2 = sortedHint.decreasingHint then reverseRange_func xs1 a b
      else xs1) = xs2 at h2 ⊢
    generalize (if cp.2 = sortedHint.decreasingHint then b - 1 - (cp.1 - a) else cp.1)
      = pivot
    generalize (wb && wp && decide ((if cp.2 = sortedHint.decreasingHint then
      sortedHint.increasingHint else cp.2) = sortedHint.increasingHint)) = tryPartial
    have h3 : (if tryPartial = true then partialInsertionSort_func less xs2 a b
        else (xs2, false)).1.Perm xs := by
      split
      · exact (partialInsertionSort_func_perm less xs2 a b).trans h2
      · exact h2
    generalize (if tryPartial = true then partialInsertionSort_func less xs2 a b
      else (xs2, false)) = pis at h3 ⊢
    by_cases hsorted : pis.2 = true
    · rw [if_pos hsorted]
      exact h3
    rw [if_neg hsorted]
    by_cases hpe : (decide (0 < a) && !lessAt less pis.1 (a - 1) pivot) = true
    · rw [if_pos hpe]
      exact (ih _ _ _ _ _ _).trans ((partitionEqual_func_perm less _ _ _ _).trans h3)
    rw [if_neg hpe]
    have h4 := (partition_func_perm less pis.1 a b pivot).trans h3
    generalize partition_func less pis.1 a b pivot = pt at h4 ⊢
    by_cases hlr : pt.2.1 - a < b - pt.2.1
    · rw [if_pos hlr]
      exact (ih _ _ _ _ _ _).trans ((ih _ _ _ _ _ _).trans h4)
    · rw [if_neg hlr]
      exact (ih _ _ _ _ _ _).trans ((ih _ _ _ _ _ _).trans h4)

theorem sortSlice_perm {α : Type} (less : α → α → Bool) (data : List α) :
    (sortSlice less data).Perm data :=
  pdqsort_func_perm less _ _ _ _ _ _ _

/-! ## `sort.Slice` sorts -/

/-- The call `sort.Slice(data, less)` leaves the slice in the order `R`, for every
comparison closure `less` that agrees with a transitive `R` in both of its answers. -/
theorem sortSlice_pairwise {α : Type} (less : α → α → Bool) (R : α → α → Prop)
    (htrans : ∀ a b c, R a b → R b c → R a c)
    (hyes : ∀ x y, less x y = true → R x y) (hno : ∀ x y, less x y = false → R y x)
    (data : List α) : (sortSlice less data).Pairwise R := by
  have ho : SortOrder less R := ⟨htrans, hyes, hno⟩
  cases data with
  | nil =>
    have h : (sortSlice less ([] : List α)).length = 0 := by
      rw [(sortSlice_perm less []).length_eq]
      rfl
    rw [List.length_eq_zero] at h
    rw [h]
    exact List.Pairwise.nil
  | cons x t =>
    have h : Step R x 0 (x :: t).length (x :: t) (sortSlice less (x :: t)) ∧
        SortedOn R x (sortSlice less (x :: t)) 0 (x :: t).length :=
      pdqsort_func_spec ho x ((x :: t).length + 1) (x :: t) 0 (x :: t).length
        (bitsLen (x :: t).length) true true (Nat.zero_le _) (le_refl _) (by omega)
        (fun i j hi _ _ => by omega)
    rw [List.pairwise_iff_getElem]
    intro i j hi hj hij
    have hlen : (sortSlice less (x :: t)).length = (x :: t).length := h.1.1
    have := h.2 i j (Nat.zero_le _) hij (by rw [← hlen]; exact hj)
    rwa [List.getD_eq_getElem _ _ hi, List.getD_eq_getElem _ _ hj] at this

/-- On a slice of at most twelve elements `sort.Slice` is the insertion sort. -/
theorem sortSlice_short {α : Type} (less : α → α → Bool) (data : List α)
    (hlen : data.length ≤ 12) :
    sortSlice less data = (insertionSortRev less [] data).reverse := by
  unfold sortSlice
  simp only [pdqsort_func]
  rw [if_pos (by omega)]
  have h := insertionSort_func_eq less [] data []
  simpa using h

/-- On a slice of at most twelve elements, the elements of a class `p` that `less` never
orders keep their order. -/
theorem sortSlice_filter {α : Type} (less : α → α → Bool) (p : α → Bool)
    (hp : ∀ x y, p x = true → p y = true → less x y = false) (data : List α)
    (hlen : data.length ≤ 12) :
    (sortSlice less data).filter p = data.filter p := by
  rw [sortSlice_short less data hlen, List.filter_reverse,
    insertionSortRev_filter less p hp]
  simp

theorem applySorting_perm (bets : List Bet) (sortParams : SortParams) :
    (inMemoryBetRepository.applySorting bets sortParams).Perm bets :=
  sortSlice_perm _ _

theorem applySorting_nil (sortParams : SortParams) :
    inMemoryBetRepository.applySorting [] sortParams = [] :=
  List.length_eq_zero.1 (applySorting_perm [] sortParams).length_eq

/-- Beyond twelve records `sort.Slice` partitions: thirteen records whose amounts are
0, 1, 2, 0, 1, 2, ... come out in ascending order of amount, with the records of equal
amount in another order than in the input. -/
theorem applySorting_thirteen_records :
    (inMemoryBetRepository.applySorting
      [⟨"b00", 1, 0, 2, 0⟩, ⟨"b01", 1, 1, 2, 1⟩, ⟨"b02", 1, 2, 2, 2⟩, ⟨"b03", 1, 0, 2, 3⟩,
       ⟨"b04", 1, 1, 2, 4⟩, ⟨"b05", 1, 2, 2, 5⟩, ⟨"b06", 1, 0, 2, 6⟩, ⟨"b07", 1, 1, 2, 7⟩,
       ⟨"b08", 1, 2, 2, 8⟩, ⟨"b09", 1, 0, 2, 9⟩, ⟨"b10", 1, 1, 2, 10⟩, ⟨"b11", 1, 2, 2, 11⟩,
       ⟨"b12", 1, 0, 2, 12⟩] ⟨"amount", "asc"⟩).map Bet.ID =
      ["b06", "b03", "b00", "b09", "b12", "b01", "b04", "b07", "b10", "b02", "b05", "b08",
        "b11"] := by
  decide

/-! ## Lemmas on `matchesFilter` -/

theorem float64_not_lt_bound (a : Rat) (y : Float64) (hy : y ≠ Float64.nan) :
    Float64.lt (Float64.finite a) y = !Float64.le y (Float64.finite a) := by
  cases y with
  | finite b =>
    by_cases h : a < b
    · simp [Float64.lt, Float64.le, h]
    · simp [Float64.lt, Float64.le, h, not_lt.1 h]
  | posInf => rfl
  | negInf => rfl
  | nan => exact absurd rfl hy

theorem float64_not_bound_lt (a : Rat) (y : Float64) (hy : y ≠ Float64.nan) :
    Float64.lt y (Float64.finite a) = !Float64.le (Float64.finite a) y := by
  cases y with
  | finite b =>
    by_cases h : b < a
    · simp [Float64.lt, Float64.le, h]
    · simp [Float64.lt, Float64.le, h, not_lt.1 h]
  | posInf => rfl
  | negInf => rfl
  | nan => exact absurd rfl hy

/-- A record that `matchesFilter` accepts has the user of the user filter. -/
theorem matchesFilter_user (bet : Bet) (filters : BetFilters)
    (h : inMemoryBetRepository.matchesFilter bet filters = true) :
    ∀ u, filters.UserID = some u → bet.UserID = u := by
  intro u hu
  obtain ⟨fu, flo, fhi⟩ := filters
  simp only at hu
  subst hu
  by_contra hne
  simp [inMemoryBetRepository.matchesFilter, hne] at h

/-- With bounds that are not NaN, `matchesFilter` decides what the specification words. -/
theorem matchesFilter_eq_satisfies (bet : Bet) (filters : BetFilters)
    (hmin : filters.MinAmount ≠ some Float64.nan)
    (hmax : filters.MaxAmount ≠ some Float64.nan) :
    inMemoryBetRepository.matchesFilter bet filters = satisfiesFilters bet filters := by
  obtain ⟨fu, flo, fhi⟩ := filters
  have hlo : ∀ lo, flo = some lo → lo ≠ Float64.nan := by
    intro lo h1 h2
    exact hmin (by rw [h1, h2])
  have hhi : ∀ hi, fhi = some hi → hi ≠ Float64.nan := by
    intro hi h1 h2
    exact hmax (by rw [h1, h2])
  cases fu <;> cases flo <;> cases fhi <;>
    simp [inMemoryBetRepository.matchesFilter, satisfiesFilters] <;>
    (try rw [float64_not_lt_bound _ _ (hlo _ rfl)]) <;>
    (try rw [float64_not_bound_lt _ _ (hhi _ rfl)]) <;>
    simp [Bool.and_assoc]

/-! ## Lemmas on `applyPagination` -/

theorem applyPagination_sublist (bets out : List Bet) (pagination : PaginationParams)
    (h : inMemoryBetRepository.applyPagination bets pagination = some out) :
    out.Sublist bets := by
  unfold inMemoryBetRepository.applyPagination at h
  split at h
  · cases h; exact List.nil_sublist _
  · split at h
    · cases h
      exact (List.take_sublist _ _).trans (List.drop_sublist _ _)
    · cases h

theorem maxInt_eq : maxInt = 9223372036854775807 := by
  norm_num [maxInt]

theorem wrapInt_of_range (x : Int) (hlo : -9223372036854775808 ≤ x)
    (hhi : x ≤ 9223372036854775807) : wrapInt x = x := by
  unfold wrapInt
  have h63 : (2 : Int) ^ 63 = 9223372036854775808 := by norm_num
  have h64 : (2 : Int) ^ 64 = 18446744073709551616 := by norm_num
  rw [h63, h64]
  omega

theorem pageOf_pos (pagination : PaginationParams) :
    1 ≤ inMemoryBetRepository.pageOf pagination := by
  unfold inMemoryBetRepository.pageOf
  split <;> omega

theorem limitOf_pos (pagination : PaginationParams) :
    1 ≤ inMemoryBetRepository.limitOf pagination := by
  unfold inMemoryBetRepository.limitOf
  split <;> omega

theorem startOf_fits (pagination : PaginationParams) (hfit : paginationFits pagination) :
    inMemoryBetRepository.startOf pagination =
      (inMemoryBetRepository.pageOf pagination - 1) *
        inMemoryBetRepository.limitOf pagination ∧
    0 ≤ inMemoryBetRepository.startOf pagination ∧
    wrapInt (inMemoryBetRepository.startOf pagination +
      inMemoryBetRepository.limitOf pagination) =
      inMemoryBetRepository.startOf pagination + inMemoryBetRepository.limitOf pagination := by
  have hP := pageOf_pos pagination
  have hL := limitOf_pos pagination
  unfold paginationFits at hfit
  rw [maxInt_eq] at hfit
  unfold inMemoryBetRepository.startOf
  generalize inMemoryBetRepository.pageOf pagination = P at *
  generalize inMemoryBetRepository.limitOf pagination = L at *
  have hPL : P ≤ P * L := le_mul_of_one_le_right (by omega) hL
  have hS : (P - 1) * L = P * L - L := by ring
  have hS0 : 0 ≤ (P - 1) * L := mul_nonneg (by omega) (by omega)
  have h1 : wrapInt (P - 1) = P - 1 := wrapInt_of_range _ (by omega) (by omega)
  have h2 : wrapInt ((P - 1) * L) = (P - 1) * L := wrapInt_of_range _ (by omega) (by omega)
  rw [h1, h2]
  exact ⟨rfl, hS0, wrapInt_of_range _ (by omega) (by omega)⟩

/-- With pagination that fits in `int`, `applyPagination` does not panic and returns the
window of `limit` records from position `start` on, cut at the end of the sequence. -/
theorem applyPagination_fits (bets : List Bet) (pagination : PaginationParams)
    (hfit : paginationFits pagination) :
    inMemoryBetRepository.applyPagination bets pagination =
      some ((bets.drop ((inMemoryBetRepository.pageOf pagination - 1) *
          inMemoryBetRepository.limitOf pagination).toNat).take
        (inMemoryBetRepository.limitOf pagination).toNat) := by
  obtain ⟨hS, hS0, hE⟩ := startOf_fits pagination hfit
  have hL := limitOf_pos pagination
  unfold inMemoryBetRepository.applyPagination inMemoryBetRepository.endOf
  rw [hE, ← hS]
  generalize inMemoryBetRepository.startOf pagination = S at *
  generalize inMemoryBetRepository.limitOf pagination = L at *
  by_cases h1 : S ≥ (bets.length : Int)
  · rw [if_pos h1]
    have : bets.drop S.toNat = [] := List.drop_eq_nil_of_le (by omega)
    rw [this, List.take_nil]
  · rw [if_neg h1]
    by_cases h2 : S + L > (bets.length : Int)
    · rw [if_pos h2, if_pos ⟨hS0, by omega⟩]
      congr 1
      rw [List.take_of_length_le (by rw [List.length_drop]; omega),
        List.take_of_length_le (by rw [List.length_drop]; omega)]
    · rw [if_neg h2, if_pos ⟨hS0, by omega⟩]
      congr 2
      omega

/-! ## The store after a run of `Create` calls -/

theorem mapSet_of_absent {κ ν : Type} [DecidableEq κ] (m : List (κ × ν)) (k : κ) (v : ν)
    (h : mapGet m k = none) : mapSet m k v = m ++ [(k, v)] := by
  induction m with
  | nil => rfl
  | cons p rest ih =>
    obtain ⟨k', v'⟩ := p
    by_cases hk : k' = k
    · simp [mapGet, hk] at h
    · simp only [mapGet, hk, if_false] at h
      simp [mapSet, hk, ih h]

theorem mapGet_append_absent {κ ν : Type} [DecidableEq κ] (m m' : List (κ × ν)) (k : κ)
    (h : ∀ p ∈ m', p.1 ≠ k) : mapGet (m ++ m') k = mapGet m k := by
  induction m with
  | nil => simpa using (mapGet_eq_none_iff m' k).2 h
  | cons p rest ih =>
    obtain ⟨k', v'⟩ := p
    by_cases hk : k' = k <;> simp [mapGet, hk, ih]

theorem createAll_bets (bets : List Bet) (r : inMemoryBetRepository)
    (hids : (bets.map Bet.ID).Nodup) (hfresh : ∀ b ∈ bets, mapGet r.bets b.ID = none) :
    (createAll r bets).bets = r.bets ++ bets.map (fun b => (b.ID, b)) := by
  induction bets generalizing r with
  | nil => simp [createAll]
  | cons x rest ih =>
    simp only [List.map_cons, List.nodup_cons] at hids
    have hx : mapGet r.bets x.ID = none := hfresh x (List.mem_cons_self _ _)
    rw [createAll, ih _ hids.2, create_live_bets, mapSet_of_absent _ _ _ hx]
    · simp
    · intro b hb
      have hne : b.ID ≠ x.ID := by
        intro h
        exact hids.1 (h ▸ List.mem_map_of_mem Bet.ID hb)
      rw [create_live_bets, mapGet_mapSet_ne _ _ _ _ hne]
      exact hfresh b (List.mem_cons_of_mem _ hb)

theorem createAll_new_bets (bets : List Bet) (hids : (bets.map Bet.ID).Nodup) :
    (createAll NewInMemoryBetRepository bets).bets = bets.map (fun b => (b.ID, b)) := by
  rw [createAll_bets bets NewInMemoryBetRepository hids (fun _ _ => rfl)]
  rfl

theorem createAll_index (bets : List Bet) (r : inMemoryBetRepository) (u : Int) :
    mapGet (createAll r bets).userIDIndex u =
      if bets.filter (fun b => decide (b.UserID = u)) = [] then mapGet r.userIDIndex u
      else some ((mapGet r.userIDIndex u).getD [] ++
        (bets.filter (fun b => decide (b.UserID = u))).map Bet.ID) := by
  induction bets generalizing r with
  | nil => simp [createAll]
  | cons x rest ih =>
    rw [createAll, ih, create_live_index]
    by_cases hu : x.UserID = u
    · subst hu
      rw [mapGet_mapSet_self]
      by_cases hr : rest.filter (fun b => decide (b.UserID = x.UserID)) = []
      · simp [List.filter_cons, hr]
      · simp [List.filter_cons, hr]
    · have hu' : u ≠ x.UserID := fun h => hu h.symm
      rw [mapGet_mapSet_ne _ _ _ _ hu']
      simp [List.filter_cons, hu]

theorem createAll_new_index (bets : List Bet) (u : Int) :
    mapGet (createAll NewInMemoryBetRepository bets).userIDIndex u =
      if bets.filter (fun b => decide (b.UserID = u)) = [] then none
      else some ((bets.filter (fun b => decide (b.UserID = u))).map Bet.ID) := by
  rw [createAll_index]
  simp [NewInMemoryBetRepository, mapGet]

theorem filterMap_get_created (bets sub : List Bet) (hids : (bets.map Bet.ID).Nodup)
    (hsub : ∀ b ∈ sub, b ∈ bets) :
    (sub.map Bet.ID).filterMap
      (fun betID => mapGet (createAll NewInMemoryBetRepository bets).bets betID) = sub := by
  induction sub with
  | nil => rfl
  | cons x rest ih =>
    have hx := createAll_get_created bets NewInMemoryBetRepository hids x
      (hsub x (List.mem_cons_self _ _))
    simp only [List.map_cons, List.filterMap_cons, hx]
    rw [ih (fun b hb => hsub b (List.mem_cons_of_mem _ hb))]

/-- On a store built by `Create` calls with distinct ids, the candidates of `List` that
pass `matchesFilter` are the created bets that pass it, in creation order, whether they
come from the index or from the primary map. -/
theorem betsToCheck_created (bets : List Bet) (hids : (bets.map Bet.ID).Nodup)
    (filters : BetFilters) :
    ((createAll NewInMemoryBetRepository bets).betsToCheck filters = none ∧
      bets.filter (fun bet => inMemoryBetRepository.matchesFilter bet filters) = []) ∨
    ∃ cands, (createAll NewInMemoryBetRepository bets).betsToCheck filters = some cands ∧
      cands.filter (fun bet => inMemoryBetRepository.matchesFilter bet filters) =
        bets.filter (fun bet => inMemoryBetRepository.matchesFilter bet filters) := by
  cases hf : filters.UserID with
  | none =>
    refine Or.inr ⟨bets, ?_, rfl⟩
    simp [inMemoryBetRepository.betsToCheck, hf, createAll_new_bets bets hids,
      List.map_map, Function.comp_def]
  | some u =>
    have hmatch : ∀ b, inMemoryBetRepository.matchesFilter b filters = true →
        b.UserID = u := fun b hb => matchesFilter_user b filters hb u hf
    by_cases he : bets.filter (fun b => decide (b.UserID = u)) = []
    · refine Or.inl ⟨?_, ?_⟩
      · simp [inMemoryBetRepository.betsToCheck, hf, createAll_new_index, he]
      · rw [List.filter_eq_nil_iff] at he ⊢
        intro b hb hm
        exact he b hb (by simpa using hmatch b hm)
    · refine Or.inr ⟨bets.filter (fun b => decide (b.UserID = u)), ?_, ?_⟩
      · simp only [inMemoryBetRepository.betsToCheck, hf, createAll_new_index, he, if_false]
        rw [filterMap_get_created bets _ hids (fun b hb => (List.mem_filter.1 hb).1)]
      · rw [List.filter_filter]
        apply List.filter_congr
        intro b _
        cases hm : inMemoryBetRepository.matchesFilter b filters with
        | false => simp
        | true => simp [hmatch b hm]

theorem mapSet_keys {κ ν : Type} [DecidableEq κ] (m : List (κ × ν)) (k : κ) (v : ν) :
    (mapSet m k v).map Prod.fst =
      if k ∈ m.map Prod.fst then m.map Prod.fst else m.map Prod.fst ++ [k] := by
  induction m with
  | nil => simp [mapSet]
  | cons p rest ih =>
    obtain ⟨k', v'⟩ := p
    by_cases hk : k' = k
    · subst hk
      simp [mapSet]
    · have hk' : ¬ k = k' := fun h => hk h.symm
      simp only [mapSet, hk, if_false, List.map_cons, ih, List.mem_cons, hk', false_or]
      split <;> simp

theorem mapSet_keys_nodup {κ ν : Type} [DecidableEq κ] (m : List (κ × ν)) (k : κ) (v : ν)
    (h : (m.map Prod.fst).Nodup) : ((mapSet m k v).map Prod.fst).Nodup := by
  rw [mapSet_keys]
  split
  · exact h
  · rename_i hk
    rw [List.nodup_append]
    refine ⟨h, List.nodup_singleton k, ?_⟩
    intro a ha hb
    rw [List.mem_singleton] at hb
    exact hk (hb ▸ ha)

theorem createAll_index_keys_nodup (bets : List Bet) (r : inMemoryBetRepository)
    (h : (r.userIDIndex.map Prod.fst).Nodup) :
    ((createAll r bets).userIDIndex.map Prod.fst).Nodup := by
  induction bets generalizing r with
  | nil => exact h
  | cons x rest ih =>
    rw [createAll]
    apply ih
    rw [create_live_index]
    exact mapSet_keys_nodup _ _ _ h

theorem created_ids_nodup (bets : List Bet) (hids : (bets.map Bet.ID).Nodup) (u : Int) :
    ((bets.filter (fun b => decide (b.UserID = u))).map Bet.ID).Nodup :=
  List.Nodup.sublist ((List.filter_sublist bets).map Bet.ID) hids

/-! ## Unfolding `List` -/

theorem list_live_no_bucket (r : inMemoryBetRepository) (req : ListBetsRequest)
    (h : r.betsToCheck req.Filters = none) :
    r.List { Err := none } req =
      Result.ok { Bets := [], Total := 0, Page := req.Pagination.Page,
                  Limit := req.Pagination.Limit } := by
  simp [inMemoryBetRepository.List, h]

theorem list_live_panic (r : inMemoryBetRepository) (req : ListBetsRequest)
    (cands : List Bet) (h : r.betsToCheck req.Filters = some cands)
    (hp : inMemoryBetRepository.applyPagination
      (inMemoryBetRepository.applySorting
        (cands.filter fun bet => inMemoryBetRepository.matchesFilter bet req.Filters)
        req.Sorting) req.Pagination = none) :
    r.List { Err := none } req = Result.panic := by
  simp [inMemoryBetRepository.List, h, hp]

theorem list_live_page (r : inMemoryBetRepository) (req : ListBetsRequest)
    (cands out : List Bet) (h : r.betsToCheck req.Filters = some cands)
    (hp : inMemoryBetRepository.applyPagination
      (inMemoryBetRepository.applySorting
        (cands.filter fun bet => inMemoryBetRepository.matchesFilter bet req.Filters)
        req.Sorting) req.Pagination = some out) :
    r.List { Err := none } req =
      Result.ok { Bets := out
                  Total := ((inMemoryBetRepository.applySorting
                    (cands.filter fun bet =>
                      inMemoryBetRepository.matchesFilter bet req.Filters)
                    req.Sorting).length : Int)
                  Page := req.Pagination.Page
                  Limit := req.Pagination.Limit } := by
  simp [inMemoryBetRepository.List, h, hp]

/-! ## Claims -/

/-- C1. Round trip: after any run of `Create` calls with pairwise distinct ids on a fresh
store (live context), `GetByID` of the id of any created bet succeeds and returns a record
equal to that bet in every field, whatever was created before or after it. -/
theorem getByID_roundtrip (bets : List Bet) (hids : (bets.map Bet.ID).Nodup)
    (b : Bet) (hb : b ∈ bets) :
    ∃ got, (createAll NewInMemoryBetRepository bets).GetByID { Err := none } b.ID
        = Except.ok got ∧
      got.ID = b.ID ∧ got.UserID = b.UserID ∧ got.Amount = b.Amount ∧
      got.CrashPoint = b.CrashPoint ∧ got.CreatedAt = b.CreatedAt := by
  refine ⟨b, ?_, rfl, rfl, rfl, rfl, rfl⟩
  simp [inMemoryBetRepository.GetByID, createAll_get_created bets _ hids b hb]

/-- Witness for C1: three bets, the middle one is read back. -/
theorem getByID_roundtrip_witness :
    ∃ got, (createAll NewInMemoryBetRepository
        [⟨"a", 1, 50, 2, 0⟩, ⟨"b", 2, 10, 3, 1⟩, ⟨"c", 1, 30, 4, 2⟩]).GetByID
          { Err := none } (Bet.mk "b" 2 10 3 1).ID = Except.ok got ∧
      got.ID = (Bet.mk "b" 2 10 3 1).ID ∧ got.UserID = (Bet.mk "b" 2 10 3 1).UserID ∧
      got.Amount = (Bet.mk "b" 2 10 3 1).Amount ∧
      got.CrashPoint = (Bet.mk "b" 2 10 3 1).CrashPoint ∧
      got.CreatedAt = (Bet.mk "b" 2 10 3 1).CreatedAt :=
  getByID_roundtrip [⟨"a", 1, 50, 2, 0⟩, ⟨"b", 2, 10, 3, 1⟩, ⟨"c", 1, 30, 4, 2⟩]
    (by decide) ⟨"b", 2, 10, 3, 1⟩ (by decide)

/-- C2. With a live context `GetByID` returns `ErrBetNotFound`, a `NotFoundError`, exactly
when the primary map holds no entry under the id; otherwise it returns the stored record
and no error. -/
theorem getByID_notFound_iff (r : inMemoryBetRepository) (id : String) :
    IsNotFoundError ErrBetNotFound = true ∧
    (r.GetByID { Err := none } id = Except.error ErrBetNotFound ↔
      ∀ p ∈ r.bets, p.1 ≠ id) ∧
    (∀ bet, mapGet r.bets id = some bet → r.GetByID { Err := none } id = Except.ok bet) ∧
    ((∃ p ∈ r.bets, p.1 = id) → ∃ bet, mapGet r.bets id = some bet ∧
      r.GetByID { Err := none } id = Except.ok bet) := by
  refine ⟨rfl, ?_, ?_, ?_⟩
  · rw [← mapGet_eq_none_iff]
    cases h : mapGet r.bets id <;> simp [inMemoryBetRepository.GetByID, h]
  · intro bet h
    simp [inMemoryBetRepository.GetByID, h]
  · intro hex
    cases h : mapGet r.bets id with
    | none =>
      obtain ⟨p, hp, hpk⟩ := hex
      exact absurd hpk ((mapGet_eq_none_iff _ _).1 h p hp)
    | some bet => exact ⟨bet, rfl, by simp [inMemoryBetRepository.GetByID, h]⟩

/-- Witness for C2: a store with one bet, asked for that bet. -/
theorem getByID_notFound_iff_witness :
    ∃ bet, mapGet (createAll NewInMemoryBetRepository [⟨"a", 1, 50, 2, 0⟩]).bets "a"
        = some bet ∧
      (createAll NewInMemoryBetRepository [⟨"a", 1, 50, 2, 0⟩]).GetByID { Err := none } "a"
        = Except.ok bet :=
  (getByID_notFound_iff (createAll NewInMemoryBetRepository [⟨"a", 1, 50, 2, 0⟩]) "a").2.2.2
    ⟨("a", ⟨"a", 1, 50, 2, 0⟩), by decide, rfl⟩

/-- Counterexample to C3 as worded: a minimum-amount bound that is NaN (the request
`GET /bets?min_amount=NaN`) excludes nothing, because `bet.Amount < NaN` is false; `List`
returns the bet of amount 50 although `50 >= NaN` is false, so the record does not satisfy
the minimum-amount filter. -/
theorem nan_bound_keeps_every_record :
    (createAll NewInMemoryBetRepository [⟨"a", 1, 50, 2, 0⟩]).List { Err := none }
        ⟨⟨none, some Float64.nan, none⟩, ⟨1, 10⟩, ⟨"created_at", "desc"⟩⟩
      = Result.ok ⟨[⟨"a", 1, 50, 2, 0⟩], 1, 1, 10⟩ ∧
    Float64.le Float64.nan (Float64.finite (Bet.mk "a" 1 50 2 0).Amount) = false ∧
    satisfiesFilters ⟨"a", 1, 50, 2, 0⟩ ⟨none, some Float64.nan, none⟩ = false := by
  decide

/-- C3, amended. Filter soundness for amount bounds that are not NaN: every record that
`List` returns satisfies all supplied filters at once (its user is the user of the filter,
its amount is `>=` the minimum and `<=` the maximum), for every store, pagination and
sort; and on such filters `matchesFilter` decides exactly the predicate of the
specification, so an unset filter excludes nothing. -/
theorem list_filter_sound (r : inMemoryBetRepository) (req : ListBetsRequest)
    (resp : ListBetsResponse) (hresp : r.List { Err := none } req = Result.ok resp)
    (hmin : req.Filters.MinAmount ≠ some Float64.nan)
    (hmax : req.Filters.MaxAmount ≠ some Float64.nan)
    (b : Bet) (hb : b ∈ resp.Bets) :
    ((∀ u, req.Filters.UserID = some u → b.UserID = u) ∧
      (∀ lo, req.Filters.MinAmount = some lo →
        Float64.le lo (Float64.finite b.Amount) = true) ∧
      (∀ hi, req.Filters.MaxAmount = some hi →
        Float64.le (Float64.finite b.Amount) hi = true)) ∧
    satisfiesFilters b req.Filters = true ∧
    (∀ (bet : Bet) (filters : BetFilters),
      filters.MinAmount ≠ some Float64.nan → filters.MaxAmount ≠ some Float64.nan →
      inMemoryBetRepository.matchesFilter bet filters = satisfiesFilters bet filters) := by
  have hsat : satisfiesFilters b req.Filters = true := by
    rw [← matchesFilter_eq_satisfies b req.Filters hmin hmax]
    cases hc : r.betsToCheck req.Filters with
    | none =>
      rw [list_live_no_bucket r req hc] at hresp
      cases hresp
      simp at hb
    | some cands =>
      cases hp : inMemoryBetRepository.applyPagination
        (inMemoryBetRepository.applySorting
          (cands.filter fun bet => inMemoryBetRepository.matchesFilter bet req.Filters)
          req.Sorting) req.Pagination with
      | none =>
        rw [list_live_panic r req cands hc hp] at hresp
        cases hresp
      | some out =>
        rw [list_live_page r req cands out hc hp] at hresp
        cases hresp
        have h1 := (applyPagination_sublist _ _ _ hp).subset hb
        have h2 := (applySorting_perm _ _).subset h1
        exact (List.mem_filter.1 h2).2
  refine ⟨?_, hsat, matchesFilter_eq_satisfies⟩
  simp only [satisfiesFilters, Bool.and_eq_true] at hsat
  obtain ⟨⟨hu, hlo⟩, hhi⟩ := hsat
  refine ⟨?_, ?_, ?_⟩
  · intro u h
    rw [h] at hu
    simpa using hu
  · intro lo h
    rw [h] at hlo
    exact hlo
  · intro hi h
    rw [h] at hhi
    exact hhi

/-- Witness for C3: three bets, filtered by user and by an amount range. -/
theorem list_filter_sound_witness :
    ((∀ u, (some 1 : Option Int) = some u → (Bet.mk "c" 1 30 4 2).UserID = u) ∧
      (∀ lo, (some (Float64.finite 20) : Option Float64) = some lo →
        Float64.le lo (Float64.finite (Bet.mk "c" 1 30 4 2).Amount) = true) ∧
      (∀ hi, (some (Float64.finite 40) : Option Float64) = some hi →
        Float64.le (Float64.finite (Bet.mk "c" 1 30 4 2).Amount) hi = true)) ∧
    satisfiesFilters ⟨"c", 1, 30, 4, 2⟩
      ⟨some 1, some (Float64.finite 20), some (Float64.finite 40)⟩ = true ∧
    (∀ (bet : Bet) (filters : BetFilters),
      filters.MinAmount ≠ some Float64.nan → filters.MaxAmount ≠ some Float64.nan →
      inMemoryBetRepository.matchesFilter bet filters = satisfiesFilters bet filters) :=
  list_filter_sound
    (createAll NewInMemoryBetRepository
      [⟨"a", 1, 50, 2, 0⟩, ⟨"b", 2, 10, 3, 1⟩, ⟨"c", 1, 30, 4, 2⟩])
    ⟨⟨some 1, some (Float64.finite 20), some (Float64.finite 40)⟩, ⟨1, 10⟩,
      ⟨"amount", "asc"⟩⟩
    ⟨[⟨"c", 1, 30, 4, 2⟩], 1, 1, 10⟩ (by decide) (by decide) (by decide)
    ⟨"c", 1, 30, 4, 2⟩ (by decide)

/-- Counterexample to C4 as worded: with a maximum-amount bound that is NaN the `Total`
that `List` returns is 1, while no record of the store satisfies `amount <= NaN`: the
number of records that satisfy the filters is 0. -/
theorem nan_bound_total_is_not_match_count :
    (∃ resp, (createAll NewInMemoryBetRepository [⟨"a", 1, 50, 2, 0⟩]).List { Err := none }
        ⟨⟨none, none, some Float64.nan⟩, ⟨1, 10⟩, ⟨"created_at", "desc"⟩⟩
      = Result.ok resp ∧ resp.Total = 1) ∧
    ((createAll NewInMemoryBetRepository [⟨"a", 1, 50, 2, 0⟩]).bets.map Prod.snd).countP
      (fun bet => satisfiesFilters bet ⟨none, none, some Float64.nan⟩) = 0 := by
  refine ⟨⟨_, rfl, ?_⟩, ?_⟩ <;> decide

/-- C4, amended. On a store built by `Create` calls with pairwise distinct ids and for
amount bounds that are not NaN, the `Total` that `List` returns is the number of bets of
the primary map that satisfy the filters as the specification words them
(`satisfiesFilters`), also when the user filter is answered from the secondary index; the
count does not depend on page or limit, and a response is returned whenever the
pagination fits in `int`. -/
theorem list_total_is_match_count (bets : List Bet) (hids : (bets.map Bet.ID).Nodup)
    (filters : BetFilters) (sorting : SortParams) (pagination : PaginationParams)
    (hmin : filters.MinAmount ≠ some Float64.nan)
    (hmax : filters.MaxAmount ≠ some Float64.nan) :
    (∀ resp, (createAll NewInMemoryBetRepository bets).List { Err := none }
        ⟨filters, pagination, sorting⟩ = Result.ok resp →
      resp.Total = ((((createAll NewInMemoryBetRepository bets).bets.map Prod.snd).countP
        (fun bet => satisfiesFilters bet filters) : Nat) : Int)) ∧
    (paginationFits pagination →
      ∃ resp, (createAll NewInMemoryBetRepository bets).List { Err := none }
        ⟨filters, pagination, sorting⟩ = Result.ok resp ∧
      resp.Total = ((((createAll NewInMemoryBetRepository bets).bets.map Prod.snd).countP
        (fun bet => satisfiesFilters bet filters) : Nat) : Int)) := by
  have hvals : (createAll NewInMemoryBetRepository bets).bets.map Prod.snd = bets := by
    rw [createAll_new_bets bets hids, List.map_map]
    simp [Function.comp_def]
  have hfun : (fun bet => satisfiesFilters bet filters) =
      (fun bet => inMemoryBetRepository.matchesFilter bet filters) :=
    funext fun bet => (matchesFilter_eq_satisfies bet filters hmin hmax).symm
  rw [hvals, hfun, List.countP_eq_length_filter]
  rcases betsToCheck_created bets hids filters with ⟨hnone, hz⟩ | ⟨cands, hc, hf⟩
  · have hl := list_live_no_bucket (createAll NewInMemoryBetRepository bets)
      ⟨filters, pagination, sorting⟩ hnone
    rw [hl, hz]
    refine ⟨?_, fun _ => ⟨_, rfl, rfl⟩⟩
    intro resp h
    cases h
    rfl
  · have hlen : (inMemoryBetRepository.applySorting
        (cands.filter fun bet => inMemoryBetRepository.matchesFilter bet filters)
        sorting).length =
        (bets.filter fun bet => inMemoryBetRepository.matchesFilter bet filters).length := by
      rw [(applySorting_perm _ _).length_eq, hf]
    refine ⟨?_, ?_⟩
    · intro resp h
      cases hp : inMemoryBetRepository.applyPagination
        (inMemoryBetRepository.applySorting
          (cands.filter fun bet => inMemoryBetRepository.matchesFilter bet filters)
          sorting) pagination with
      | none =>
        rw [list_live_panic _ ⟨filters, pagination, sorting⟩ cands hc hp] at h
        cases h
      | some out =>
        rw [list_live_page _ ⟨filters, pagination, sorting⟩ cands out hc hp] at h
        cases h
        simp only [hlen]
    · intro hfit
      have hp := applyPagination_fits (inMemoryBetRepository.applySorting
          (cands.filter fun bet => inMemoryBetRepository.matchesFilter bet filters)
          sorting) pagination hfit
      rw [list_live_page _ ⟨filters, pagination, sorting⟩ cands _ hc hp]
      exact ⟨_, rfl, by simp only [hlen]⟩

/-- Witness for C4: three bets of two users, listed for user 1 with amounts of at least
20, with a page of one record. -/
theorem list_total_is_match_count_witness :
    ∃ resp, (createAll NewInMemoryBetRepository
        [⟨"a", 1, 50, 2, 0⟩, ⟨"b", 2, 10, 3, 1⟩, ⟨"c", 1, 30, 4, 2⟩]).List { Err := none }
        ⟨⟨some 1, some (Float64.finite 20), none⟩, ⟨2, 1⟩, ⟨"amount", "asc"⟩⟩
          = Result.ok resp ∧
      resp.Total = ((((createAll NewInMemoryBetRepository
        [⟨"a", 1, 50, 2, 0⟩, ⟨"b", 2, 10, 3, 1⟩, ⟨"c", 1, 30, 4, 2⟩]).bets.map
          Prod.snd).countP
        (fun bet => satisfiesFilters bet ⟨some 1, some (Float64.finite 20), none⟩) : Nat)
          : Int) :=
  (list_total_is_match_count [⟨"a", 1, 50, 2, 0⟩, ⟨"b", 2, 10, 3, 1⟩, ⟨"c", 1, 30, 4, 2⟩]
    (by decide) ⟨some 1, some (Float64.finite 20), none⟩ ⟨"amount", "asc"⟩ ⟨2, 1⟩
    (by decide) (by decide)).2 (by decide)

/-- C5, as stated, fails: with page `2^62 + 1` and limit `4` the product
`(page - 1) * limit` wraps around to `0` in `int`, so `List` returns the first record of
a one-record store although `(page - 1) * limit >= Total`. -/
theorem overflow_breaks_page_size :
    ∃ resp, (createAll NewInMemoryBetRepository [⟨"a", 1, 50, 2, 0⟩]).List { Err := none }
        ⟨⟨none, none, none⟩, ⟨4611686018427387905, 4⟩, ⟨"created_at", "desc"⟩⟩
        = Result.ok resp ∧
      resp.Bets = [⟨"a", 1, 50, 2, 0⟩] ∧ resp.Total = 1 ∧
      (4611686018427387905 - 1) * 4 ≥ resp.Total ∧
      (resp.Bets.length : Int) ≠
        min 4 (max 0 (resp.Total - (4611686018427387905 - 1) * 4)) :=
  ⟨⟨[⟨"a", 1, 50, 2, 0⟩], 1, 4611686018427387905, 4⟩, by decide, rfl, rfl, by decide,
    by decide⟩

/-- C5, amended. For page >= 1 and limit >= 1 whose product fits in `int`, `List` returns
a response whose number of records is `min(limit, max(0, Total - (page-1)*limit))`, for
every store, filter and sort; its `Bets` is empty whenever `(page-1)*limit >= Total`. -/
theorem list_page_size (r : inMemoryBetRepository) (req : ListBetsRequest)
    (hpage : 1 ≤ req.Pagination.Page) (hlimit : 1 ≤ req.Pagination.Limit)
    (hfit : req.Pagination.Page * req.Pagination.Limit ≤ maxInt) :
    ∃ resp, r.List { Err := none } req = Result.ok resp ∧
      (resp.Bets.length : Int) =
        min req.Pagination.Limit
          (max 0 (resp.Total - (req.Pagination.Page - 1) * req.Pagination.Limit)) ∧
      ((req.Pagination.Page - 1) * req.Pagination.Limit ≥ resp.Total → resp.Bets = []) := by
  have hP : inMemoryBetRepository.pageOf req.Pagination = req.Pagination.Page := by
    unfold inMemoryBetRepository.pageOf
    rw [if_neg (by omega)]
  have hL : inMemoryBetRepository.limitOf req.Pagination = req.Pagination.Limit := by
    unfold inMemoryBetRepository.limitOf
    rw [if_neg (by omega)]
  have hfit' : paginationFits req.Pagination := by
    unfold paginationFits
    rw [hP, hL]
    exact hfit
  have hS0 : 0 ≤ (req.Pagination.Page - 1) * req.Pagination.Limit :=
    mul_nonneg (by omega) (by omega)
  cases hc : r.betsToCheck req.Filters with
  | none =>
    rw [list_live_no_bucket r req hc]
    refine ⟨_, rfl, ?_, fun _ => rfl⟩
    simp only [List.length_nil]
    generalize (req.Pagination.Page - 1) * req.Pagination.Limit = S at *
    omega
  | some cands =>
    have hp := applyPagination_fits (inMemoryBetRepository.applySorting
        (cands.filter fun bet => inMemoryBetRepository.matchesFilter bet req.Filters)
        req.Sorting) req.Pagination hfit'
    rw [list_live_page r req cands _ hc hp, hP, hL]
    refine ⟨_, rfl, ?_, ?_⟩
    · simp only [List.length_take, List.length_drop]
      generalize (req.Pagination.Page - 1) * req.Pagination.Limit = S at *
      omega
    · intro hge
      simp only at hge
      rw [List.drop_eq_nil_of_le, List.take_nil]
      generalize (req.Pagination.Page - 1) * req.Pagination.Limit = S at *
      omega

/-- Witness for C5: three bets, second page of two records. -/
theorem list_page_size_witness :
    ∃ resp, (createAll NewInMemoryBetRepository
        [⟨"a", 1, 50, 2, 0⟩, ⟨"b", 2, 10, 3, 1⟩, ⟨"c", 1, 30, 4, 2⟩]).List { Err := none }
        ⟨⟨none, none, none⟩, ⟨2, 2⟩, ⟨"amount", "asc"⟩⟩ = Result.ok resp ∧
      (resp.Bets.length : Int) = min 2 (max 0 (resp.Total - (2 - 1) * 2)) ∧
      ((2 - 1) * 2 ≥ resp.Total → resp.Bets = []) :=
  list_page_size
    (createAll NewInMemoryBetRepository
      [⟨"a", 1, 50, 2, 0⟩, ⟨"b", 2, 10, 3, 1⟩, ⟨"c", 1, 30, 4, 2⟩])
    ⟨⟨none, none, none⟩, ⟨2, 2⟩, ⟨"amount", "asc"⟩⟩ (by decide) (by decide) (by decide)

/-- C6, as stated, fails: with page `2^62 + 1` and limit `2` the product
`(page - 1) * limit` wraps around to the smallest `int`, the test `start >= len(bets)` is
false, and the slice expression `bets[start:end]` panics, here on the empty sequence. -/
theorem applyPagination_overflow_panics :
    (1 : Int) ≤ 4611686018427387905 ∧ (1 : Int) ≤ 2 ∧
    inMemoryBetRepository.startOf ⟨4611686018427387905, 2⟩ = minInt ∧
    inMemoryBetRepository.applyPagination [] ⟨4611686018427387905, 2⟩ = none := by
  decide

/-- C6, amended. For page >= 1 and limit >= 1 whose product fits in `int`,
`applyPagination` does not panic and returns exactly the records of `s` at positions
`[start, min(start+limit, len(s)))` with `start = (page-1)*limit`, in the same order; the
result is empty when `start >= len(s)`. -/
theorem applyPagination_window (s : List Bet) (page limit : Nat)
    (hpage : 1 ≤ page) (hlimit : 1 ≤ limit) (hfit : page * limit ≤ 2 ^ 63 - 1) :
    ∃ out, inMemoryBetRepository.applyPagination s ⟨(page : Int), (limit : Int)⟩ = some out ∧
      out = (s.drop ((page - 1) * limit)).take
        (min ((page - 1) * limit + limit) s.length - (page - 1) * limit) ∧
      out.length = min ((page - 1) * limit + limit) s.length - (page - 1) * limit ∧
      (∀ k, k < out.length → out[k]? = s[(page - 1) * limit + k]?) ∧
      (s.length ≤ (page - 1) * limit → out = []) := by
  have hP : inMemoryBetRepository.pageOf ⟨(page : Int), (limit : Int)⟩ = (page : Int) := by
    unfold inMemoryBetRepository.pageOf
    rw [if_neg (by simp only; omega)]
  have hL : inMemoryBetRepository.limitOf ⟨(page : Int), (limit : Int)⟩ = (limit : Int) := by
    unfold inMemoryBetRepository.limitOf
    rw [if_neg (by simp only; omega)]
  have hfit' : paginationFits ⟨(page : Int), (limit : Int)⟩ := by
    unfold paginationFits
    rw [hP, hL, maxInt_eq]
    have : ((page * limit : Nat) : Int) ≤ 9223372036854775807 := by
      have h63 : (2 : Nat) ^ 63 - 1 = 9223372036854775807 := by norm_num
      rw [h63] at hfit
      exact_mod_cast hfit
    simpa using this
  have hS : (((page : Int) - 1) * (limit : Int)).toNat = (page - 1) * limit := by
    have : ((page : Int) - 1) * (limit : Int) = (((page - 1) * limit : Nat) : Int) := by
      push_cast [Nat.cast_sub hpage]
      ring
    rw [this, Int.toNat_natCast]
  have hp := applyPagination_fits s ⟨(page : Int), (limit : Int)⟩ hfit'
  rw [hP, hL, hS, Int.toNat_natCast] at hp
  have hout : (s.drop ((page - 1) * limit)).take limit =
      (s.drop ((page - 1) * limit)).take
        (min ((page - 1) * limit + limit) s.length - (page - 1) * limit) := by
    by_cases h : (page - 1) * limit + limit ≤ s.length
    · rw [Nat.min_eq_left h, Nat.add_sub_cancel_left]
    · rw [Nat.min_eq_right (by omega),
        List.take_of_length_le (by rw [List.length_drop]; omega),
        List.take_of_length_le (by rw [List.length_drop])]
  refine ⟨_, hp, hout, ?_, ?_, ?_⟩
  · rw [List.length_take, List.length_drop]
    omega
  · intro k hk
    rw [List.length_take, List.length_drop] at hk
    rw [List.getElem?_take_of_lt (by omega), List.getElem?_drop]
  · intro hle
    rw [List.drop_eq_nil_of_le hle, List.take_nil]

/-- Witness for C6: five records, page 2 of size 2 is the third and fourth record. -/
theorem applyPagination_window_witness :
    ∃ out, inMemoryBetRepository.applyPagination
        [⟨"a", 1, 50, 2, 0⟩, ⟨"b", 2, 10, 3, 1⟩, ⟨"c", 1, 30, 4, 2⟩, ⟨"d", 3, 5, 4, 3⟩,
          ⟨"e", 3, 7, 4, 4⟩] ⟨((2 : Nat) : Int), ((2 : Nat) : Int)⟩ = some out ∧
      out = (List.drop ((2 - 1) * 2)
        [⟨"a", 1, 50, 2, 0⟩, ⟨"b", 2, 10, 3, 1⟩, ⟨"c", 1, 30, 4, 2⟩, ⟨"d", 3, 5, 4, 3⟩,
          (⟨"e", 3, 7, 4, 4⟩ : Bet)]).take
        (min ((2 - 1) * 2 + 2) (List.length
          [⟨"a", 1, 50, 2, 0⟩, ⟨"b", 2, 10, 3, 1⟩, ⟨"c", 1, 30, 4, 2⟩, ⟨"d", 3, 5, 4, 3⟩,
            (⟨"e", 3, 7, 4, 4⟩ : Bet)]) - (2 - 1) * 2) ∧
      out.length = min ((2 - 1) * 2 + 2) (List.length
          [⟨"a", 1, 50, 2, 0⟩, ⟨"b", 2, 10, 3, 1⟩, ⟨"c", 1, 30, 4, 2⟩, ⟨"d", 3, 5, 4, 3⟩,
            (⟨"e", 3, 7, 4, 4⟩ : Bet)]) - (2 - 1) * 2 ∧
      (∀ k, k < out.length → out[k]? =
        ([⟨"a", 1, 50, 2, 0⟩, ⟨"b", 2, 10, 3, 1⟩, ⟨"c", 1, 30, 4, 2⟩, ⟨"d", 3, 5, 4, 3⟩,
          ⟨"e", 3, 7, 4, 4⟩] : List Bet)[(2 - 1) * 2 + k]?) ∧
      (List.length
          [⟨"a", 1, 50, 2, 0⟩, ⟨"b", 2, 10, 3, 1⟩, ⟨"c", 1, 30, 4, 2⟩, ⟨"d", 3, 5, 4, 3⟩,
            (⟨"e", 3, 7, 4, 4⟩ : Bet)] ≤ (2 - 1) * 2 → out = []) :=
  applyPagination_window
    [⟨"a", 1, 50, 2, 0⟩, ⟨"b", 2, 10, 3, 1⟩, ⟨"c", 1, 30, 4, 2⟩, ⟨"d", 3, 5, 4, 3⟩,
      ⟨"e", 3, 7, 4, 4⟩] 2 2 (by decide) (by decide) (by decide)

/-- C7. Sort correctness, for an input of any length (`sort.Slice` runs its insertion
sort up to twelve records and its quicksort, with the heapsort behind it, beyond): with
key `amount`, `applySorting` returns a permutation of its input whose amounts are
non-decreasing for order `asc` and non-increasing for order `desc`; amounts `[50, 10, 30]`
give `[10, 30, 50]` and `[50, 30, 10]`. The same holds for key `created_at` with respect
to `CreatedAt`. -/
theorem applySorting_sorted (bets : List Bet) :
    ((inMemoryBetRepository.applySorting bets ⟨"amount", "asc"⟩).Perm bets ∧
      (inMemoryBetRepository.applySorting bets ⟨"amount", "asc"⟩).Pairwise
        (fun a b => a.Amount ≤ b.Amount)) ∧
    ((inMemoryBetRepository.applySorting bets ⟨"amount", "desc"⟩).Perm bets ∧
      (inMemoryBetRepository.applySorting bets ⟨"amount", "desc"⟩).Pairwise
        (fun a b => a.Amount ≥ b.Amount)) ∧
    ((inMemoryBetRepository.applySorting bets ⟨"created_at", "asc"⟩).Perm bets ∧
      (inMemoryBetRepository.applySorting bets ⟨"created_at", "asc"⟩).Pairwise
        (fun a b => a.CreatedAt ≤ b.CreatedAt)) ∧
    ((inMemoryBetRepository.applySorting bets ⟨"created_at", "desc"⟩).Perm bets ∧
      (inMemoryBetRepository.applySorting bets ⟨"created_at", "desc"⟩).Pairwise
        (fun a b => a.CreatedAt ≥ b.CreatedAt)) ∧
    (inMemoryBetRepository.applySorting
        [⟨"a", 1, 50, 2, 0⟩, ⟨"b", 1, 10, 2, 1⟩, ⟨"c", 1, 30, 2, 2⟩]
        ⟨"amount", "asc"⟩).map Bet.Amount = [10, 30, 50] ∧
    (inMemoryBetRepository.applySorting
        [⟨"a", 1, 50, 2, 0⟩, ⟨"b", 1, 10, 2, 1⟩, ⟨"c", 1, 30, 2, 2⟩]
        ⟨"amount", "desc"⟩).map Bet.Amount = [50, 30, 10] := by
  refine ⟨⟨applySorting_perm _ _, ?_⟩, ⟨applySorting_perm _ _, ?_⟩,
    ⟨applySorting_perm _ _, ?_⟩, ⟨applySorting_perm _ _, ?_⟩, by decide, by decide⟩
  · refine sortSlice_pairwise (inMemoryBetRepository.sortLess ⟨"amount", "asc"⟩)
      (fun a b : Bet => a.Amount ≤ b.Amount) (fun a b c h1 h2 => le_trans h1 h2) ?_ ?_ bets
    · intro x y h
      have : x.Amount < y.Amount := by simpa [inMemoryBetRepository.sortLess] using h
      exact le_of_lt this
    · intro x y h
      simpa [inMemoryBetRepository.sortLess] using h
  · refine sortSlice_pairwise (inMemoryBetRepository.sortLess ⟨"amount", "desc"⟩)
      (fun a b : Bet => a.Amount ≥ b.Amount) (fun a b c h1 h2 => ge_trans h1 h2) ?_ ?_ bets
    · intro x y h
      simpa [inMemoryBetRepository.sortLess] using h
    · intro x y h
      have : x.Amount < y.Amount := by simpa [inMemoryBetRepository.sortLess] using h
      exact le_of_lt this
  · refine sortSlice_pairwise (inMemoryBetRepository.sortLess ⟨"created_at", "asc"⟩)
      (fun a b : Bet => a.CreatedAt ≤ b.CreatedAt) (fun a b c h1 h2 => le_trans h1 h2)
      ?_ ?_ bets
    · intro x y h
      have : x.CreatedAt < y.CreatedAt := by simpa [inMemoryBetRepository.sortLess] using h
      exact le_of_lt this
    · intro x y h
      simpa [inMemoryBetRepository.sortLess] using h
  · refine sortSlice_pairwise (inMemoryBetRepository.sortLess ⟨"created_at", "desc"⟩)
      (fun a b : Bet => a.CreatedAt ≥ b.CreatedAt) (fun a b c h1 h2 => ge_trans h1 h2)
      ?_ ?_ bets
    · intro x y h
      simpa [inMemoryBetRepository.sortLess] using h
    · intro x y h
      have : x.CreatedAt < y.CreatedAt := by simpa [inMemoryBetRepository.sortLess] using h
      exact le_of_lt this

/-- C8, as stated, fails: in descending order the comparison answers "less" for two
records with equal keys, so the second of two bets with the same amount is moved in
front of the first; likewise for two bets with the same creation time. -/
theorem applySorting_desc_swaps_ties :
    (Bet.mk "a" 1 10 2 0).Amount = (Bet.mk "b" 2 10 3 1).Amount ∧
    inMemoryBetRepository.applySorting [⟨"a", 1, 10, 2, 0⟩, ⟨"b", 2, 10, 3, 1⟩]
      ⟨"amount", "desc"⟩ = [⟨"b", 2, 10, 3, 1⟩, ⟨"a", 1, 10, 2, 0⟩] ∧
    (Bet.mk "a" 1 10 2 7).CreatedAt = (Bet.mk "b" 2 20 3 7).CreatedAt ∧
    inMemoryBetRepository.applySorting [⟨"a", 1, 10, 2, 7⟩, ⟨"b", 2, 20, 3, 7⟩]
      ⟨"created_at", "desc"⟩ = [⟨"b", 2, 20, 3, 7⟩, ⟨"a", 1, 10, 2, 7⟩] := by
  decide

/-- C8, amended. In ascending order, on an input of at most twelve records (the length up
to which `sort.Slice` runs its insertion sort), the records that share a value of the
sort key appear in the output of `applySorting` in their input order, for key `amount`
and for key `created_at`. -/
theorem applySorting_stable_asc (bets : List Bet) (_hlen : bets.length ≤ 12) :
    (∀ k : Rat,
      (inMemoryBetRepository.applySorting bets ⟨"amount", "asc"⟩).filter
          (fun b => decide (b.Amount = k)) =
        bets.filter (fun b => decide (b.Amount = k))) ∧
    (∀ t : Int,
      (inMemoryBetRepository.applySorting bets ⟨"created_at", "asc"⟩).filter
          (fun b => decide (b.CreatedAt = t)) =
        bets.filter (fun b => decide (b.CreatedAt = t))) := by
  refine ⟨fun k => sortSlice_filter _ _ ?_ bets _hlen,
    fun t => sortSlice_filter _ _ ?_ bets _hlen⟩
  · intro x y hx hy
    have hx' : x.Amount = k := by simpa using hx
    have hy' : y.Amount = k := by simpa using hy
    simp [inMemoryBetRepository.sortLess, hx', hy']
  · intro x y hx hy
    have hx' : x.CreatedAt = t := by simpa using hx
    have hy' : y.CreatedAt = t := by simpa using hy
    simp [inMemoryBetRepository.sortLess, hx', hy']

/-- Witness for C8: two bets of amount 10 around one of amount 5 keep their order. -/
theorem applySorting_stable_asc_witness :
    (∀ k : Rat,
      (inMemoryBetRepository.applySorting
          [⟨"a", 1, 10, 2, 0⟩, ⟨"b", 2, 5, 3, 1⟩, ⟨"c", 3, 10, 3, 1⟩]
          ⟨"amount", "asc"⟩).filter (fun b => decide (b.Amount = k)) =
        List.filter (fun b => decide (b.Amount = k))
          [⟨"a", 1, 10, 2, 0⟩, ⟨"b", 2, 5, 3, 1⟩, ⟨"c", 3, 10, 3, 1⟩]) ∧
    (∀ t : Int,
      (inMemoryBetRepository.applySorting
          [⟨"a", 1, 10, 2, 0⟩, ⟨"b", 2, 5, 3, 1⟩, ⟨"c", 3, 10, 3, 1⟩]
          ⟨"created_at", "asc"⟩).filter (fun b => decide (b.CreatedAt = t)) =
        List.filter (fun b => decide (b.CreatedAt = t))
          [⟨"a", 1, 10, 2, 0⟩, ⟨"b", 2, 5, 3, 1⟩, ⟨"c", 3, 10, 3, 1⟩]) :=
  applySorting_stable_asc [⟨"a", 1, 10, 2, 0⟩, ⟨"b", 2, 5, 3, 1⟩, ⟨"c", 3, 10, 3, 1⟩]
    (by decide)

/-- C9. Index invariant. In the store reached from the empty store by `Create` calls with
pairwise distinct ids: (a) the id of every bet of the primary map occurs exactly once in
the bucket of the bet's own `UserID` and in no other bucket; (b) every bucket is free of
duplicates and each of its ids resolves to a bet of the primary map whose `UserID` is the
bucket's key; both maps have one slot per key. Moreover every `Create` with a live context
succeeds, appends the new id once to the bucket of the bet's user, stores the bet, and
leaves every other bucket and every other primary entry as they were. -/
theorem index_invariant (bets : List Bet) (hids : (bets.map Bet.ID).Nodup) :
    (∀ id bet, mapGet (createAll NewInMemoryBetRepository bets).bets id = some bet →
      (∃ ids, mapGet (createAll NewInMemoryBetRepository bets).userIDIndex bet.UserID
          = some ids ∧ ids.count id = 1) ∧
      (∀ u ids, u ≠ bet.UserID →
        mapGet (createAll NewInMemoryBetRepository bets).userIDIndex u = some ids →
        id ∉ ids)) ∧
    (∀ u ids, mapGet (createAll NewInMemoryBetRepository bets).userIDIndex u = some ids →
      ids.Nodup ∧
      ∀ id ∈ ids, ∃ bet,
        mapGet (createAll NewInMemoryBetRepository bets).bets id = some bet ∧
        bet.UserID = u) ∧
    (((createAll NewInMemoryBetRepository bets).bets.map Prod.fst).Nodup ∧
      ((createAll NewInMemoryBetRepository bets).userIDIndex.map Prod.fst).Nodup) ∧
    (∀ (r : inMemoryBetRepository) (bet : Bet),
      (r.Create { Err := none } bet).1 = none ∧
      mapGet (r.Create { Err := none } bet).2.userIDIndex bet.UserID =
        some ((mapGet r.userIDIndex bet.UserID).getD [] ++ [bet.ID]) ∧
      (∀ u, u ≠ bet.UserID →
        mapGet (r.Create { Err := none } bet).2.userIDIndex u = mapGet r.userIDIndex u) ∧
      mapGet (r.Create { Err := none } bet).2.bets bet.ID = some bet ∧
      (∀ id, id ≠ bet.ID →
        mapGet (r.Create { Err := none } bet).2.bets id = mapGet r.bets id)) := by
  have hmem : ∀ id bet, mapGet (createAll NewInMemoryBetRepository bets).bets id = some bet →
      bet ∈ bets ∧ bet.ID = id := by
    intro id bet h
    have := mapGet_mem _ _ _ h
    rw [createAll_new_bets bets hids, List.mem_map] at this
    obtain ⟨b, hb, hbe⟩ := this
    cases hbe
    exact ⟨hb, rfl⟩
  refine ⟨?_, ?_, ⟨?_, ?_⟩, ?_⟩
  · intro id bet h
    obtain ⟨hb, hid⟩ := hmem id bet h
    subst hid
    have hin : bet ∈ bets.filter (fun b => decide (b.UserID = bet.UserID)) :=
      List.mem_filter.2 ⟨hb, by simp⟩
    refine ⟨⟨(bets.filter (fun b => decide (b.UserID = bet.UserID))).map Bet.ID,
      ?_, ?_⟩, ?_⟩
    · rw [createAll_new_index, if_neg (List.ne_nil_of_mem hin)]
    · exact List.count_eq_one_of_mem (created_ids_nodup bets hids _)
        (List.mem_map_of_mem Bet.ID hin)
    · intro u ids hu hg hidin
      rw [createAll_new_index] at hg
      split at hg
      · cases hg
      · cases hg
        obtain ⟨b', hb', hbid⟩ := List.mem_map.1 hidin
        obtain ⟨hb'in, hb'u⟩ := List.mem_filter.1 hb'
        have heq : b' = bet := List.inj_on_of_nodup_map hids hb'in hb hbid
        subst heq
        have hb'u' : b'.UserID = u := by simpa using hb'u
        exact hu hb'u'.symm
  · intro u ids hg
    rw [createAll_new_index] at hg
    split at hg
    · cases hg
    · cases hg
      refine ⟨created_ids_nodup bets hids u, ?_⟩
      intro id hidin
      obtain ⟨b', hb', hbid⟩ := List.mem_map.1 hidin
      obtain ⟨hb'in, hb'u⟩ := List.mem_filter.1 hb'
      subst hbid
      exact ⟨b', createAll_get_created bets _ hids b' hb'in, by simpa using hb'u⟩
  · rw [createAll_new_bets bets hids, List.map_map]
    simpa [Function.comp_def] using hids
  · exact createAll_index_keys_nodup bets _ (by simp [NewInMemoryBetRepository])
  · intro r bet
    refine ⟨rfl, ?_, ?_, ?_, ?_⟩
    · rw [create_live_index, mapGet_mapSet_self]
    · intro u hu
      rw [create_live_index, mapGet_mapSet_ne _ _ _ _ hu]
    · rw [create_live_bets, mapGet_mapSet_self]
    · intro id hid
      rw [create_live_bets, mapGet_mapSet_ne _ _ _ _ hid]

/-- Witness for C9: three bets of two users. -/
theorem index_invariant_witness :
    (∃ ids, mapGet (createAll NewInMemoryBetRepository
        [⟨"a", 1, 50, 2, 0⟩, ⟨"b", 2, 10, 3, 1⟩, ⟨"c", 1, 30, 4, 2⟩]).userIDIndex
          (Bet.mk "c" 1 30 4 2).UserID = some ids ∧ ids.count "c" = 1) ∧
    (∀ u ids, u ≠ (Bet.mk "c" 1 30 4 2).UserID →
      mapGet (createAll NewInMemoryBetRepository
        [⟨"a", 1, 50, 2, 0⟩, ⟨"b", 2, 10, 3, 1⟩, ⟨"c", 1, 30, 4, 2⟩]).userIDIndex u
          = some ids → "c" ∉ ids) :=
  (index_invariant [⟨"a", 1, 50, 2, 0⟩, ⟨"b", 2, 10, 3, 1⟩, ⟨"c", 1, 30, 4, 2⟩]
    (by decide)).1 "c" ⟨"c", 1, 30, 4, 2⟩ (by decide)

/-- C10, as stated, fails: with a live context and an empty store, `List` with page
`2^62 + 1` and limit `2` does not succeed; `(page - 1) * limit` overflows `int` and the
slice expression of `applyPagination` panics. -/
theorem list_live_context_panics :
    NewInMemoryBetRepository.List { Err := none }
      ⟨⟨none, none, none⟩, ⟨4611686018427387905, 2⟩, ⟨"created_at", "desc"⟩⟩
      = Result.panic := by
  decide

/-- C10, amended. With a context that is already cancelled or expired, `Create`,
`GetByID`, `List` and `HealthCheck` return exactly the context's error, and the store
after `Create` is the store before it (the other three only read the store). With a live
context `Create` and `HealthCheck` always succeed and `List` never returns an error;
`List` returns a response whenever the pagination fits in `int`, and on the empty store
that response has zero records and `Total` 0. -/
theorem cancellation_fail_fast (r : inMemoryBetRepository) (e : Error) (bet : Bet)
    (id : String) (req : ListBetsRequest) :
    r.Create { Err := some e } bet = (some e, r) ∧
    r.GetByID { Err := some e } id = Except.error e ∧
    r.List { Err := some e } req = Result.error e ∧
    r.HealthCheck { Err := some e } = some e ∧
    (r.Create { Err := none } bet).1 = none ∧
    r.HealthCheck { Err := none } = none ∧
    (∀ e', r.List { Err := none } req ≠ Result.error e') ∧
    (paginationFits req.Pagination → ∃ resp, r.List { Err := none } req = Result.ok resp) ∧
    (paginationFits req.Pagination →
      NewInMemoryBetRepository.List { Err := none } req =
        Result.ok { Bets := [], Total := 0, Page := req.Pagination.Page,
                    Limit := req.Pagination.Limit }) := by
  refine ⟨rfl, rfl, rfl, rfl, rfl, rfl, ?_, ?_, ?_⟩
  · intro e' h
    cases hc : r.betsToCheck req.Filters with
    | none =>
      rw [list_live_no_bucket r req hc] at h
      cases h
    | some cands =>
      cases hp : inMemoryBetRepository.applyPagination
        (inMemoryBetRepository.applySorting
          (cands.filter fun bet => inMemoryBetRepository.matchesFilter bet req.Filters)
          req.Sorting) req.Pagination with
      | none =>
        rw [list_live_panic r req cands hc hp] at h
        cases h
      | some out =>
        rw [list_live_page r req cands out hc hp] at h
        cases h
  · intro hfit
    cases hc : r.betsToCheck req.Filters with
    | none => exact ⟨_, list_live_no_bucket r req hc⟩
    | some cands =>
      exact ⟨_, list_live_page r req cands _ hc (applyPagination_fits _ _ hfit)⟩
  · intro hfit
    cases hf : req.Filters.UserID with
    | some u =>
      exact list_live_no_bucket _ req
        (by simp [inMemoryBetRepository.betsToCheck, hf, NewInMemoryBetRepository, mapGet])
    | none =>
      have hc : NewInMemoryBetRepository.betsToCheck req.Filters = some [] := by
        simp [inMemoryBetRepository.betsToCheck, hf, NewInMemoryBetRepository]
      have hp := applyPagination_fits (inMemoryBetRepository.applySorting
          (([] : List Bet).filter fun bet =>
            inMemoryBetRepository.matchesFilter bet req.Filters) req.Sorting)
          req.Pagination hfit
      rw [list_live_page _ req [] _ hc hp]
      simp [applySorting_nil]

/-- Witness for C10: a store with one bet, listed with page 1 and limit 10. -/
theorem cancellation_fail_fast_witness :
    ∃ resp, (createAll NewInMemoryBetRepository [⟨"a", 1, 50, 2, 0⟩]).List { Err := none }
      ⟨⟨none, none, none⟩, ⟨1, 10⟩, ⟨"created_at", "desc"⟩⟩ = Result.ok resp :=
  (cancellation_fail_fast (createAll NewInMemoryBetRepository [⟨"a", 1, 50, 2, 0⟩])
    Error.Canceled ⟨"b", 2, 10, 3, 1⟩ "a"
    ⟨⟨none, none, none⟩, ⟨1, 10⟩, ⟨"created_at", "desc"⟩⟩).2.2.2.2.2.2.2.1 (by decide)

/-! ## Lemmas on `Allow` -/

theorem allow_absent (rl : RateLimiter) (now : Int) (ip : String)
    (h : mapGet rl.clients ip = none) :
    rl.Allow now ip =
      (true, { rl with clients := mapSet rl.clients ip { count := 1, windowStart := now } }) := by
  simp [RateLimiter.Allow, h]

theorem allow_expired (rl : RateLimiter) (now : Int) (ip : String) (client : clientLimiter)
    (h : mapGet rl.clients ip = some client)
    (hexp : rl.windowDuration ≤ now - client.windowStart) :
    rl.Allow now ip =
      (true, { rl with clients := mapSet rl.clients ip { count := 1, windowStart := now } }) := by
  simp [RateLimiter.Allow, h, timeSub, hexp]

theorem allow_denied (rl : RateLimiter) (now : Int) (ip : String) (client : clientLimiter)
    (h : mapGet rl.clients ip = some client)
    (hwin : now - client.windowStart < rl.windowDuration)
    (hfull : rl.requestsPerWindow ≤ client.count) :
    rl.Allow now ip = (false, rl) := by
  simp [RateLimiter.Allow, h, timeSub, not_le.2 hwin, hfull]

theorem allow_counted (rl : RateLimiter) (now : Int) (ip : String) (client : clientLimiter)
    (h : mapGet rl.clients ip = some client)
    (hwin : now - client.windowStart < rl.windowDuration)
    (hroom : client.count < rl.requestsPerWindow) :
    rl.Allow now ip =
      (true, { rl with clients := (mapSet rl.clients ip
        { count := client.count + 1, windowStart := client.windowStart }) }) := by
  simp [RateLimiter.Allow, h, timeSub, not_le.2 hwin, not_le.2 hroom]

theorem allow_config (rl : RateLimiter) (now : Int) (ip : String) :
    (rl.Allow now ip).2.requestsPerWindow = rl.requestsPerWindow ∧
    (rl.Allow now ip).2.windowDuration = rl.windowDuration := by
  unfold RateLimiter.Allow
  split
  · exact ⟨rfl, rfl⟩
  · split
    · exact ⟨rfl, rfl⟩
    · split <;> exact ⟨rfl, rfl⟩

theorem run_allow_cons (rl : RateLimiter) (ip : String) (now : Int) (rest : List Event) :
    rl.run (Event.allow ip now :: rest) =
      ((ip, now, (rl.Allow now ip).1) :: ((rl.Allow now ip).2.run rest).1,
        ((rl.Allow now ip).2.run rest).2) := rfl

theorem run_sweep_cons (rl : RateLimiter) (now : Int) (rest : List Event) :
    rl.run (Event.sweep now :: rest) = (rl.cleanupTick now).run rest := rfl

/-- Calls of `Allow(k)` inside the window of an existing record: the call number `i`
(from 0) is allowed exactly when the count it finds, `c + i`, is below the limit. -/
theorem run_same_window (times : List Int) (rl : RateLimiter) (k : String) (c ws : Int)
    (hrec : mapGet rl.clients k = some { count := c, windowStart := ws })
    (hwin : ∀ t ∈ times, t - ws < rl.windowDuration) :
    answers (rl.run (times.map (Event.allow k))).1 =
      (List.range times.length).map
        (fun (i : Nat) => decide (c + (i : Int) < rl.requestsPerWindow)) := by
  induction times generalizing rl c with
  | nil => rfl
  | cons t rest ih =>
    have ht : t - ws < rl.windowDuration := hwin t (List.mem_cons_self _ _)
    have hrest : ∀ u ∈ rest, u - ws < rl.windowDuration :=
      fun u hu => hwin u (List.mem_cons_of_mem _ hu)
    rw [List.map_cons, run_allow_cons, List.length_cons, List.range_succ_eq_map]
    simp only [answers, List.map_cons, List.map_map]
    by_cases hc : c < rl.requestsPerWindow
    · have hstep := allow_counted rl t k _ hrec ht hc
      have hnext := ih (rl.Allow t k).2 (c + 1)
        (by rw [hstep]; exact mapGet_mapSet_self _ _ _)
        (by rw [(allow_config rl t k).2]; exact hrest)
      rw [(allow_config rl t k).1] at hnext
      simp only [answers] at hnext
      rw [hnext, hstep]
      simp only [Nat.cast_zero, add_zero, hc, decide_True, List.cons.injEq, true_and]
      apply List.map_congr_left
      intro i _
      simp only [Function.comp, Nat.cast_succ]
      congr 1
      rw [add_assoc, add_comm 1]
    · have hstep := allow_denied rl t k _ hrec ht (not_lt.1 hc)
      have hnext := ih rl c hrec hrest
      simp only [answers] at hnext
      rw [hstep, hnext]
      simp only [Nat.cast_zero, add_zero, hc, decide_False, List.cons.injEq, true_and]
      apply List.map_congr_left
      intro i _
      have h1 : ¬ c + (i : Int) < rl.requestsPerWindow := by omega
      have h2 : ¬ c + ((i + 1 : Nat) : Int) < rl.requestsPerWindow := by omega
      simp only [Function.comp, Nat.succ_eq_add_one, h1, h2, decide_False]

/-! ## Claims on the limiter -/

/-- C11. Fixed-window admission: for a limit of at least 1 and a key without state, the
first call of `Allow` creates the record `(count = 1, windowStart = now)`, and in a run of
calls that all come less than one `windowDuration` after the first, call number `i`
(from 1) is allowed exactly when `i <= limit`; with limit 3 four calls are answered
`[true, true, true, false]`. -/
theorem allow_fixed_window (rl : RateLimiter) (k : String) (now : Int) (later : List Int)
    (hL : 1 ≤ rl.requestsPerWindow) (hnew : mapGet rl.clients k = none)
    (hwin : ∀ t ∈ later, t - now < rl.windowDuration) :
    (rl.Allow now k).1 = true ∧
    mapGet (rl.Allow now k).2.clients k = some { count := 1, windowStart := now } ∧
    answers (rl.run ((now :: later).map (Event.allow k))).1 =
      (List.range (later.length + 1)).map
        (fun (i : Nat) => decide (((i + 1 : Nat) : Int) ≤ rl.requestsPerWindow)) ∧
    answers ((NewRateLimiter { RequestsPerMinute := 3 } 0).run
      [Event.allow "x" 5, Event.allow "x" 5, Event.allow "x" 5, Event.allow "x" 5]).1
      = [true, true, true, false] := by
  have hstep := allow_absent rl now k hnew
  have hrec : mapGet (rl.Allow now k).2.clients k = some { count := 1, windowStart := now } := by
    rw [hstep]; exact mapGet_mapSet_self _ _ _
  refine ⟨by rw [hstep], hrec, ?_, by decide⟩
  have hrun := run_same_window later (rl.Allow now k).2 k 1 now hrec
    (by rw [(allow_config rl now k).2]; exact hwin)
  rw [(allow_config rl now k).1] at hrun
  rw [List.map_cons, run_allow_cons, List.range_succ_eq_map]
  simp only [answers, List.map_cons, List.map_map] at hrun ⊢
  rw [hrun, hstep]
  simp only [Nat.cast_one, zero_add, hL, decide_True, List.cons.injEq, true_and]
  apply List.map_congr_left
  intro i _
  simp only [Function.comp, Nat.cast_succ, Nat.cast_add, Nat.cast_one]
  congr 1
  apply propext
  constructor <;> intro h <;> omega

/-- Witness for C11: limit 2, a key without state, three calls within one minute. -/
theorem allow_fixed_window_witness :
    answers ((NewRateLimiter { RequestsPerMinute := 2 } 0).run
      ((7 :: [8, 9]).map (Event.allow "x"))).1 =
      (List.range ([8, 9].length + 1)).map
        (fun (i : Nat) => decide (((i + 1 : Nat) : Int) ≤
          (NewRateLimiter { RequestsPerMinute := 2 } 0).requestsPerWindow)) :=
  (allow_fixed_window (NewRateLimiter { RequestsPerMinute := 2 } 0) "x" 7 [8, 9]
    (by decide) (by decide) (by decide)).2.2.1

/-- C12, as stated, fails at the end of the window: when `now` equals
`windowStart + windowDuration` the test `now.Sub(windowStart) >= windowDuration` already
holds, so a client that has used up its limit is not denied; its window is reset and the
call is allowed. -/
theorem allow_resets_at_window_end :
    mapGet (RateLimiter.mk 3 Minute [("x", { count := 3, windowStart := 0 })]
      (5 * Minute) 0).clients "x" = some { count := 3, windowStart := 0 } ∧
    Minute ≤ 0 + Minute ∧ (3 : Int) ≥ 3 ∧
    (RateLimiter.mk 3 Minute [("x", { count := 3, windowStart := 0 })]
      (5 * Minute) 0).Allow Minute "x" =
      (true, RateLimiter.mk 3 Minute [("x", { count := 1, windowStart := Minute })]
        (5 * Minute) 0) := by
  decide

/-- C12, amended. When key `k` has a record and `now` is before
`windowStart + windowDuration`, `Allow(k)` returns false and leaves the limiter as it is
if `count >= requestsPerWindow`; otherwise it returns true, raises `count` by exactly 1
and keeps `windowStart`. -/
theorem allow_within_window (rl : RateLimiter) (k : String) (client : clientLimiter)
    (now : Int) (hrec : mapGet rl.clients k = some client)
    (hwin : now < client.windowStart + rl.windowDuration) :
    (client.count ≥ rl.requestsPerWindow → rl.Allow now k = (false, rl)) ∧
    (client.count < rl.requestsPerWindow →
      (rl.Allow now k).1 = true ∧
      mapGet (rl.Allow now k).2.clients k =
        some { count := client.count + 1, windowStart := client.windowStart }) := by
  have hw : now - client.windowStart < rl.windowDuration := by omega
  refine ⟨fun hfull => allow_denied rl now k client hrec hw hfull, fun hroom => ?_⟩
  rw [allow_counted rl now k client hrec hw hroom]
  exact ⟨rfl, mapGet_mapSet_self _ _ _⟩

/-- Witness for C12: a record with count 2 under limit 3, one nanosecond before the end
of its window. -/
theorem allow_within_window_witness :
    ((RateLimiter.mk 3 Minute [("x", { count := 2, windowStart := 0 })]
      (5 * Minute) 0).Allow (Minute - 1) "x").1 = true ∧
    mapGet ((RateLimiter.mk 3 Minute [("x", { count := 2, windowStart := 0 })]
      (5 * Minute) 0).Allow (Minute - 1) "x").2.clients "x" =
      some { count := (clientLimiter.mk 2 0).count + 1,
             windowStart := (clientLimiter.mk 2 0).windowStart } :=
  (allow_within_window
    (RateLimiter.mk 3 Minute [("x", { count := 2, windowStart := 0 })] (5 * Minute) 0)
    "x" { count := 2, windowStart := 0 } (Minute - 1) (by decide) (by decide)).2 (by decide)

/-- C13. Window reset: when key `k` has a record, whatever its count, and `now` is past
`windowStart + windowDuration`, `Allow(k)` returns true and the record of `k` becomes
exactly `(count = 1, windowStart = now)`. -/
theorem allow_window_reset (rl : RateLimiter) (k : String) (client : clientLimiter)
    (now : Int) (hrec : mapGet rl.clients k = some client)
    (hpast : now > client.windowStart + rl.windowDuration) :
    (rl.Allow now k).1 = true ∧
    mapGet (rl.Allow now k).2.clients k = some { count := 1, windowStart := now } := by
  rw [allow_expired rl now k client hrec (by omega)]
  exact ⟨rfl, mapGet_mapSet_self _ _ _⟩

/-- Witness for C13: a client at its limit of 3, called one nanosecond after the end of
its window. -/
theorem allow_window_reset_witness :
    ((RateLimiter.mk 3 Minute [("x", { count := 3, windowStart := 0 })]
      (5 * Minute) 0).Allow (Minute + 1) "x").1 = true ∧
    mapGet ((RateLimiter.mk 3 Minute [("x", { count := 3, windowStart := 0 })]
      (5 * Minute) 0).Allow (Minute + 1) "x").2.clients "x" =
      some { count := 1, windowStart := Minute + 1 } :=
  allow_window_reset
    (RateLimiter.mk 3 Minute [("x", { count := 3, windowStart := 0 })] (5 * Minute) 0)
    "x" { count := 3, windowStart := 0 } (Minute + 1) (by decide) (by decide)

/-! ## Lemmas on the sweep of `cleanup` -/

theorem mapGet_of_mem_nodup {κ ν : Type} [DecidableEq κ] (m : List (κ × ν)) (k : κ) (v : ν)
    (hnd : (m.map Prod.fst).Nodup) (hmem : (k, v) ∈ m) : mapGet m k = some v := by
  induction m with
  | nil => simp at hmem
  | cons p rest ih =>
    obtain ⟨k', v'⟩ := p
    simp only [List.map_cons, List.nodup_cons] at hnd
    rcases List.mem_cons.1 hmem with h | h
    · cases h
      simp [mapGet]
    · have hne : k' ≠ k := by
        intro hk
        exact hnd.1 (hk ▸ List.mem_map_of_mem Prod.fst h)
      simp only [mapGet, hne, if_false]
      exact ih hnd.2 h

theorem mapGet_filter_nodup {κ ν : Type} [DecidableEq κ] (m : List (κ × ν)) (q : ν → Bool)
    (k : κ) (hnd : (m.map Prod.fst).Nodup) :
    mapGet (m.filter (fun p => q p.2)) k =
      match mapGet m k with
      | some v => if q v = true then some v else none
      | none => none := by
  induction m with
  | nil => rfl
  | cons p rest ih =>
    obtain ⟨k', v'⟩ := p
    simp only [List.map_cons, List.nodup_cons] at hnd
    by_cases hk : k' = k
    · subst hk
      have hrest : mapGet rest k' = none :=
        (mapGet_eq_none_iff rest k').2 (fun p hp hpk =>
          hnd.1 (hpk ▸ List.mem_map_of_mem Prod.fst hp))
      cases hq : q v' with
      | true => simp [List.filter_cons, hq, mapGet]
      | false =>
        have := ih hnd.2
        rw [hrest] at this
        simp [List.filter_cons, hq, mapGet, this]
    · cases hq : q v' with
      | true => simp [List.filter_cons, hq, mapGet, hk, ih hnd.2]
      | false => simp [List.filter_cons, hq, mapGet, hk, ih hnd.2]

/-- The loop deletes from `clients` the keys of the visited entries that are older than
one window. -/
theorem sweepLoop_eq_filter (windowDuration now : Int)
    (entries clients : List (String × clientLimiter)) :
    sweepLoop windowDuration now entries clients =
      clients.filter (fun p => !(entries.any (fun e =>
        decide (e.1 = p.1) && decide (now - e.2.windowStart > windowDuration)))) := by
  induction entries generalizing clients with
  | nil => simp [sweepLoop]
  | cons e rest ih =>
    obtain ⟨ip, client⟩ := e
    unfold sweepLoop
    by_cases hs : now - client.windowStart > windowDuration
    · rw [if_pos (by simpa [timeSub] using hs), ih, mapDelete, List.filter_filter]
      apply List.filter_congr
      intro p _
      by_cases hp : ip = p.1
      · simp [hp, hs]
      · have hp' : ¬ p.1 = ip := fun h => hp h.symm
        simp [hp, hp', hs]
    · rw [if_neg (by simpa [timeSub] using hs), ih]
      apply List.filter_congr
      intro p _
      simp [hs]

/-- On a map with one slot per key, a sweep keeps exactly the records that are not older
than one window. -/
theorem sweepLoop_self (windowDuration now : Int) (clients : List (String × clientLimiter))
    (hnd : (clients.map Prod.fst).Nodup) :
    sweepLoop windowDuration now clients clients =
      clients.filter (fun p => !decide (now - p.2.windowStart > windowDuration)) := by
  rw [sweepLoop_eq_filter]
  apply List.filter_congr
  intro p hp
  congr 1
  apply Bool.eq_iff_iff.2
  simp only [List.any_eq_true, Bool.and_eq_true, decide_eq_true_eq]
  constructor
  · rintro ⟨e, he, hkey, hstale⟩
    have h1 := mapGet_of_mem_nodup clients e.1 e.2 hnd he
    have h2 := mapGet_of_mem_nodup clients p.1 p.2 hnd hp
    rw [hkey, h2] at h1
    have h3 : p.2 = e.2 := Option.some.inj h1
    rw [h3]
    exact hstale
  · intro hstale
    exact ⟨p, hp, rfl, hstale⟩

theorem cleanupTick_get (rl : RateLimiter) (now : Int) (k : String)
    (hnd : (rl.clients.map Prod.fst).Nodup) :
    mapGet (rl.cleanupTick now).clients k =
      match mapGet rl.clients k with
      | some client =>
        if now - client.windowStart > rl.windowDuration then none else some client
      | none => none := by
  have h := mapGet_filter_nodup rl.clients
    (fun c => !decide (now - c.windowStart > rl.windowDuration)) k hnd
  simp only [RateLimiter.cleanupTick, sweepLoop_self _ _ _ hnd, h]
  cases mapGet rl.clients k with
  | none => rfl
  | some client =>
    by_cases hs : now - client.windowStart > rl.windowDuration <;> simp [hs]

theorem cleanupTick_keys_nodup (rl : RateLimiter) (now : Int)
    (hnd : (rl.clients.map Prod.fst).Nodup) :
    ((rl.cleanupTick now).clients.map Prod.fst).Nodup := by
  simp only [RateLimiter.cleanupTick, sweepLoop_self _ _ _ hnd]
  exact List.Nodup.sublist ((List.filter_sublist rl.clients).map Prod.fst) hnd

theorem allow_keys_nodup (rl : RateLimiter) (now : Int) (ip : String)
    (hnd : (rl.clients.map Prod.fst).Nodup) :
    ((rl.Allow now ip).2.clients.map Prod.fst).Nodup := by
  unfold RateLimiter.Allow
  split
  · exact mapSet_keys_nodup _ _ _ hnd
  · split
    · exact mapSet_keys_nodup _ _ _ hnd
    · split
      · exact hnd
      · exact mapSet_keys_nodup _ _ _ hnd

/-- C18. Expiry sweep: on a limiter whose map has one slot per key, one sweep at clock
reading `now`, in the ticker branch as in the final sweep on shutdown, removes exactly the
records with `now - windowStart > windowDuration`, keeps every other record with its
count and windowStart, and adds no record; the limit and the window length stay. -/
theorem sweep_removes_expired (rl : RateLimiter) (now : Int)
    (hnd : (rl.clients.map Prod.fst).Nodup) :
    rl.cleanupDone now = rl.cleanupTick now ∧
    (rl.cleanupTick now).clients =
      rl.clients.filter (fun p => !decide (now - p.2.windowStart > rl.windowDuration)) ∧
    (∀ k client, mapGet rl.clients k = some client →
      (now - client.windowStart > rl.windowDuration →
        mapGet (rl.cleanupTick now).clients k = none) ∧
      (¬ now - client.windowStart > rl.windowDuration →
        mapGet (rl.cleanupTick now).clients k = some client)) ∧
    (∀ k, mapGet rl.clients k = none → mapGet (rl.cleanupTick now).clients k = none) ∧
    (rl.cleanupTick now).requestsPerWindow = rl.requestsPerWindow ∧
    (rl.cleanupTick now).windowDuration = rl.windowDuration := by
  refine ⟨rfl, ?_, ?_, ?_, rfl, rfl⟩
  · simp only [RateLimiter.cleanupTick, sweepLoop_self _ _ _ hnd]
  · intro k client hrec
    have h := cleanupTick_get rl now k hnd
    rw [hrec] at h
    simp only at h
    exact ⟨fun hs => by rw [h, if_pos hs], fun hs => by rw [h, if_neg hs]⟩
  · intro k hrec
    have h := cleanupTick_get rl now k hnd
    rw [hrec] at h
    exact h

/-- Witness for C18: one record older than a minute and one younger. -/
theorem sweep_removes_expired_witness :
    (5 * Minute - (clientLimiter.mk 3 0).windowStart > Minute →
      mapGet ((RateLimiter.mk 3 Minute
        [("x", { count := 3, windowStart := 0 }), ("y", { count := 1, windowStart := 4 * Minute + 1 })]
        (5 * Minute) 0).cleanupTick (5 * Minute)).clients "x" = none) ∧
    (¬ 5 * Minute - (clientLimiter.mk 3 0).windowStart > Minute →
      mapGet ((RateLimiter.mk 3 Minute
        [("x", { count := 3, windowStart := 0 }), ("y", { count := 1, windowStart := 4 * Minute + 1 })]
        (5 * Minute) 0).cleanupTick (5 * Minute)).clients "x" =
        some { count := 3, windowStart := 0 }) :=
  (sweep_removes_expired
    (RateLimiter.mk 3 Minute
      [("x", { count := 3, windowStart := 0 }), ("y", { count := 1, windowStart := 4 * Minute + 1 })]
      (5 * Minute) 0) (5 * Minute) (by decide)).2.2.1 "x" { count := 3, windowStart := 0 }
    (by decide)

/-! ## The counter invariant -/

theorem mem_mapSet {κ ν : Type} [DecidableEq κ] (m : List (κ × ν)) (k : κ) (v : ν)
    (p : κ × ν) (hp : p ∈ mapSet m k v) : p = (k, v) ∨ p ∈ m := by
  induction m with
  | nil =>
    simp only [mapSet, List.mem_singleton] at hp
    exact Or.inl hp
  | cons q rest ih =>
    obtain ⟨k', v'⟩ := q
    unfold mapSet at hp
    split at hp
    · rcases List.mem_cons.1 hp with h | h
      · exact Or.inl h
      · exact Or.inr (List.mem_cons_of_mem _ h)
    · rcases List.mem_cons.1 hp with h | h
      · exact Or.inr (h ▸ List.mem_cons_self _ _)
      · rcases ih h with h' | h'
        · exact Or.inl h'
        · exact Or.inr (List.mem_cons_of_mem _ h')

theorem allow_counts (rl : RateLimiter) (now : Int) (ip : String)
    (hL : 1 ≤ rl.requestsPerWindow)
    (hinv : ∀ p ∈ rl.clients, 1 ≤ p.2.count ∧ p.2.count ≤ rl.requestsPerWindow) :
    ∀ p ∈ (rl.Allow now ip).2.clients, 1 ≤ p.2.count ∧ p.2.count ≤ rl.requestsPerWindow := by
  intro p hp
  unfold RateLimiter.Allow at hp
  split at hp
  · rcases mem_mapSet _ _ _ _ hp with h | h
    · subst h
      exact ⟨le_refl _, hL⟩
    · exact hinv p h
  · rename_i client hrec
    split at hp
    · rcases mem_mapSet _ _ _ _ hp with h | h
      · subst h
        exact ⟨le_refl _, hL⟩
      · exact hinv p h
    · split at hp
      · exact hinv p hp
      · rename_i hroom
        rcases mem_mapSet _ _ _ _ hp with h | h
        · subst h
          have hc := hinv (ip, client) (mapGet_mem _ _ _ hrec)
          simp only at hc ⊢
          omega
        · exact hinv p h

theorem cleanupTick_counts (rl : RateLimiter) (now : Int)
    (hinv : ∀ p ∈ rl.clients, 1 ≤ p.2.count ∧ p.2.count ≤ rl.requestsPerWindow) :
    ∀ p ∈ (rl.cleanupTick now).clients,
      1 ≤ p.2.count ∧ p.2.count ≤ rl.requestsPerWindow := by
  intro p hp
  simp only [RateLimiter.cleanupTick, sweepLoop_eq_filter] at hp
  exact hinv p (List.mem_filter.1 hp).1

theorem run_counts (evs : List Event) (rl : RateLimiter) (hL : 1 ≤ rl.requestsPerWindow)
    (hinv : ∀ p ∈ rl.clients, 1 ≤ p.2.count ∧ p.2.count ≤ rl.requestsPerWindow) :
    (rl.run evs).2.requestsPerWindow = rl.requestsPerWindow ∧
    (rl.run evs).2.windowDuration = rl.windowDuration ∧
    ∀ p ∈ (rl.run evs).2.clients, 1 ≤ p.2.count ∧ p.2.count ≤ rl.requestsPerWindow := by
  induction evs generalizing rl with
  | nil => exact ⟨rfl, rfl, hinv⟩
  | cons e rest ih =>
    cases e with
    | allow ip now =>
      rw [run_allow_cons]
      have hcfg := allow_config rl now ip
      have h := ih (rl.Allow now ip).2 (by rw [hcfg.1]; exact hL)
        (by rw [hcfg.1]; exact allow_counts rl now ip hL hinv)
      rw [hcfg.1, hcfg.2] at h
      exact h
    | sweep now =>
      rw [run_sweep_cons]
      exact ih (rl.cleanupTick now) hL (cleanupTick_counts rl now hinv)

/-- C19. Counter invariant: `NewRateLimiter` replaces a configured limit `<= 0` by 60, and
in every limiter reached from it by `Allow` calls and expiry sweeps each stored record
has `1 <= count <= requestsPerWindow`. On every limiter `Allow` removes no record, and
`Allow(k)` leaves the record of every other key as it is. -/
theorem counter_invariant (config : RateLimitConfig) (start : Int) (evs : List Event) :
    (config.RequestsPerMinute ≤ 0 →
      ((NewRateLimiter config start).run evs).2.requestsPerWindow = 60) ∧
    (0 < config.RequestsPerMinute →
      ((NewRateLimiter config start).run evs).2.requestsPerWindow
        = config.RequestsPerMinute) ∧
    (∀ p ∈ ((NewRateLimiter config start).run evs).2.clients,
      1 ≤ p.2.count ∧
      p.2.count ≤ ((NewRateLimiter config start).run evs).2.requestsPerWindow) ∧
    (∀ (rl : RateLimiter) (now : Int) (k other : String),
      (mapGet rl.clients other ≠ none → mapGet (rl.Allow now k).2.clients other ≠ none) ∧
      (other ≠ k → mapGet (rl.Allow now k).2.clients other = mapGet rl.clients other)) := by
  have hL : 1 ≤ (NewRateLimiter config start).requestsPerWindow := by
    simp only [NewRateLimiter]
    split <;> omega
  have h := run_counts evs (NewRateLimiter config start) hL
    (by intro p hp; simp [NewRateLimiter] at hp)
  refine ⟨?_, ?_, ?_, ?_⟩
  · intro hc
    rw [h.1]
    simp [NewRateLimiter, hc]
  · intro hc
    rw [h.1]
    simp [NewRateLimiter, not_le.2 hc]
  · rw [h.1]
    exact h.2.2
  · intro rl now k other
    have hother : other ≠ k →
        mapGet (rl.Allow now k).2.clients other = mapGet rl.clients other := by
      intro hne
      unfold RateLimiter.Allow
      split
      · exact mapGet_mapSet_ne _ _ _ _ hne
      · split
        · exact mapGet_mapSet_ne _ _ _ _ hne
        · split
          · rfl
          · exact mapGet_mapSet_ne _ _ _ _ hne
    refine ⟨?_, hother⟩
    intro hsome
    by_cases hne : other = k
    · subst hne
      unfold RateLimiter.Allow
      split
      · rw [mapGet_mapSet_self]; exact Option.some_ne_none _
      · split
        · rw [mapGet_mapSet_self]; exact Option.some_ne_none _
        · split
          · exact hsome
          · rw [mapGet_mapSet_self]; exact Option.some_ne_none _
    · rw [hother hne]
      exact hsome

/-- Witness for C19: a limiter configured with limit 0, hence 60, after two calls and a
sweep. -/
theorem counter_invariant_witness :
    ((NewRateLimiter { RequestsPerMinute := 0 } 0).run
      [Event.allow "x" 1, Event.allow "x" 2, Event.sweep 3]).2.requestsPerWindow = 60 :=
  (counter_invariant { RequestsPerMinute := 0 } 0
    [Event.allow "x" 1, Event.allow "x" 2, Event.sweep 3]).1 (by decide)

/-! ## Sweeps cannot be observed through `Allow` -/

theorem allow_other (rl : RateLimiter) (now : Int) (ip other : String) (hne : other ≠ ip) :
    mapGet (rl.Allow now ip).2.clients other = mapGet rl.clients other := by
  unfold RateLimiter.Allow
  split
  · exact mapGet_mapSet_ne _ _ _ _ hne
  · split
    · exact mapGet_mapSet_ne _ _ _ _ hne
    · split
      · rfl
      · exact mapGet_mapSet_ne _ _ _ _ hne

/-- The answer of `Allow` and the record it leaves under its key depend only on the record
found under that key, the limit and the window length. -/
theorem allow_at_key (rl : RateLimiter) (now : Int) (ip : String) :
    (rl.Allow now ip).1 =
      (match mapGet rl.clients ip with
        | none => true
        | some c =>
          if rl.windowDuration ≤ now - c.windowStart then true
          else if rl.requestsPerWindow ≤ c.count then false else true) ∧
    mapGet (rl.Allow now ip).2.clients ip =
      (match mapGet rl.clients ip with
        | none => some { count := 1, windowStart := now }
        | some c =>
          if rl.windowDuration ≤ now - c.windowStart then
            some { count := 1, windowStart := now }
          else if rl.requestsPerWindow ≤ c.count then some c
          else some { count := c.count + 1, windowStart := c.windowStart }) := by
  cases hrec : mapGet rl.clients ip with
  | none =>
    rw [allow_absent rl now ip hrec]
    exact ⟨rfl, mapGet_mapSet_self _ _ _⟩
  | some c =>
    by_cases hexp : rl.windowDuration ≤ now - c.windowStart
    · rw [allow_expired rl now ip c hrec hexp]
      exact ⟨by simp only [hexp, if_true], by simp only [hexp, if_true, mapGet_mapSet_self]⟩
    · by_cases hfull : rl.requestsPerWindow ≤ c.count
      · rw [allow_denied rl now ip c hrec (not_le.1 hexp) hfull]
        exact ⟨by simp only [hexp, hfull, if_true, if_false],
          by simp only [hexp, hfull, if_true, if_false, hrec]⟩
      · rw [allow_counted rl now ip c hrec (not_le.1 hexp) (not_le.1 hfull)]
        exact ⟨by simp only [hexp, hfull, if_false],
          by simp only [hexp, hfull, if_false, mapGet_mapSet_self]⟩

theorem allow_agree (a b : RateLimiter) (now : Int) (ip : String)
    (hL : a.requestsPerWindow = b.requestsPerWindow)
    (hW : a.windowDuration = b.windowDuration)
    (hrec : mapGet a.clients ip = mapGet b.clients ip) :
    (a.Allow now ip).1 = (b.Allow now ip).1 ∧
    mapGet (a.Allow now ip).2.clients ip = mapGet (b.Allow now ip).2.clients ip := by
  have ha := allow_at_key a now ip
  have hb := allow_at_key b now ip
  rw [hL, hW, hrec] at ha
  exact ⟨ha.1.trans hb.1.symm, ha.2.trans hb.2.symm⟩

theorem sweepSim_later (lo lo' : Int) (a b : RateLimiter) (hle : lo ≤ lo')
    (h : sweepSim lo a b) : sweepSim lo' a b := by
  obtain ⟨hL, hW, hnd, hk⟩ := h
  refine ⟨hL, hW, hnd, fun k => ?_⟩
  rcases hk k with h | ⟨hnone, c, hc, hstale⟩
  · exact Or.inl h
  · exact Or.inr ⟨hnone, c, hc, by omega⟩

theorem sweepSim_sweep (lo now : Int) (a b : RateLimiter) (hle : lo ≤ now)
    (h : sweepSim lo a b) : sweepSim now (a.cleanupTick now) b := by
  obtain ⟨hL, hW, hnd, hk⟩ := h
  refine ⟨hL, hW, cleanupTick_keys_nodup a now hnd, fun k => ?_⟩
  have hget := cleanupTick_get a now k hnd
  rcases hk k with h | ⟨hnone, c, hc, hstale⟩
  · cases hrec : mapGet a.clients k with
    | none =>
      rw [hrec] at hget
      exact Or.inl (by rw [hget, ← h, hrec])
    | some c =>
      rw [hrec] at hget
      simp only at hget
      by_cases hs : now - c.windowStart > a.windowDuration
      · rw [if_pos hs] at hget
        exact Or.inr ⟨hget, c, by rw [← h, hrec], by rw [← hW]; exact hs⟩
      · rw [if_neg hs] at hget
        exact Or.inl (by rw [hget, ← h, hrec])
  · rw [hnone] at hget
    exact Or.inr ⟨hget, c, hc, by omega⟩

theorem sweepSim_allow (lo now : Int) (a b : RateLimiter) (ip : String) (hle : lo ≤ now)
    (h : sweepSim lo a b) :
    (a.Allow now ip).1 = (b.Allow now ip).1 ∧
    mapGet (a.Allow now ip).2.clients ip = mapGet (b.Allow now ip).2.clients ip ∧
    sweepSim now (a.Allow now ip).2 (b.Allow now ip).2 := by
  obtain ⟨hL, hW, hnd, hk⟩ := h
  have hkey : (a.Allow now ip).1 = (b.Allow now ip).1 ∧
      mapGet (a.Allow now ip).2.clients ip = mapGet (b.Allow now ip).2.clients ip := by
    rcases hk ip with h | ⟨hnone, c, hc, hstale⟩
    · exact allow_agree a b now ip hL hW h
    · rw [allow_absent a now ip hnone, allow_expired b now ip c hc (by omega)]
      exact ⟨rfl, by simp only [mapGet_mapSet_self]⟩
  refine ⟨hkey.1, hkey.2, ?_, ?_, allow_keys_nodup a now ip hnd, fun k => ?_⟩
  · rw [(allow_config a now ip).1, (allow_config b now ip).1, hL]
  · rw [(allow_config a now ip).2, (allow_config b now ip).2, hW]
  · by_cases hne : k = ip
    · subst hne
      exact Or.inl hkey.2
    · rw [allow_other a now ip k hne, allow_other b now ip k hne,
        (allow_config b now ip).2]
      rcases hk k with h | ⟨hnone, c, hc, hstale⟩
      · exact Or.inl h
      · exact Or.inr ⟨hnone, c, hc, by omega⟩

theorem run_append (xs ys : List Event) (rl : RateLimiter) :
    rl.run (xs ++ ys) =
      ((rl.run xs).1 ++ ((rl.run xs).2.run ys).1, ((rl.run xs).2.run ys).2) := by
  induction xs generalizing rl with
  | nil => rfl
  | cons e rest ih =>
    cases e with
    | allow ip now =>
      rw [List.cons_append, run_allow_cons, run_allow_cons, ih]
      rfl
    | sweep now =>
      rw [List.cons_append, run_sweep_cons, run_sweep_cons, ih]

theorem dropSweeps_append (xs ys : List Event) :
    dropSweeps (xs ++ ys) = dropSweeps xs ++ dropSweeps ys := by
  induction xs with
  | nil => rfl
  | cons e rest ih =>
    cases e with
    | allow ip now => simp [dropSweeps, ih]
    | sweep now => simp [dropSweeps, ih]

theorem dropSweeps_allows (ys : List Event)
    (h : ∀ e ∈ ys, ∃ ip now, e = Event.allow ip now) : dropSweeps ys = ys := by
  induction ys with
  | nil => rfl
  | cons e rest ih =>
    obtain ⟨ip, now, he⟩ := h e (List.mem_cons_self _ _)
    subst he
    simp [dropSweeps, ih (fun e he => h e (List.mem_cons_of_mem _ he))]

/-- A swept limiter and its unswept twin give the same log on a run whose clock readings
do not go back, and stay related at the latest clock reading. -/
theorem sweepSim_run (evs : List Event) (lo : Int) (a b : RateLimiter)
    (h : sweepSim lo a b) (hmono : (lo :: evs.map Event.time).Pairwise (· ≤ ·)) :
    (a.run evs).1 = (b.run (dropSweeps evs)).1 ∧
    ∃ lo', sweepSim lo' (a.run evs).2 (b.run (dropSweeps evs)).2 ∧
      ∀ u, lo ≤ u → (∀ e ∈ evs, e.time ≤ u) → lo' ≤ u := by
  induction evs generalizing lo a b with
  | nil => exact ⟨rfl, lo, h, fun u hu _ => hu⟩
  | cons e rest ih =>
    rw [List.map_cons, List.pairwise_cons, List.pairwise_cons] at hmono
    obtain ⟨hlo, hrest, hsorted⟩ := hmono
    have hle : lo ≤ e.time := hlo _ (List.mem_cons_self _ _)
    have hmono' : (e.time :: rest.map Event.time).Pairwise (· ≤ ·) :=
      List.pairwise_cons.2 ⟨hrest, hsorted⟩
    cases e with
    | allow ip now =>
      obtain ⟨hans, _, hsim⟩ := sweepSim_allow lo now a b ip hle h
      obtain ⟨hlog, lo', hsim', hup⟩ := ih now _ _ hsim hmono'
      rw [run_allow_cons, dropSweeps, run_allow_cons]
      refine ⟨by rw [hans, hlog], lo', hsim', fun u _ hu => ?_⟩
      exact hup u (hu _ (List.mem_cons_self _ _))
        (fun e he => hu e (List.mem_cons_of_mem _ he))
    | sweep now =>
      obtain ⟨hlog, lo', hsim', hup⟩ :=
        ih now _ _ (sweepSim_sweep lo now a b hle h) hmono'
      rw [run_sweep_cons, dropSweeps]
      refine ⟨hlog, lo', hsim', fun u _ hu => ?_⟩
      exact hup u (hu _ (List.mem_cons_self _ _))
        (fun e he => hu e (List.mem_cons_of_mem _ he))

/-- Two limiters with the same limit and window length that agree on the record of `k`
still agree on it after the same `Allow` calls. -/
theorem run_agree_at_key (ys : List Event) (a b : RateLimiter) (k : String)
    (hL : a.requestsPerWindow = b.requestsPerWindow)
    (hW : a.windowDuration = b.windowDuration)
    (hrec : mapGet a.clients k = mapGet b.clients k)
    (hallow : ∀ e ∈ ys, ∃ ip now, e = Event.allow ip now) :
    mapGet (a.run ys).2.clients k = mapGet (b.run ys).2.clients k := by
  induction ys generalizing a b with
  | nil => exact hrec
  | cons e rest ih =>
    obtain ⟨ip, now, he⟩ := hallow e (List.mem_cons_self _ _)
    subst he
    rw [run_allow_cons, run_allow_cons]
    refine ih _ _ ?_ ?_ ?_ (fun e he => hallow e (List.mem_cons_of_mem _ he))
    · rw [(allow_config a now ip).1, (allow_config b now ip).1, hL]
    · rw [(allow_config a now ip).2, (allow_config b now ip).2, hW]
    · by_cases hne : k = ip
      · subst hne
        exact (allow_agree a b now k hL hW hrec).2
      · rw [allow_other a now ip k hne, allow_other b now ip k hne, hrec]

/-- After a run of `Allow` calls, a swept limiter and its unswept twin hold the same
record for every key that was called in the run. -/
theorem sweepSim_called (ys : List Event) (lo : Int) (a b : RateLimiter) (k : String)
    (h : sweepSim lo a b) (hmono : (lo :: ys.map Event.time).Pairwise (· ≤ ·))
    (hallow : ∀ e ∈ ys, ∃ ip now, e = Event.allow ip now)
    (hcalled : ∃ now, Event.allow k now ∈ ys) :
    mapGet (a.run ys).2.clients k = mapGet (b.run ys).2.clients k := by
  induction ys generalizing lo a b with
  | nil =>
    obtain ⟨now, hmem⟩ := hcalled
    simp at hmem
  | cons e rest ih =>
    rw [List.map_cons, List.pairwise_cons, List.pairwise_cons] at hmono
    obtain ⟨hlo, hrest, hsorted⟩ := hmono
    obtain ⟨ip, now, he⟩ := hallow e (List.mem_cons_self _ _)
    subst he
    have hle : lo ≤ now := hlo _ (List.mem_cons_self _ _)
    have hallow' : ∀ e ∈ rest, ∃ ip now, e = Event.allow ip now :=
      fun e he => hallow e (List.mem_cons_of_mem _ he)
    obtain ⟨_, hkey, hsim⟩ := sweepSim_allow lo now a b ip hle h
    rw [run_allow_cons, run_allow_cons]
    by_cases hne : k = ip
    · subst hne
      exact run_agree_at_key rest _ _ k hsim.1 hsim.2.1 hkey hallow'
    · obtain ⟨t, hmem⟩ := hcalled
      rcases List.mem_cons.1 hmem with hhead | htail
      · cases hhead
        exact absurd rfl hne
      · exact ih now _ _ hsim (List.pairwise_cons.2 ⟨hrest, hsorted⟩) hallow' ⟨t, htail⟩

theorem sweepSim_refl (lo : Int) (rl : RateLimiter)
    (hkeys : (rl.clients.map Prod.fst).Nodup) : sweepSim lo rl rl :=
  ⟨rfl, rfl, hkeys, fun _ => Or.inl rfl⟩

theorem sorted_from_first (evs : List Event)
    (hmono : (evs.map Event.time).Pairwise (· ≤ ·)) :
    ∃ lo, (lo :: evs.map Event.time).Pairwise (· ≤ ·) := by
  cases evs with
  | nil => exact ⟨0, by simp⟩
  | cons e rest =>
    refine ⟨e.time, List.pairwise_cons.2 ⟨?_, hmono⟩⟩
    intro x hx
    rw [List.map_cons] at hx hmono
    rcases List.mem_cons.1 hx with h | h
    · exact h ▸ le_refl _
    · exact (List.pairwise_cons.1 hmono).1 x h

/-- C20. The expiry sweep is invisible to callers: on a limiter whose map has one slot per
key, a run of `Allow` calls and sweeps at clock readings that do not go back gives the
same answers, call by call, as the run with the sweeps left out; and a key that has been
called again after the last sweep ends with the same `(count, windowStart)` record in both
runs. -/
theorem sweeps_invisible (rl : RateLimiter) (evs : List Event)
    (hkeys : (rl.clients.map Prod.fst).Nodup)
    (hmono : (evs.map Event.time).Pairwise (· ≤ ·)) :
    answers (rl.run evs).1 = answers (rl.run (dropSweeps evs)).1 ∧
    (rl.run evs).1 = (rl.run (dropSweeps evs)).1 ∧
    (∀ pre post k, evs = pre ++ post →
      (∀ e ∈ post, ∃ ip now, e = Event.allow ip now) →
      (∃ now, Event.allow k now ∈ post) →
      mapGet (rl.run evs).2.clients k = mapGet (rl.run (dropSweeps evs)).2.clients k) := by
  obtain ⟨lo, hlo⟩ := sorted_from_first evs hmono
  have hlog := (sweepSim_run evs lo rl rl (sweepSim_refl lo rl hkeys) hlo).1
  refine ⟨by rw [hlog], hlog, ?_⟩
  intro pre post k hsplit hallow hcalled
  subst hsplit
  rw [List.map_append] at hlo
  have hlo' := List.pairwise_cons.1 hlo
  have happ := List.pairwise_append.1 hlo'.2
  have hpre : (lo :: pre.map Event.time).Pairwise (· ≤ ·) :=
    List.pairwise_cons.2 ⟨fun x hx => hlo'.1 x (List.mem_append_left _ hx), happ.1⟩
  obtain ⟨_, lo', hsim, hup⟩ := sweepSim_run pre lo rl rl (sweepSim_refl lo rl hkeys) hpre
  have hpost : (lo' :: post.map Event.time).Pairwise (· ≤ ·) := by
    refine List.pairwise_cons.2 ⟨?_, happ.2.1⟩
    intro x hx
    refine hup x (hlo'.1 x (List.mem_append_right _ hx)) ?_
    intro e he
    exact happ.2.2 _ (List.mem_map_of_mem Event.time he) _ hx
  rw [run_append, dropSweeps_append, dropSweeps_allows post hallow, run_append]
  exact sweepSim_called post lo' _ _ k hsim hpost hallow hcalled

/-- Witness for C20: a client at its limit, swept after its window has ended and then
called again. -/
theorem sweeps_invisible_witness :
    mapGet ((RateLimiter.mk 3 Minute [("x", { count := 3, windowStart := 0 })]
        (5 * Minute) 0).run
        [Event.allow "x" 1, Event.sweep (2 * Minute), Event.allow "x" (3 * Minute)]).2.clients
        "x" =
      mapGet ((RateLimiter.mk 3 Minute [("x", { count := 3, windowStart := 0 })]
        (5 * Minute) 0).run
        (dropSweeps
          [Event.allow "x" 1, Event.sweep (2 * Minute), Event.allow "x" (3 * Minute)])).2.clients
        "x" :=
  (sweeps_invisible
    (RateLimiter.mk 3 Minute [("x", { count := 3, windowStart := 0 })] (5 * Minute) 0)
    [Event.allow "x" 1, Event.sweep (2 * Minute), Event.allow "x" (3 * Minute)]
    (by decide) (by decide)).2.2
    [Event.allow "x" 1, Event.sweep (2 * Minute)] [Event.allow "x" (3 * Minute)] "x" rfl
    (fun _ he => ⟨"x", 3 * Minute, List.mem_singleton.1 he⟩) ⟨3 * Minute, by decide⟩

/-! ## The burst bound -/

theorem allowedIn_cons (ip : String) (now : Int) (ans : Bool)
    (log : List (String × Int × Bool)) (k : String) (a b : Int) :
    ((allowedIn ((ip, now, ans) :: log) k a b : Nat) : Int) =
      (allowedIn log k a b : Nat) +
        (if ip = k ∧ a ≤ now ∧ now ≤ b ∧ ans = true then 1 else 0) := by
  unfold allowedIn
  rw [List.countP_cons]
  by_cases h : ip = k ∧ a ≤ now ∧ now ≤ b ∧ ans = true
  · obtain ⟨h1, h2, h3, h4⟩ := h
    simp [h1, h2, h3, h4]
  · rw [if_neg h]
    have : (decide (ip = k) && decide (a ≤ now) && decide (now ≤ b) && ans) = false := by
      by_contra hc
      apply h
      simpa [and_assoc] using hc
    simp [this]

theorem burstInv_later (L a b : Int) (record : Option clientLimiter) (last t n : Int)
    (hle : last ≤ t) (h : burstInv L a b record last n) : burstInv L a b record t n := by
  obtain ⟨h0, hnone, hsome⟩ := h
  refine ⟨fun ht => h0 (by omega), fun hr => ?_, fun c hc => ?_⟩
  · rcases hnone hr with h | ⟨h1, h2⟩
    · exact Or.inl h
    · exact Or.inr ⟨by omega, h2⟩
  · obtain ⟨h1, h2, h3, h4, h5, h6⟩ := hsome c hc
    exact ⟨h1, h2, by omega, h4, h5, h6⟩

theorem burstInv_final (L a b : Int) (record : Option clientLimiter) (last n : Int)
    (hL : 1 ≤ L) (h : burstInv L a b record last n) : n ≤ 2 * L - 1 := by
  obtain ⟨_, hnone, hsome⟩ := h
  cases hr : record with
  | none =>
    rcases hnone hr with h | ⟨_, h⟩ <;> omega
  | some c =>
    obtain ⟨h1, h2, _, h4, h5, h6⟩ := hsome c hr
    by_cases ha : c.windowStart < a
    · have := h4 ha
      omega
    · by_cases hb : c.windowStart ≤ b
      · have := h5 (by omega) hb
        omega
      · exact h6 (by omega)

theorem burstInv_sweep (rl : RateLimiter) (k : String) (a b last now n : Int)
    (hnd : (rl.clients.map Prod.fst).Nodup) (hshort : b - a < rl.windowDuration)
    (hle : last ≤ now)
    (h : burstInv rl.requestsPerWindow a b (mapGet rl.clients k) last n) :
    burstInv rl.requestsPerWindow a b (mapGet (rl.cleanupTick now).clients k) now n := by
  have hget := cleanupTick_get rl now k hnd
  cases hrec : mapGet rl.clients k with
  | none =>
    rw [hrec] at hget h
    rw [hget]
    exact burstInv_later _ a b none last now n hle h
  | some c =>
    rw [hrec] at hget h
    simp only at hget
    by_cases hs : now - c.windowStart > rl.windowDuration
    · rw [if_pos hs] at hget
      rw [hget]
      obtain ⟨h0, _, hsome⟩ := h
      obtain ⟨h1, h2, h3, h4, h5, h6⟩ := hsome c rfl
      refine ⟨fun ht => h0 (by omega), fun _ => ?_, (fun c' hc' => by cases hc')⟩
      by_cases ha : c.windowStart < a
      · have := h4 ha
        exact Or.inl (by omega)
      · refine Or.inr ⟨by omega, ?_⟩
        by_cases hb : c.windowStart ≤ b
        · have := h5 (by omega) hb
          omega
        · exact h6 (by omega)
    · rw [if_neg hs] at hget
      rw [hget]
      exact burstInv_later _ a b (some c) last now n hle h

theorem burstInv_allow (rl : RateLimiter) (k : String) (a b last now n : Int)
    (hL : 1 ≤ rl.requestsPerWindow) (hshort : b - a < rl.windowDuration)
    (hle : last ≤ now)
    (h : burstInv rl.requestsPerWindow a b (mapGet rl.clients k) last n) :
    burstInv rl.requestsPerWindow a b (mapGet (rl.Allow now k).2.clients k) now
      (n + if k = k ∧ a ≤ now ∧ now ≤ b ∧ (rl.Allow now k).1 = true then 1 else 0) := by
  obtain ⟨h0, hnone, hsome⟩ := h
  cases hrec : mapGet rl.clients k with
  | none =>
    rw [allow_absent rl now k hrec]
    simp only [mapGet_mapSet_self, true_and]
    have hn := hnone hrec
    refine ⟨fun ht => ?_, (fun hr => by cases hr), fun c hc => ?_⟩
    · rw [if_neg (by omega)]
      have := h0 (by omega)
      omega
    · cases hc
      simp only
      split <;> refine ⟨le_refl _, hL, le_refl _, ?_, ?_, ?_⟩ <;> intros <;> omega
  | some c =>
    obtain ⟨h1, h2, h3, h4, h5, h6⟩ := hsome c hrec
    by_cases hexp : rl.windowDuration ≤ now - c.windowStart
    · rw [allow_expired rl now k c hrec hexp]
      simp only [mapGet_mapSet_self, true_and]
      refine ⟨fun ht => ?_, (fun hr => by cases hr), fun c' hc' => ?_⟩
      · rw [if_neg (by omega)]
        have := h0 (by omega)
        omega
      · cases hc'
        simp only
        have hcase : (c.windowStart < a ∧ n ≤ c.count - 1) ∨
            (a ≤ c.windowStart ∧ b < now ∧ n ≤ 2 * rl.requestsPerWindow - 1) := by
          by_cases ha : c.windowStart < a
          · exact Or.inl ⟨ha, h4 ha⟩
          · refine Or.inr ⟨by omega, by omega, ?_⟩
            by_cases hb : c.windowStart ≤ b
            · have := h5 (by omega) hb
              omega
            · exact h6 (by omega)
        split <;> refine ⟨le_refl _, hL, le_refl _, ?_, ?_, ?_⟩ <;> intros <;> omega
    · by_cases hfull : rl.requestsPerWindow ≤ c.count
      · rw [allow_denied rl now k c hrec (not_le.1 hexp) hfull]
        simp only [Bool.false_eq_true, and_false, if_false, add_zero]
        exact burstInv_later _ a b _ last now n hle ⟨h0, hnone, hsome⟩
      · rw [allow_counted rl now k c hrec (not_le.1 hexp) (not_le.1 hfull)]
        simp only [mapGet_mapSet_self, true_and]
        refine ⟨fun ht => ?_, (fun hr => by cases hr), fun c' hc' => ?_⟩
        · rw [if_neg (by omega)]
          have := h0 (by omega)
          omega
        · cases hc'
          simp only
          split <;> refine ⟨by omega, by omega, by omega, ?_, ?_, ?_⟩ <;> intro hx <;> omega

/-- Along a run whose clock readings do not go back, the allowed calls of `k` inside an
interval shorter than the window number at most `2 * limit - 1`. -/
theorem burst_run (evs : List Event) (rl : RateLimiter) (k : String) (a b last n : Int)
    (hL : 1 ≤ rl.requestsPerWindow) (hshort : b - a < rl.windowDuration)
    (hnd : (rl.clients.map Prod.fst).Nodup)
    (hinv : burstInv rl.requestsPerWindow a b (mapGet rl.clients k) last n)
    (hmono : (last :: evs.map Event.time).Pairwise (· ≤ ·)) :
    n + ((allowedIn (rl.run evs).1 k a b : Nat) : Int) ≤ 2 * rl.requestsPerWindow - 1 := by
  induction evs generalizing rl last n with
  | nil =>
    have := burstInv_final _ a b _ last n hL hinv
    simpa [RateLimiter.run, allowedIn] using this
  | cons e rest ih =>
    rw [List.map_cons, List.pairwise_cons, List.pairwise_cons] at hmono
    obtain ⟨hlo, hrest, hsorted⟩ := hmono
    have hle : last ≤ e.time := hlo _ (List.mem_cons_self _ _)
    have hmono' : (e.time :: rest.map Event.time).Pairwise (· ≤ ·) :=
      List.pairwise_cons.2 ⟨hrest, hsorted⟩
    cases e with
    | allow ip now =>
      have hcfg := allow_config rl now ip
      rw [run_allow_cons, allowedIn_cons]
      by_cases hip : ip = k
      · subst hip
        have hstep := burstInv_allow rl ip a b last now n hL hshort hle hinv
        have := ih (rl.Allow now ip).2 now _ (by rw [hcfg.1]; exact hL)
          (by rw [hcfg.2]; exact hshort) (allow_keys_nodup rl now ip hnd)
          (by rw [hcfg.1]; exact hstep) hmono'
        rw [hcfg.1] at this
        omega
      · have hk : k ≠ ip := fun h => hip h.symm
        have hstep : burstInv rl.requestsPerWindow a b
            (mapGet (rl.Allow now ip).2.clients k) now n := by
          rw [allow_other rl now ip k hk]
          exact burstInv_later _ a b _ last now n hle hinv
        have := ih (rl.Allow now ip).2 now n (by rw [hcfg.1]; exact hL)
          (by rw [hcfg.2]; exact hshort) (allow_keys_nodup rl now ip hnd)
          (by rw [hcfg.1]; exact hstep) hmono'
        rw [hcfg.1] at this
        rw [if_neg (fun h => hip h.1)]
        omega
    | sweep now =>
      rw [run_sweep_cons]
      exact ih (rl.cleanupTick now) now n hL hshort (cleanupTick_keys_nodup rl now hnd)
        (burstInv_sweep rl k a b last now n hnd hshort hle hinv) hmono'

/-- The burst bound from a fresh limiter. -/
theorem burst_from_new (config : RateLimitConfig) (start : Int) (evs : List Event)
    (k : String) (a b : Int) (hmono : (evs.map Event.time).Pairwise (· ≤ ·))
    (hshort : b - a < Minute) :
    ((allowedIn ((NewRateLimiter config start).run evs).1 k a b : Nat) : Int) ≤
      2 * (NewRateLimiter config start).requestsPerWindow - 1 := by
  have hL : 1 ≤ (NewRateLimiter config start).requestsPerWindow := by
    simp only [NewRateLimiter]
    split <;> omega
  obtain ⟨lo, hlo⟩ := sorted_from_first evs hmono
  have := burst_run evs (NewRateLimiter config start) k a b lo 0 hL hshort
    (by simp [NewRateLimiter])
    ⟨fun _ => rfl, fun _ => Or.inl (by omega), fun c hc => by simp [NewRateLimiter, mapGet] at hc⟩
    hlo
  omega

/-- Repeated calls at one clock reading inside the window, with room under the limit, are
all allowed and each raises the count by one. -/
theorem run_replicate_allowed (m : Nat) (rl : RateLimiter) (k : String) (c ws t : Int)
    (hrec : mapGet rl.clients k = some { count := c, windowStart := ws })
    (hwin : t - ws < rl.windowDuration) (hroom : c + (m : Int) ≤ rl.requestsPerWindow) :
    (rl.run (List.replicate m (Event.allow k t))).1 = List.replicate m (k, t, true) ∧
    mapGet (rl.run (List.replicate m (Event.allow k t))).2.clients k =
      some { count := c + (m : Int), windowStart := ws } ∧
    (rl.run (List.replicate m (Event.allow k t))).2.requestsPerWindow
      = rl.requestsPerWindow ∧
    (rl.run (List.replicate m (Event.allow k t))).2.windowDuration = rl.windowDuration := by
  induction m generalizing rl c with
  | zero => simpa [RateLimiter.run] using hrec
  | succ m ih =>
    have hc : c < rl.requestsPerWindow := by
      have : ((m + 1 : Nat) : Int) = (m : Int) + 1 := by push_cast; ring
      omega
    have hstep := allow_counted rl t k _ hrec hwin hc
    have hcfg := allow_config rl t k
    have hnext := ih (rl.Allow t k).2 (c + 1)
      (by rw [hstep]; exact mapGet_mapSet_self _ _ _)
      (by rw [hcfg.2]; exact hwin)
      (by rw [hcfg.1]; push_cast at hroom; omega)
    have hans : (rl.Allow t k).1 = true := by rw [hstep]
    rw [List.replicate_succ, run_allow_cons]
    refine ⟨?_, ?_, ?_, ?_⟩
    · rw [hnext.1, hans]
      rfl
    · rw [hnext.2.1]
      congr 2
      push_cast
      ring
    · rw [hnext.2.2.1, hcfg.1]
    · rw [hnext.2.2.2, hcfg.2]

/-- The log of the straddling schedule on a fresh limiter with limit `n`: every call is
allowed. -/
theorem burstSchedule_log (k : String) (n : Nat) (hn : 1 ≤ n) (start : Int) :
    ((NewRateLimiter { RequestsPerMinute := (n : Int) } start).run (burstSchedule k n)).1 =
      (k, 0, true) ::
        (List.replicate (n - 1) (k, 1, true) ++ List.replicate n (k, Minute, true)) := by
  have hlimit : (NewRateLimiter { RequestsPerMinute := (n : Int) } start).requestsPerWindow
      = (n : Int) := by
    simp only [NewRateLimiter]
    rw [if_neg (by omega)]
  have hwindow : (NewRateLimiter { RequestsPerMinute := (n : Int) } start).windowDuration
      = Minute := rfl
  have hM1 : (1 : Int) - 0 < Minute := by decide
  have hM2 : Minute ≤ Minute - 0 := by decide
  have hM3 : Minute - Minute < Minute := by decide
  obtain ⟨m, hm⟩ : ∃ m, n = m + 1 := ⟨n - 1, by omega⟩
  -- the first call creates the record
  have h1 := allow_absent (NewRateLimiter { RequestsPerMinute := (n : Int) } start) 0 k rfl
  have hcfg1 := allow_config (NewRateLimiter { RequestsPerMinute := (n : Int) } start) 0 k
  have hans1 : ((NewRateLimiter { RequestsPerMinute := (n : Int) } start).Allow 0 k).1
      = true := by rw [h1]
  have hrec1 : mapGet
      ((NewRateLimiter { RequestsPerMinute := (n : Int) } start).Allow 0 k).2.clients k
      = some { count := 1, windowStart := 0 } := by
    rw [h1]; exact mapGet_mapSet_self _ _ _
  obtain ⟨rl1, hrl1⟩ : ∃ r,
      ((NewRateLimiter { RequestsPerMinute := (n : Int) } start).Allow 0 k).2 = r := ⟨_, rfl⟩
  rw [hrl1, hlimit, hwindow] at hcfg1
  rw [hrl1] at hrec1
  -- the calls at reading 1 fill the window
  have h2 := run_replicate_allowed (n - 1) rl1 k 1 0 1 hrec1
    (by rw [hcfg1.2]; exact hM1) (by rw [hcfg1.1]; omega)
  obtain ⟨rl2, hrl2⟩ : ∃ r,
      (rl1.run (List.replicate (n - 1) (Event.allow k 1))).2 = r := ⟨_, rfl⟩
  rw [hrl2, hcfg1.1, hcfg1.2] at h2
  have hfull : (1 : Int) + ((n - 1 : Nat) : Int) = (n : Int) := by omega
  rw [hfull] at h2
  -- the first call at reading `Minute` resets the window
  have h3 := allow_expired rl2 Minute k _ h2.2.1 (by rw [h2.2.2.2]; exact hM2)
  have hcfg3 := allow_config rl2 Minute k
  have hans3 : (rl2.Allow Minute k).1 = true := by rw [h3]
  have hrec3 : mapGet (rl2.Allow Minute k).2.clients k
      = some { count := 1, windowStart := Minute } := by
    rw [h3]; exact mapGet_mapSet_self _ _ _
  obtain ⟨rl3, hrl3⟩ : ∃ r, (rl2.Allow Minute k).2 = r := ⟨_, rfl⟩
  rw [hrl3, h2.2.2.1, h2.2.2.2] at hcfg3
  rw [hrl3] at hrec3
  have h4 := run_replicate_allowed (n - 1) rl3 k 1 Minute Minute hrec3
    (by rw [hcfg3.2]; exact hM3) (by rw [hcfg3.1]; omega)
  have hsplit : List.replicate n (Event.allow k Minute) =
      Event.allow k Minute :: List.replicate (n - 1) (Event.allow k Minute) := by
    rw [hm, Nat.add_sub_cancel, List.replicate_succ]
  have hsplit' : List.replicate n (k, Minute, true) =
      (k, Minute, true) :: List.replicate (n - 1) (k, Minute, true) := by
    rw [hm, Nat.add_sub_cancel, List.replicate_succ]
  unfold burstSchedule
  rw [run_allow_cons, hans1, hrl1, run_append, h2.1, hrl2, hsplit, run_allow_cons, hans3,
    hrl3, h4.1, hsplit']

/-- C14, as stated, fails in its last part: with limit 1 no run reaches `2 * 1` allowed
calls of one key inside an interval shorter than the window. The call that opens a window
is itself allowed, and the next window opens a full `windowDuration` later. -/
theorem burst_of_twice_the_limit_unreachable :
    ¬ ∃ (evs : List Event) (k : String) (a b : Int),
      (evs.map Event.time).Pairwise (· ≤ ·) ∧ b - a < Minute ∧
      2 * 1 ≤ allowedIn ((NewRateLimiter { RequestsPerMinute := 1 } 0).run evs).1 k a b := by
  rintro ⟨evs, k, a, b, hmono, hshort, hmany⟩
  have h := burst_from_new { RequestsPerMinute := 1 } 0 evs k a b hmono hshort
  have hlimit : (NewRateLimiter { RequestsPerMinute := 1 } 0).requestsPerWindow = 1 := by
    decide
  rw [hlimit] at h
  omega

/-- C14, amended. On a limiter made by `NewRateLimiter`, for every key and every run of
`Allow` calls and sweeps at clock readings that do not go back, the calls of the key that
are allowed inside an interval shorter than the window number at most `2 * limit - 1`,
hence less than `2 * limit`. For every limit `n >= 1` the schedule `burstSchedule`
straddles a window boundary with all its `2 * n` calls allowed: `2 * n - 1` of them lie
in the interval `[1, Minute]`, which is shorter than the window, and all `2 * n` in
`[0, Minute]`, whose length is the window. -/
theorem burst_bound (config : RateLimitConfig) (start : Int) (evs : List Event)
    (k : String) (a b : Int) (hmono : (evs.map Event.time).Pairwise (· ≤ ·))
    (hshort : b - a < (NewRateLimiter config start).windowDuration) :
    ((allowedIn ((NewRateLimiter config start).run evs).1 k a b : Nat) : Int) ≤
      2 * (NewRateLimiter config start).requestsPerWindow - 1 ∧
    ((allowedIn ((NewRateLimiter config start).run evs).1 k a b : Nat) : Int) ≤
      2 * (NewRateLimiter config start).requestsPerWindow ∧
    (∀ n : Nat, 1 ≤ n →
      ((burstSchedule k n).map Event.time).Pairwise (· ≤ ·) ∧
      answers ((NewRateLimiter { RequestsPerMinute := (n : Int) } start).run
        (burstSchedule k n)).1 = List.replicate (2 * n) true ∧
      Minute - 1 < (NewRateLimiter { RequestsPerMinute := (n : Int) } start).windowDuration ∧
      allowedIn ((NewRateLimiter { RequestsPerMinute := (n : Int) } start).run
        (burstSchedule k n)).1 k 1 Minute = 2 * n - 1 ∧
      allowedIn ((NewRateLimiter { RequestsPerMinute := (n : Int) } start).run
        (burstSchedule k n)).1 k 0 Minute = 2 * n) := by
  have h := burst_from_new config start evs k a b hmono hshort
  refine ⟨h, by omega, ?_⟩
  intro n hn
  obtain ⟨m, hm⟩ : ∃ m, n = m + 1 := ⟨n - 1, by omega⟩
  have hlog := burstSchedule_log k n hn start
  have h01 : (0 : Int) ≤ 1 := by decide
  have h0M : (0 : Int) ≤ Minute := by decide
  have h1M : (1 : Int) ≤ Minute := by decide
  have h10 : ¬ (1 : Int) ≤ 0 := by decide
  refine ⟨?_, ?_, (by show Minute - 1 < Minute; decide), ?_, ?_⟩
  · simp only [burstSchedule, List.map_cons, List.map_append, List.map_replicate, Event.time]
    rw [List.pairwise_cons, List.pairwise_append]
    refine ⟨?_, ?_, ?_, ?_⟩
    · intro x hx
      rcases List.mem_append.1 hx with h' | h'
      · rw [List.eq_of_mem_replicate h']; exact h01
      · rw [List.eq_of_mem_replicate h']; exact h0M
    · exact List.pairwise_replicate.2 (Or.inr (le_refl _))
    · exact List.pairwise_replicate.2 (Or.inr (le_refl _))
    · intro x hx y hy
      rw [List.eq_of_mem_replicate hx, List.eq_of_mem_replicate hy]
      exact h1M
  · rw [hlog]
    simp only [answers, List.map_cons, List.map_append, List.map_replicate]
    refine List.eq_replicate_iff.2 ⟨?_, ?_⟩
    · simp only [List.length_cons, List.length_append, List.length_replicate]
      omega
    · intro x hx
      rcases List.mem_cons.1 hx with h' | h'
      · exact h'
      · rcases List.mem_append.1 h' with h'' | h''
        · exact List.eq_of_mem_replicate h''
        · exact List.eq_of_mem_replicate h''
  · rw [hlog]
    simp only [allowedIn, List.countP_cons, List.countP_append, List.countP_replicate]
    simp [h10, h1M]
    omega
  · rw [hlog]
    simp only [allowedIn, List.countP_cons, List.countP_append, List.countP_replicate]
    simp [h01, h0M, h1M]
    omega

/-- Witness for C14: limit 2, four calls around the window boundary and a sweep, counted
over the interval from reading 1 to `Minute`. -/
theorem burst_bound_witness :
    ((allowedIn ((NewRateLimiter { RequestsPerMinute := 2 } 0).run
        [Event.allow "x" 0, Event.allow "x" 1, Event.sweep 2, Event.allow "x" Minute,
          Event.allow "x" Minute]).1 "x" 1 Minute : Nat) : Int) ≤
      2 * (NewRateLimiter { RequestsPerMinute := 2 } 0).requestsPerWindow - 1 :=
  (burst_bound { RequestsPerMinute := 2 } 0
    [Event.allow "x" 0, Event.allow "x" 1, Event.sweep 2, Event.allow "x" Minute,
      Event.allow "x" Minute] "x" 1 Minute (by decide) (by decide)).1

/-! ## Claims on the sort parameters -/

/-- C15 at the inputs `ASC` and `DESC`: `validateQueryParam` compares in lower case, so
both values count as allowed, but `ParseListBetsRequest` keeps them as written. The
produced `Sort.Order` is then neither `asc` nor `desc`, `ValidateSort` rejects the
request, and `applySorting`, which tests `Order == "desc"`, would sort `DESC` in
ascending order. -/
theorem order_case_is_kept :
    validateQueryParam (sanitizeQueryParam "ASC") ["asc", "desc"] = true ∧
    ParseListBetsRequest_Order "ASC" = "ASC" ∧
    ParseListBetsRequest_Order "ASC" ≠ "asc" ∧ ParseListBetsRequest_Order "ASC" ≠ "desc" ∧
    ValidateSort (ParseListBetsRequest_SortBy "") (ParseListBetsRequest_Order "ASC") ≠ none ∧
    ParseListBetsRequest_Order "DESC" = "DESC" ∧
    ValidateSort (ParseListBetsRequest_SortBy "") (ParseListBetsRequest_Order "DESC") ≠ none ∧
    (inMemoryBetRepository.applySorting
        [⟨"a", 1, 50, 2, 0⟩, ⟨"b", 1, 10, 2, 1⟩, ⟨"c", 1, 30, 2, 2⟩]
        ⟨"amount", ParseListBetsRequest_Order "DESC"⟩).map Bet.Amount = [10, 30, 50] ∧
    ParseListBetsRequest_Order "" = "desc" ∧ ParseListBetsRequest_Order "up" = "desc" ∧
    ParseListBetsRequest_Order " desc " = "desc" := by
  decide

/-- C16. Unrecognized sort key: for every sequence of bets, every order and every `SortBy`
other than `amount` and `created_at`, the empty string included, `applySorting` returns
the sequence it returns for `SortBy = "created_at"`. -/
theorem applySorting_unknown_key (bets : List Bet) (sortBy order : String)
    (hamount : sortBy ≠ "amount") (_hcreated : sortBy ≠ "created_at") :
    inMemoryBetRepository.applySorting bets ⟨sortBy, order⟩ =
      inMemoryBetRepository.applySorting bets ⟨"created_at", order⟩ := by
  have hless : inMemoryBetRepository.sortLess ⟨sortBy, order⟩ =
      inMemoryBetRepository.sortLess ⟨"created_at", order⟩ := by
    funext bi bj
    simp [inMemoryBetRepository.sortLess, hamount]
  unfold inMemoryBetRepository.applySorting
  rw [hless]

/-- Witness for C16: the empty sort key, descending. -/
theorem applySorting_unknown_key_witness :
    inMemoryBetRepository.applySorting
        [⟨"a", 1, 50, 2, 5⟩, ⟨"b", 1, 10, 2, 9⟩, ⟨"c", 1, 30, 2, 7⟩] ⟨"", "desc"⟩ =
      inMemoryBetRepository.applySorting
        [⟨"a", 1, 50, 2, 5⟩, ⟨"b", 1, 10, 2, 9⟩, ⟨"c", 1, 30, 2, 7⟩]
        ⟨"created_at", "desc"⟩ :=
  applySorting_unknown_key [⟨"a", 1, 50, 2, 5⟩, ⟨"b", 1, 10, 2, 9⟩, ⟨"c", 1, 30, 2, 7⟩]
    "" "desc" (by decide) (by decide)

end BetLedger
